import Mathlib

/-!
# Verification of the Turso3D octree (`Turso3D/Renderer/Octree.cpp`)

A shallow embedding of the dynamic octree of the Turso3D rendering engine.
Machine floats are modelled by rationals (`ℚ`), raw pointers by paths from the
root (`List ℕ` of child indices), and the pooled octant records by an
inductive tree in which a freed octant is simply absent.  The public
operations `Update`, `Resize`, `RemoveNode`, `QueueUpdate`, `CancelUpdate`,
`Raycast` and `RaycastSingle` are translated from `Octree.cpp`; the small
math helpers (`BoundingBox`, `Vector3`, `Ray::HitDistance`) and the inline
`Octant` accessors live in headers that are not part of the sources being
verified and are modelled from the specification where needed.
-/

namespace Turso3D

/-- A 3-component vector with rational coordinates.  Stands in for the
engine's float-based `Vector3` (`Math/Vector3.h`, not among the sources). -/
structure Vector3 where
  x : ℚ
  y : ℚ
  z : ℚ
deriving DecidableEq, Repr

instance : Add Vector3 := ⟨fun a b => ⟨a.x + b.x, a.y + b.y, a.z + b.z⟩⟩

instance : Sub Vector3 := ⟨fun a b => ⟨a.x - b.x, a.y - b.y, a.z - b.z⟩⟩

@[simp] theorem Vector3.add_def (a b : Vector3) :
    a + b = ⟨a.x + b.x, a.y + b.y, a.z + b.z⟩ := rfl

@[simp] theorem Vector3.sub_def (a b : Vector3) :
    a - b = ⟨a.x - b.x, a.y - b.y, a.z - b.z⟩ := rfl

/-- Scalar multiple of a vector. -/
def Vector3.smul (q : ℚ) (v : Vector3) : Vector3 := ⟨q * v.x, q * v.y, q * v.z⟩

/-- An axis-aligned box given by its minimum and maximum corner.  Stands in
for the engine's `BoundingBox` (`Math/BoundingBox.h`, not among the
sources). -/
structure BoundingBox where
  min : Vector3
  max : Vector3
deriving DecidableEq, Repr

/-- Modelled from the spec: `BoundingBox::Center()` of the engine's math
library (absent from the sources) — the midpoint of the two corners. -/
def centerB (b : BoundingBox) : Vector3 := Vector3.smul (1/2) (b.min + b.max)

/-- Modelled from the spec: `BoundingBox::HalfSize()` — half the edge length
on every axis. -/
def halfSizeB (b : BoundingBox) : Vector3 := Vector3.smul (1/2) (b.max - b.min)

/-- Modelled from the spec: `BoundingBox::Size()` — the edge length on every
axis (the object's extent used by the fit test). -/
def sizeB (b : BoundingBox) : Vector3 := b.max - b.min

/-- Modelled from the spec: `outer.IsInside(inner) == INSIDE` of the engine's
math library — the inner box lies fully inside the outer one (boundary
touching allowed, as in the float code's non-strict comparisons). -/
def containsB (outer inner : BoundingBox) : Prop :=
  outer.min.x ≤ inner.min.x ∧ inner.max.x ≤ outer.max.x ∧
  outer.min.y ≤ inner.min.y ∧ inner.max.y ≤ outer.max.y ∧
  outer.min.z ≤ inner.min.z ∧ inner.max.z ≤ outer.max.z

instance (outer inner : BoundingBox) : Decidable (containsB outer inner) := by
  unfold containsB; infer_instance

/-- The geometric data every octant carries (`Octant`'s geometry fields in
`Renderer/Octree.h`): the region, its derived center, half-size and expanded
culling box, and the subdivision level. -/
structure OctGeom where
  worldBoundingBox : BoundingBox
  center : Vector3
  halfSize : Vector3
  cullingBox : BoundingBox
  level : ℤ
deriving DecidableEq, Repr

/-- `Octant::Initialize` (Octree.cpp, lines 33–41): derive center, half-size
and the culling box (the region expanded outward by the half-size) from the
given bounding box. -/
def initGeom (boundingBox : BoundingBox) (level : ℤ) : OctGeom :=
  { worldBoundingBox := boundingBox
    center := centerB boundingBox
    halfSize := halfSizeB boundingBox
    cullingBox := ⟨boundingBox.min - halfSizeB boundingBox,
                   boundingBox.max + halfSizeB boundingBox⟩
    level := level }

/-- `Octant::FitBoundingBox` (Octree.cpp, lines 43–59): an object fits at
this level when this is the minimum split level, or the box is at least the
octant's half size on some axis, or the box cannot fit inside a child
octant's culling box. -/
def fitBoundingBox (g : OctGeom) (box : BoundingBox) (boxSize : Vector3) : Bool :=
  if g.level ≤ 1 ∨ boxSize.x ≥ g.halfSize.x ∨ boxSize.y ≥ g.halfSize.y ∨
      boxSize.z ≥ g.halfSize.z then
    true
  else if box.min.x ≤ g.worldBoundingBox.min.x - (1/2) * g.halfSize.x ∨
      box.min.y ≤ g.worldBoundingBox.min.y - (1/2) * g.halfSize.y ∨
      box.min.z ≤ g.worldBoundingBox.min.z - (1/2) * g.halfSize.z ∨
      box.max.x ≥ g.worldBoundingBox.max.x + (1/2) * g.halfSize.x ∨
      box.max.y ≥ g.worldBoundingBox.max.y + (1/2) * g.halfSize.y ∨
      box.max.z ≥ g.worldBoundingBox.max.z + (1/2) * g.halfSize.z then
    true
  else
    false

/-- Modelled from the spec: `Octant::ChildIndex` (in `Renderer/Octree.h`,
absent from the sources) — "3-bit index selects octant by comparing an
object's center against this octant's center on each axis", with the bit set
on the high side, consistent with how `CreateChildOctant` interprets the
index bits. -/
def childIndex (g : OctGeom) (position : Vector3) : ℕ :=
  (if position.x < g.center.x then 0 else 1) +
  (if position.y < g.center.y then 0 else 2) +
  (if position.z < g.center.z then 0 else 4)

/-- The world bounding box of child `index`, as computed by
`Octree::CreateChildOctant` (Octree.cpp, lines 308–337): each set bit of the
index moves the corresponding minimum coordinate up to the parent's stored
center, each clear bit moves the maximum down to it. -/
def childBoxOf (g : OctGeom) (index : ℕ) : BoundingBox :=
  { min := ⟨if index % 2 = 1 then g.center.x else g.worldBoundingBox.min.x,
            if index / 2 % 2 = 1 then g.center.y else g.worldBoundingBox.min.y,
            if index / 4 % 2 = 1 then g.center.z else g.worldBoundingBox.min.z⟩
    max := ⟨if index % 2 = 1 then g.worldBoundingBox.max.x else g.center.x,
            if index / 2 % 2 = 1 then g.worldBoundingBox.max.y else g.center.y,
            if index / 4 % 2 = 1 then g.worldBoundingBox.max.z else g.center.z⟩ }

/-- Geometry of the child octant created at `index` by
`Octree::CreateChildOctant`: the sub-box at one level lower. -/
def childGeomOf (g : OctGeom) (index : ℕ) : OctGeom :=
  initGeom (childBoxOf g index) (g.level - 1)

/-- An octant's stored geometry is self-consistent: center, half-size and
culling box are the ones `Octant::Initialize` derives from the world
bounding box.  Every octant the octree ever creates satisfies this. -/
def geomOK (g : OctGeom) : Prop :=
  g.center = centerB g.worldBoundingBox ∧
  g.halfSize = halfSizeB g.worldBoundingBox ∧
  g.cullingBox = ⟨g.worldBoundingBox.min - g.halfSize, g.worldBoundingBox.max + g.halfSize⟩

instance (g : OctGeom) : Decidable (geomOK g) := by
  unfold geomOK; infer_instance

/-!
## The octant tree

An `OTree` is one octant record together with the (up to eight) child
octants it owns.  In the C++ code octants are pool-allocated records linked
by raw pointers; here an octant is identified with its path of child indices
from the root, and an octant freed back to the allocator is simply absent
from the tree.  The fields mirror `Octant`: geometry, the list of directly
contained object ids (`nodes`), the aggregate descendant count (`numNodes`)
and the re-sort flag (`sortDirty`). -/
inductive OTree : Type where
  | mk (geom : OctGeom) (nodes : List ℕ) (numNodes : ℕ) (sortDirty : Bool)
       (c0 c1 c2 c3 c4 c5 c6 c7 : Option OTree) : OTree

/-- The stored geometry of the octant. -/
def OTree.geom : OTree → OctGeom
  | .mk g _ _ _ _ _ _ _ _ _ _ _ => g

/-- The list of object ids directly contained in the octant. -/
def OTree.nodes : OTree → List ℕ
  | .mk _ ns _ _ _ _ _ _ _ _ _ _ => ns

/-- The stored aggregate count of objects in this octant and all
descendants. -/
def OTree.numNodes : OTree → ℕ
  | .mk _ _ nn _ _ _ _ _ _ _ _ _ => nn

/-- The re-sort flag. -/
def OTree.sortDirty : OTree → Bool
  | .mk _ _ _ sd _ _ _ _ _ _ _ _ => sd

/-- The child octant at index `i` (`Octant::children[i]`); indices outside
`0..7` yield `none`. -/
def OTree.child : OTree → ℕ → Option OTree
  | .mk _ _ _ _ c0 c1 c2 c3 c4 c5 c6 c7, i =>
    match i with
    | 0 => c0 | 1 => c1 | 2 => c2 | 3 => c3
    | 4 => c4 | 5 => c5 | 6 => c6 | 7 => c7
    | _ => none

/-- Replace the child slot at index `i`; indices outside `0..7` leave the
octant unchanged. -/
def OTree.setChild : OTree → ℕ → Option OTree → OTree
  | t@(.mk g ns nn sd c0 c1 c2 c3 c4 c5 c6 c7), i, x =>
    match i with
    | 0 => .mk g ns nn sd x c1 c2 c3 c4 c5 c6 c7
    | 1 => .mk g ns nn sd c0 x c2 c3 c4 c5 c6 c7
    | 2 => .mk g ns nn sd c0 c1 x c3 c4 c5 c6 c7
    | 3 => .mk g ns nn sd c0 c1 c2 x c4 c5 c6 c7
    | 4 => .mk g ns nn sd c0 c1 c2 c3 x c5 c6 c7
    | 5 => .mk g ns nn sd c0 c1 c2 c3 c4 x c6 c7
    | 6 => .mk g ns nn sd c0 c1 c2 c3 c4 c5 x c7
    | 7 => .mk g ns nn sd c0 c1 c2 c3 c4 c5 c6 x
    | _ => t

/-- Replace the stored aggregate count. -/
def OTree.setNum : OTree → ℕ → OTree
  | .mk g ns _ sd c0 c1 c2 c3 c4 c5 c6 c7, nn => .mk g ns nn sd c0 c1 c2 c3 c4 c5 c6 c7

/-- A freshly allocated octant, as produced by `allocator.Allocate()`
followed by `Octant::Initialize`: given geometry, no nodes, zero count,
clean sort flag, no children. -/
def emptyOctant (g : OctGeom) : OTree :=
  .mk g [] 0 false none none none none none none none none

section TreeBasics

@[simp] theorem OTree.geom_mk (g ns nn sd c0 c1 c2 c3 c4 c5 c6 c7) :
    (OTree.mk g ns nn sd c0 c1 c2 c3 c4 c5 c6 c7).geom = g := rfl

@[simp] theorem OTree.nodes_mk (g ns nn sd c0 c1 c2 c3 c4 c5 c6 c7) :
    (OTree.mk g ns nn sd c0 c1 c2 c3 c4 c5 c6 c7).nodes = ns := rfl

@[simp] theorem OTree.numNodes_mk (g ns nn sd c0 c1 c2 c3 c4 c5 c6 c7) :
    (OTree.mk g ns nn sd c0 c1 c2 c3 c4 c5 c6 c7).numNodes = nn := rfl

@[simp] theorem OTree.sortDirty_mk (g ns nn sd c0 c1 c2 c3 c4 c5 c6 c7) :
    (OTree.mk g ns nn sd c0 c1 c2 c3 c4 c5 c6 c7).sortDirty = sd := rfl

@[simp] theorem OTree.geom_setChild (t : OTree) (i : ℕ) (x : Option OTree) :
    (t.setChild i x).geom = t.geom := by
  cases t with
  | mk g ns nn sd c0 c1 c2 c3 c4 c5 c6 c7 =>
    rcases i with _|_|_|_|_|_|_|_|i <;> rfl

@[simp] theorem OTree.nodes_setChild (t : OTree) (i : ℕ) (x : Option OTree) :
    (t.setChild i x).nodes = t.nodes := by
  cases t with
  | mk g ns nn sd c0 c1 c2 c3 c4 c5 c6 c7 =>
    rcases i with _|_|_|_|_|_|_|_|i <;> rfl

@[simp] theorem OTree.numNodes_setChild (t : OTree) (i : ℕ) (x : Option OTree) :
    (t.setChild i x).numNodes = t.numNodes := by
  cases t with
  | mk g ns nn sd c0 c1 c2 c3 c4 c5 c6 c7 =>
    rcases i with _|_|_|_|_|_|_|_|i <;> rfl

@[simp] theorem OTree.sortDirty_setChild (t : OTree) (i : ℕ) (x : Option OTree) :
    (t.setChild i x).sortDirty = t.sortDirty := by
  cases t with
  | mk g ns nn sd c0 c1 c2 c3 c4 c5 c6 c7 =>
    rcases i with _|_|_|_|_|_|_|_|i <;> rfl

@[simp] theorem OTree.geom_setNum (t : OTree) (nn : ℕ) :
    (t.setNum nn).geom = t.geom := by cases t; rfl

@[simp] theorem OTree.nodes_setNum (t : OTree) (nn : ℕ) :
    (t.setNum nn).nodes = t.nodes := by cases t; rfl

@[simp] theorem OTree.numNodes_setNum (t : OTree) (nn : ℕ) :
    (t.setNum nn).numNodes = nn := by cases t; rfl

@[simp] theorem OTree.sortDirty_setNum (t : OTree) (nn : ℕ) :
    (t.setNum nn).sortDirty = t.sortDirty := by cases t; rfl

@[simp] theorem OTree.child_setNum (t : OTree) (nn : ℕ) (j : ℕ) :
    (t.setNum nn).child j = t.child j := by cases t; rfl

theorem OTree.child_ge_eight (t : OTree) {i : ℕ} (h : 8 ≤ i) : t.child i = none := by
  cases t with
  | mk g ns nn sd c0 c1 c2 c3 c4 c5 c6 c7 =>
    rcases i with _|_|_|_|_|_|_|_|i <;> first | omega | rfl

theorem OTree.child_setChild (t : OTree) (i j : ℕ) (x : Option OTree) (hi : i < 8) :
    (t.setChild i x).child j = if j = i then x else t.child j := by
  cases t with
  | mk g ns nn sd c0 c1 c2 c3 c4 c5 c6 c7 =>
    rcases i with _|_|_|_|_|_|_|_|i <;>
      rcases j with _|_|_|_|_|_|_|_|j <;>
      simp [OTree.child, OTree.setChild] <;> omega

@[simp] theorem OTree.child_setChild_self (t : OTree) (i : ℕ) (x : Option OTree)
    (hi : i < 8) : (t.setChild i x).child i = x := by
  rw [OTree.child_setChild t i i x hi]; simp

theorem OTree.child_setChild_ne (t : OTree) {i j : ℕ} (x : Option OTree)
    (hi : i < 8) (hij : j ≠ i) : (t.setChild i x).child j = t.child j := by
  rw [OTree.child_setChild t i j x hi]; simp [hij]

theorem OTree.sizeOf_child_lt (t : OTree) {j : ℕ} {c : OTree}
    (h : t.child j = some c) : sizeOf c < sizeOf t := by
  cases t with
  | mk g ns nn sd c0 c1 c2 c3 c4 c5 c6 c7 =>
    rcases j with _|_|_|_|_|_|_|_|j <;> simp [OTree.child] at h <;>
      subst h <;> simp <;> omega

/-- Structural induction over the octant tree through the uniform `child`
accessor. -/
theorem OTree.inductChild (P : OTree → Prop)
    (h : ∀ t : OTree, (∀ j c, t.child j = some c → P c) → P t) : ∀ t, P t
  | t => h t (fun _ c hc => OTree.inductChild P h c)
termination_by t => sizeOf t
decreasing_by exact OTree.sizeOf_child_lt _ hc

/-- A constructor-shaped extensionality: two octants with equal projections
and equal children are equal. -/
theorem OTree.ext_proj {t t' : OTree}
    (hg : t.geom = t'.geom) (hn : t.nodes = t'.nodes)
    (hm : t.numNodes = t'.numNodes) (hs : t.sortDirty = t'.sortDirty)
    (hc : ∀ j, t.child j = t'.child j) : t = t' := by
  cases t with
  | mk g ns nn sd c0 c1 c2 c3 c4 c5 c6 c7 =>
    cases t' with
    | mk g' ns' nn' sd' d0 d1 d2 d3 d4 d5 d6 d7 =>
      simp only [OTree.geom_mk, OTree.nodes_mk, OTree.numNodes_mk,
        OTree.sortDirty_mk] at hg hn hm hs
      subst hg; subst hn; subst hm; subst hs
      have e0 := hc 0; have e1 := hc 1; have e2 := hc 2; have e3 := hc 3
      have e4 := hc 4; have e5 := hc 5; have e6 := hc 6; have e7 := hc 7
      simp only [OTree.child] at e0 e1 e2 e3 e4 e5 e6 e7
      subst e0; subst e1; subst e2; subst e3; subst e4; subst e5; subst e6; subst e7
      rfl

@[simp] theorem OTree.child_emptyOctant (g : OctGeom) (j : ℕ) :
    (emptyOctant g).child j = none := by
  unfold emptyOctant
  rcases j with _|_|_|_|_|_|_|_|j <;> rfl

@[simp] theorem OTree.geom_emptyOctant (g : OctGeom) : (emptyOctant g).geom = g := rfl

@[simp] theorem OTree.nodes_emptyOctant (g : OctGeom) : (emptyOctant g).nodes = [] := rfl

@[simp] theorem OTree.numNodes_emptyOctant (g : OctGeom) : (emptyOctant g).numNodes = 0 := rfl

@[simp] theorem OTree.sortDirty_emptyOctant (g : OctGeom) :
    (emptyOctant g).sortDirty = false := rfl

end TreeBasics

/-!
## Recursive functions over the tree
-/

/-- The stored count of an optional child (0 for an absent child). -/
def onum : Option OTree → ℕ
  | none => 0
  | some c => c.numNodes

@[simp] theorem onum_none : onum none = 0 := rfl

@[simp] theorem onum_some (c : OTree) : onum (some c) = c.numNodes := rfl

/-- Sum of the stored counts of the eight child slots. -/
def csum (t : OTree) : ℕ :=
  onum (t.child 0) + onum (t.child 1) + onum (t.child 2) + onum (t.child 3) +
  onum (t.child 4) + onum (t.child 5) + onum (t.child 6) + onum (t.child 7)

mutual

/-- Number of occurrences of object id `n` in the node lists of the whole
subtree. -/
def occCount (n : ℕ) : OTree → ℕ
  | .mk _ ns _ _ c0 c1 c2 c3 c4 c5 c6 c7 =>
    ns.count n + (oocc n c0 + oocc n c1 + oocc n c2 + oocc n c3 +
      oocc n c4 + oocc n c5 + oocc n c6 + oocc n c7)

/-- Occurrence count of an optional subtree. -/
def oocc (n : ℕ) : Option OTree → ℕ
  | none => 0
  | some c => occCount n c

end

mutual

/-- `Octree::CollectNodes(result, octant)` (Octree.cpp, lines 371–380): all
object ids stored in the subtree, own nodes first, then the children in
index order. -/
def collectNodes : OTree → List ℕ
  | .mk _ ns _ _ c0 c1 c2 c3 c4 c5 c6 c7 =>
    ns ++ (ocollect c0 ++ (ocollect c1 ++ (ocollect c2 ++ (ocollect c3 ++
      (ocollect c4 ++ (ocollect c5 ++ (ocollect c6 ++ ocollect c7)))))))

/-- Collected nodes of an optional subtree. -/
def ocollect : Option OTree → List ℕ
  | none => []
  | some c => collectNodes c

end

mutual

/-- The stored `numNodes` of every octant equals the length of its own node
list plus the stored counts of its children, recursively. -/
def countsOK : OTree → Prop
  | .mk _ ns nn _ c0 c1 c2 c3 c4 c5 c6 c7 =>
    (nn = ns.length +
      (onum c0 + onum c1 + onum c2 + onum c3 + onum c4 + onum c5 + onum c6 + onum c7)) ∧
    ocountsOK c0 ∧ ocountsOK c1 ∧ ocountsOK c2 ∧ ocountsOK c3 ∧
    ocountsOK c4 ∧ ocountsOK c5 ∧ ocountsOK c6 ∧ ocountsOK c7

/-- `countsOK` of an optional subtree. -/
def ocountsOK : Option OTree → Prop
  | none => True
  | some c => countsOK c

end

mutual

/-- No existing child octant has a zero stored count, recursively: pruned
(empty) octants are freed by removal, so none survives in the tree. -/
def noEmptyChildren : OTree → Prop
  | .mk _ _ _ _ c0 c1 c2 c3 c4 c5 c6 c7 =>
    onoEmpty c0 ∧ onoEmpty c1 ∧ onoEmpty c2 ∧ onoEmpty c3 ∧
    onoEmpty c4 ∧ onoEmpty c5 ∧ onoEmpty c6 ∧ onoEmpty c7

/-- A child slot is either empty or holds an octant with a nonzero count
whose own children again satisfy the invariant. -/
def onoEmpty : Option OTree → Prop
  | none => True
  | some c => c.numNodes ≠ 0 ∧ noEmptyChildren c

end

mutual

/-- Every octant's stored geometry is the one `Octant::Initialize` derives,
and every child's region is the parent sub-box `CreateChildOctant` assigns
at one level lower, recursively. -/
def treeGeomOK : OTree → Prop
  | .mk g _ _ _ c0 c1 c2 c3 c4 c5 c6 c7 =>
    geomOK g ∧
    otreeGeomOK g 0 c0 ∧ otreeGeomOK g 1 c1 ∧ otreeGeomOK g 2 c2 ∧ otreeGeomOK g 3 c3 ∧
    otreeGeomOK g 4 c4 ∧ otreeGeomOK g 5 c5 ∧ otreeGeomOK g 6 c6 ∧ otreeGeomOK g 7 c7

/-- A child slot at index `j` of a parent with geometry `g` is either empty
or holds an octant with the derived sub-geometry, recursively coherent. -/
def otreeGeomOK (g : OctGeom) (j : ℕ) : Option OTree → Prop
  | none => True
  | some c => c.geom = childGeomOf g j ∧ treeGeomOK c

end

mutual

/-- Every octant's `sortDirty` flag is clear, recursively.  This holds
between the public operations: the flag is raised only inside `Update` and
the sort pass at the end of the same `Update` clears it again. -/
def allClean : OTree → Prop
  | .mk _ _ _ sd c0 c1 c2 c3 c4 c5 c6 c7 =>
    sd = false ∧
    oclean c0 ∧ oclean c1 ∧ oclean c2 ∧ oclean c3 ∧
    oclean c4 ∧ oclean c5 ∧ oclean c6 ∧ oclean c7

/-- `allClean` of an optional subtree. -/
def oclean : Option OTree → Prop
  | none => True
  | some c => allClean c

end

mutual

/-- The sort pass at the end of `Octree::Update` (Octree.cpp, lines
141–148): every octant whose `sortDirty` flag is set has its direct node
list sorted and the flag cleared.  The C++ walks the `sortDirtyOctants`
vector, whose members are exactly the flagged octants; the model walks the
tree instead.  `std::sort` on `OctreeNode*` orders by pointer identity,
modelled as ascending object id. -/
def sortPass : OTree → OTree
  | .mk g ns nn sd c0 c1 c2 c3 c4 c5 c6 c7 =>
    .mk g (if sd then ns.mergeSort (fun a b => decide (a ≤ b)) else ns) nn false
      (osort c0) (osort c1) (osort c2) (osort c3)
      (osort c4) (osort c5) (osort c6) (osort c7)

/-- `sortPass` of an optional subtree. -/
def osort : Option OTree → Option OTree
  | none => none
  | some c => some (sortPass c)

end

/-- The octant reached from `t` by following the path of child indices, or
`none` when some link is absent (the pointer analogue: a path names an
octant exactly when the chain of child pointers exists). -/
def octantAt : OTree → List ℕ → Option OTree
  | t, [] => some t
  | t, i :: p =>
    match t.child i with
    | some c => octantAt c p
    | none => none

@[simp] theorem octantAt_nil (t : OTree) : octantAt t [] = some t := rfl

theorem octantAt_cons (t : OTree) (i : ℕ) (p : List ℕ) :
    octantAt t (i :: p) =
      match t.child i with
      | some c => octantAt c p
      | none => none := rfl

/-- `Octree::AddNode` (Octree.cpp, lines 264–281) as a tree transformation:
append the object id to the node list of the octant at `p`, raise that
octant's `sortDirty` flag, and increment the stored count of every octant
along the path (the C++ walks the parent chain upward; here the increments
happen on the way down the same path).  An invalid path leaves the tree
unchanged (the C++ never takes one). -/
def addNodeAt (n : ℕ) : OTree → List ℕ → OTree
  | .mk g ns nn _ c0 c1 c2 c3 c4 c5 c6 c7, [] =>
    .mk g (ns ++ [n]) (nn + 1) true c0 c1 c2 c3 c4 c5 c6 c7
  | t, i :: p =>
    match t.child i with
    | some c => (t.setChild i (some (addNodeAt n c p))).setNum (t.numNodes + 1)
    | none => t

/-- `Octree::RemoveNode(OctreeNode*, Octant*)` (Octree.cpp, lines 283–306)
as a tree transformation on the octant at path `p`: if the object id occurs
in that octant's node list, erase its first occurrence, decrement the
stored count of every octant along the path, and unlink (free) every octant
on the path whose count reached zero — excluding the root, which has no
parent.  Returns the updated tree and whether the id was found; when it is
not found the C++ function does nothing, and neither does the model.

The C++ decrement uses unsigned arithmetic and the unlink consults
`ChildIndex(child->center)`; in every state where the structural invariants
hold (the only states the octree ever constructs) the count is positive
before the decrement and the index recomputation returns the slot the child
actually occupies, which is what the model does directly. -/
def removeNodeAt (n : ℕ) : OTree → List ℕ → OTree × Bool
  | t@(.mk g ns nn sd c0 c1 c2 c3 c4 c5 c6 c7), [] =>
    if n ∈ ns then (.mk g (ns.erase n) (nn - 1) sd c0 c1 c2 c3 c4 c5 c6 c7, true)
    else (t, false)
  | t, i :: p =>
    match t.child i with
    | some c =>
      let r := removeNodeAt n c p
      if r.2 then
        if r.1.numNodes = 0 then ((t.setChild i none).setNum (t.numNodes - 1), true)
        else ((t.setChild i (some r.1)).setNum (t.numNodes - 1), true)
      else (t, false)
    | none => (t, false)

theorem fit_false_level (g : OctGeom) (box : BoundingBox) (boxSize : Vector3)
    (h : fitBoundingBox g box boxSize = false) : 1 < g.level := by
  unfold fitBoundingBox at h
  by_contra hl
  simp [show g.level ≤ 1 by omega] at h

/-- The chain of fresh octants `Octree::Update` creates below an existing
octant when the descent needs children that do not exist yet: starting from
geometry `g`, keep subdividing (`CreateChildOctant` + `Octant::Initialize`)
until `FitBoundingBox` accepts.  Returns the chain (a tree in which each
created octant holds just the next one) and the path to its end. -/
def createChain (g : OctGeom) (box : BoundingBox) (boxCenter boxSize : Vector3) :
    OTree × List ℕ :=
  if hf : fitBoundingBox g box boxSize then (emptyOctant g, [])
  else
    let i := childIndex g boxCenter
    let r := createChain (childGeomOf g i) box boxCenter boxSize
    ((emptyOctant g).setChild i (some r.1), i :: r.2)
termination_by g.level.toNat
decreasing_by
  have := fit_false_level g box boxSize (by simpa using hf)
  simp [childGeomOf, initGeom]
  omega

/-- The `insertHere` decision of `Octree::Update` (Octree.cpp, lines
118–121): at the root the object must stay when its box is not fully
inside the root's culling box, otherwise `FitBoundingBox` decides. -/
def insHere (box : BoundingBox) (boxSize : Vector3) (isRoot : Bool) (t : OTree) : Bool :=
  if isRoot then
    !(decide (containsB t.geom.cullingBox box)) || fitBoundingBox t.geom box boxSize
  else fitBoundingBox t.geom box boxSize

/-- The reinsertion descent of `Octree::Update` (Octree.cpp, lines
112–136): starting from the root, decide `insertHere`.  When the object
does not belong at this level, descend into the child selected by the
object's center, creating it on demand (`CreateChildOctant` returns an
existing child unchanged).  Returns the tree with any created children
grafted in and the path of the octant where `insertHere` held. -/
def descend (box : BoundingBox) (boxCenter boxSize : Vector3) :
    Bool → OTree → OTree × List ℕ := fun isRoot t =>
  if insHere box boxSize isRoot t then (t, [])
  else
    match hc : t.child (childIndex t.geom boxCenter) with
    | some c =>
      let r := descend box boxCenter boxSize false c
      (t.setChild (childIndex t.geom boxCenter) (some r.1), childIndex t.geom boxCenter :: r.2)
    | none =>
      let r := createChain (childGeomOf t.geom (childIndex t.geom boxCenter)) box boxCenter boxSize
      (t.setChild (childIndex t.geom boxCenter) (some r.1), childIndex t.geom boxCenter :: r.2)
termination_by _ t => sizeOf t
decreasing_by exact OTree.sizeOf_child_lt _ hc


/-!
## Uniform characterizations of the recursive functions

The definitions above pattern-match on the eight child fields; the lemmas
here re-express them through the uniform `child` accessor, which is what all
subsequent proofs use.
-/

@[simp] theorem oocc_none (n : ℕ) : oocc n none = 0 := rfl

@[simp] theorem oocc_some (n : ℕ) (c : OTree) : oocc n (some c) = occCount n c := rfl

@[simp] theorem ocollect_none : ocollect none = [] := rfl

@[simp] theorem ocollect_some (c : OTree) : ocollect (some c) = collectNodes c := rfl

@[simp] theorem ocountsOK_none : ocountsOK none := trivial

@[simp] theorem ocountsOK_some (c : OTree) : ocountsOK (some c) ↔ countsOK c := Iff.rfl

@[simp] theorem onoEmpty_none : onoEmpty none := trivial

@[simp] theorem onoEmpty_some (c : OTree) :
    onoEmpty (some c) ↔ c.numNodes ≠ 0 ∧ noEmptyChildren c := Iff.rfl

@[simp] theorem otreeGeomOK_none (g : OctGeom) (j : ℕ) : otreeGeomOK g j none := trivial

@[simp] theorem otreeGeomOK_some (g : OctGeom) (j : ℕ) (c : OTree) :
    otreeGeomOK g j (some c) ↔ c.geom = childGeomOf g j ∧ treeGeomOK c := Iff.rfl

@[simp] theorem oclean_none : oclean none := trivial

@[simp] theorem oclean_some (c : OTree) : oclean (some c) ↔ allClean c := Iff.rfl

@[simp] theorem osort_none : osort none = none := rfl

@[simp] theorem osort_some (c : OTree) : osort (some c) = some (sortPass c) := rfl

theorem ocountsOK_intro (o : Option OTree) (h : ∀ c, o = some c → countsOK c) :
    ocountsOK o := by
  cases o with
  | none => trivial
  | some c => exact h c rfl

theorem onoEmpty_intro (o : Option OTree)
    (h : ∀ c, o = some c → c.numNodes ≠ 0 ∧ noEmptyChildren c) : onoEmpty o := by
  cases o with
  | none => trivial
  | some c => exact h c rfl

theorem otreeGeomOK_intro (g : OctGeom) (j : ℕ) (o : Option OTree)
    (h : ∀ c, o = some c → c.geom = childGeomOf g j ∧ treeGeomOK c) :
    otreeGeomOK g j o := by
  cases o with
  | none => trivial
  | some c => exact h c rfl

theorem oclean_intro (o : Option OTree) (h : ∀ c, o = some c → allClean c) :
    oclean o := by
  cases o with
  | none => trivial
  | some c => exact h c rfl

theorem childIndex_lt8 (g : OctGeom) (p : Vector3) : childIndex g p < 8 := by
  unfold childIndex; split_ifs <;> norm_num

theorem occCount_eq (n : ℕ) (t : OTree) :
    occCount n t = t.nodes.count n +
      (oocc n (t.child 0) + oocc n (t.child 1) + oocc n (t.child 2) + oocc n (t.child 3) +
       oocc n (t.child 4) + oocc n (t.child 5) + oocc n (t.child 6) + oocc n (t.child 7)) := by
  cases t; rfl

theorem collectNodes_eq (t : OTree) :
    collectNodes t = t.nodes ++
      (ocollect (t.child 0) ++ (ocollect (t.child 1) ++ (ocollect (t.child 2) ++
       (ocollect (t.child 3) ++ (ocollect (t.child 4) ++ (ocollect (t.child 5) ++
       (ocollect (t.child 6) ++ ocollect (t.child 7)))))))) := by
  cases t; rfl

theorem countsOK_iff (t : OTree) :
    countsOK t ↔ t.numNodes = t.nodes.length + csum t ∧
      ∀ j c, t.child j = some c → countsOK c := by
  cases t with
  | mk g ns nn sd c0 c1 c2 c3 c4 c5 c6 c7 =>
    simp only [countsOK, csum, OTree.numNodes_mk, OTree.nodes_mk, OTree.child]
    constructor
    · rintro ⟨hs, h0, h1, h2, h3, h4, h5, h6, h7⟩
      refine ⟨hs, ?_⟩
      intro j c hc
      rcases j with _|_|_|_|_|_|_|_|j <;> simp only [OTree.child] at hc
      exacts [(ocountsOK_some c).mp (hc ▸ h0), (ocountsOK_some c).mp (hc ▸ h1), (ocountsOK_some c).mp (hc ▸ h2), (ocountsOK_some c).mp (hc ▸ h3), (ocountsOK_some c).mp (hc ▸ h4), (ocountsOK_some c).mp (hc ▸ h5), (ocountsOK_some c).mp (hc ▸ h6), (ocountsOK_some c).mp (hc ▸ h7), absurd hc (by simp)]
    · rintro ⟨hs, hall⟩
      exact ⟨hs,
        ocountsOK_intro c0 (fun c hc => hall 0 c (by simpa [OTree.child] using hc)),
        ocountsOK_intro c1 (fun c hc => hall 1 c (by simpa [OTree.child] using hc)),
        ocountsOK_intro c2 (fun c hc => hall 2 c (by simpa [OTree.child] using hc)),
        ocountsOK_intro c3 (fun c hc => hall 3 c (by simpa [OTree.child] using hc)),
        ocountsOK_intro c4 (fun c hc => hall 4 c (by simpa [OTree.child] using hc)),
        ocountsOK_intro c5 (fun c hc => hall 5 c (by simpa [OTree.child] using hc)),
        ocountsOK_intro c6 (fun c hc => hall 6 c (by simpa [OTree.child] using hc)),
        ocountsOK_intro c7 (fun c hc => hall 7 c (by simpa [OTree.child] using hc))⟩

theorem noEmptyChildren_iff (t : OTree) :
    noEmptyChildren t ↔
      ∀ j c, t.child j = some c → c.numNodes ≠ 0 ∧ noEmptyChildren c := by
  cases t with
  | mk g ns nn sd c0 c1 c2 c3 c4 c5 c6 c7 =>
    simp only [noEmptyChildren]
    constructor
    · rintro ⟨h0, h1, h2, h3, h4, h5, h6, h7⟩
      intro j c hc
      rcases j with _|_|_|_|_|_|_|_|j <;> simp only [OTree.child] at hc
      exacts [(onoEmpty_some c).mp (hc ▸ h0), (onoEmpty_some c).mp (hc ▸ h1), (onoEmpty_some c).mp (hc ▸ h2), (onoEmpty_some c).mp (hc ▸ h3), (onoEmpty_some c).mp (hc ▸ h4), (onoEmpty_some c).mp (hc ▸ h5), (onoEmpty_some c).mp (hc ▸ h6), (onoEmpty_some c).mp (hc ▸ h7), absurd hc (by simp)]
    · intro hall
      exact ⟨onoEmpty_intro c0 (fun c hc => hall 0 c (by simpa [OTree.child] using hc)),
        onoEmpty_intro c1 (fun c hc => hall 1 c (by simpa [OTree.child] using hc)),
        onoEmpty_intro c2 (fun c hc => hall 2 c (by simpa [OTree.child] using hc)),
        onoEmpty_intro c3 (fun c hc => hall 3 c (by simpa [OTree.child] using hc)),
        onoEmpty_intro c4 (fun c hc => hall 4 c (by simpa [OTree.child] using hc)),
        onoEmpty_intro c5 (fun c hc => hall 5 c (by simpa [OTree.child] using hc)),
        onoEmpty_intro c6 (fun c hc => hall 6 c (by simpa [OTree.child] using hc)),
        onoEmpty_intro c7 (fun c hc => hall 7 c (by simpa [OTree.child] using hc))⟩

theorem treeGeomOK_iff (t : OTree) :
    treeGeomOK t ↔ geomOK t.geom ∧
      ∀ j c, t.child j = some c → c.geom = childGeomOf t.geom j ∧ treeGeomOK c := by
  cases t with
  | mk g ns nn sd c0 c1 c2 c3 c4 c5 c6 c7 =>
    simp only [treeGeomOK, OTree.geom_mk]
    constructor
    · rintro ⟨hg, h0, h1, h2, h3, h4, h5, h6, h7⟩
      refine ⟨hg, ?_⟩
      intro j c hc
      rcases j with _|_|_|_|_|_|_|_|j <;> simp only [OTree.child] at hc
      exacts [(otreeGeomOK_some g _ c).mp (hc ▸ h0), (otreeGeomOK_some g _ c).mp (hc ▸ h1), (otreeGeomOK_some g _ c).mp (hc ▸ h2), (otreeGeomOK_some g _ c).mp (hc ▸ h3), (otreeGeomOK_some g _ c).mp (hc ▸ h4), (otreeGeomOK_some g _ c).mp (hc ▸ h5), (otreeGeomOK_some g _ c).mp (hc ▸ h6), (otreeGeomOK_some g _ c).mp (hc ▸ h7), absurd hc (by simp)]
    · rintro ⟨hg, hall⟩
      exact ⟨hg,
        otreeGeomOK_intro g 0 c0 (fun c hc => hall 0 c (by simpa [OTree.child] using hc)),
        otreeGeomOK_intro g 1 c1 (fun c hc => hall 1 c (by simpa [OTree.child] using hc)),
        otreeGeomOK_intro g 2 c2 (fun c hc => hall 2 c (by simpa [OTree.child] using hc)),
        otreeGeomOK_intro g 3 c3 (fun c hc => hall 3 c (by simpa [OTree.child] using hc)),
        otreeGeomOK_intro g 4 c4 (fun c hc => hall 4 c (by simpa [OTree.child] using hc)),
        otreeGeomOK_intro g 5 c5 (fun c hc => hall 5 c (by simpa [OTree.child] using hc)),
        otreeGeomOK_intro g 6 c6 (fun c hc => hall 6 c (by simpa [OTree.child] using hc)),
        otreeGeomOK_intro g 7 c7 (fun c hc => hall 7 c (by simpa [OTree.child] using hc))⟩

theorem allClean_iff (t : OTree) :
    allClean t ↔ t.sortDirty = false ∧ ∀ j c, t.child j = some c → allClean c := by
  cases t with
  | mk g ns nn sd c0 c1 c2 c3 c4 c5 c6 c7 =>
    simp only [allClean, OTree.sortDirty_mk]
    constructor
    · rintro ⟨hg, h0, h1, h2, h3, h4, h5, h6, h7⟩
      refine ⟨hg, ?_⟩
      intro j c hc
      rcases j with _|_|_|_|_|_|_|_|j <;> simp only [OTree.child] at hc
      exacts [(oclean_some c).mp (hc ▸ h0), (oclean_some c).mp (hc ▸ h1), (oclean_some c).mp (hc ▸ h2), (oclean_some c).mp (hc ▸ h3), (oclean_some c).mp (hc ▸ h4), (oclean_some c).mp (hc ▸ h5), (oclean_some c).mp (hc ▸ h6), (oclean_some c).mp (hc ▸ h7), absurd hc (by simp)]
    · rintro ⟨hg, hall⟩
      exact ⟨hg,
        oclean_intro c0 (fun c hc => hall 0 c (by simpa [OTree.child] using hc)),
        oclean_intro c1 (fun c hc => hall 1 c (by simpa [OTree.child] using hc)),
        oclean_intro c2 (fun c hc => hall 2 c (by simpa [OTree.child] using hc)),
        oclean_intro c3 (fun c hc => hall 3 c (by simpa [OTree.child] using hc)),
        oclean_intro c4 (fun c hc => hall 4 c (by simpa [OTree.child] using hc)),
        oclean_intro c5 (fun c hc => hall 5 c (by simpa [OTree.child] using hc)),
        oclean_intro c6 (fun c hc => hall 6 c (by simpa [OTree.child] using hc)),
        oclean_intro c7 (fun c hc => hall 7 c (by simpa [OTree.child] using hc))⟩

@[simp] theorem sortPass_geom (t : OTree) : (sortPass t).geom = t.geom := by
  cases t; rfl

@[simp] theorem sortPass_numNodes (t : OTree) : (sortPass t).numNodes = t.numNodes := by
  cases t; rfl

@[simp] theorem sortPass_sortDirty (t : OTree) : (sortPass t).sortDirty = false := by
  cases t; rfl

theorem sortPass_nodes (t : OTree) :
    (sortPass t).nodes =
      if t.sortDirty then t.nodes.mergeSort (fun a b => decide (a ≤ b)) else t.nodes := by
  cases t; rfl

theorem sortPass_child (t : OTree) (j : ℕ) :
    (sortPass t).child j = osort (t.child j) := by
  cases t with
  | mk g ns nn sd c0 c1 c2 c3 c4 c5 c6 c7 =>
    rcases j with _|_|_|_|_|_|_|_|j <;> rfl

/-!
## The octree state and its public operations

The tracked objects (`OctreeNode`s) are external to the octree; the model
identifies them by natural-number ids and reads their world bounding boxes
from an environment.  The per-object data the octree owns — the
back-reference to the current octant (`node->impl->octant`), the
`NF_OCTREE_UPDATE_QUEUED` flag and `lastUpdateFrameNumber` — is part of the
octree state, keyed by object id.
-/

/-- The environment of tracked objects: each object id has a current world
bounding box (`node->WorldBoundingBox()`), fixed for the scenarios under
study (an object that moves calls `QueueUpdate` and is re-read at `Update`
time; the theorems quantify over the box assignment). -/
structure Env where
  boxes : ℕ → BoundingBox

/-- Association-list lookup by object id. -/
def lookupA {α : Type} : List (ℕ × α) → ℕ → Option α
  | [], _ => none
  | (k, v) :: l, n => if k = n then some v else lookupA l n

/-- Remove every binding of an object id. -/
def eraseKeyA {α : Type} : List (ℕ × α) → ℕ → List (ℕ × α)
  | [], _ => []
  | kv :: l, n => if kv.1 = n then eraseKeyA l n else kv :: eraseKeyA l n

/-- Overwrite the binding of an object id. -/
def updA {α : Type} (n : ℕ) (v : α) (l : List (ℕ × α)) : List (ℕ × α) :=
  (n, v) :: eraseKeyA l n

/-- `Octree::CancelUpdate` queue scan (Octree.cpp, lines 185–192): replace
the first queue entry equal to the node by a null placeholder. -/
def tombstoneFirst : List (Option ℕ) → ℕ → List (Option ℕ)
  | [], _ => []
  | e :: q, n => if e = some n then none :: q else e :: tombstoneFirst q n

/-- Set membership insert for the queued-flag set (the flag is a boolean per
node; the state stores the set of nodes whose flag is true). -/
def flagSet (l : List ℕ) (n : ℕ) : List ℕ := if n ∈ l then l else n :: l

/-- Clear a node's queued flag. -/
def flagClear (l : List ℕ) (n : ℕ) : List ℕ := l.filter (· ≠ n)

/-- The whole octree state: the root octant tree, the back-reference of
every tracked object (absent key = null back-reference), the pending update
queue with tombstoned entries, the set of objects whose
`NF_OCTREE_UPDATE_QUEUED` flag is set, and the per-node last update frame
stamps. -/
structure OState where
  root : OTree
  octantOf : List (ℕ × List ℕ)
  queue : List (Option ℕ)
  queuedFlags : List ℕ
  lastFrame : List (ℕ × ℕ)

/-- `Octree::Octree()` (Octree.cpp, lines 61–64): root initialized to the
default extents `[-1000, 1000]³` with 8 levels; nothing tracked, queued or
stamped. -/
def octreeInit : OState :=
  { root := emptyOctant (initGeom ⟨⟨-1000, -1000, -1000⟩, ⟨1000, 1000, 1000⟩⟩ 8)
    octantOf := []
    queue := []
    queuedFlags := []
    lastFrame := [] }

/-- `Octree::QueueUpdate` (Octree.cpp, lines 174–179): append the node to
the update queue and set its queued flag. -/
def queueUpdate (s : OState) (n : ℕ) : OState :=
  { s with queue := s.queue ++ [some n], queuedFlags := flagSet s.queuedFlags n }

/-- `Octree::CancelUpdate` (Octree.cpp, lines 181–195): tombstone the first
matching queue entry (later duplicates stay) and clear the queued flag. -/
def cancelUpdate (s : OState) (n : ℕ) : OState :=
  { s with queue := tombstoneFirst s.queue n, queuedFlags := flagClear s.queuedFlags n }

/-- One iteration of the update-queue loop of `Octree::Update` (Octree.cpp,
lines 95–137) on one queue entry: skip tombstones; clear the queued flag
and stamp the frame number; re-read the object's box; do nothing more if
the object's octant still fully contains the box inside its culling box and
the fit test approves; otherwise run the reinsertion descent from the root
and, when the resulting octant differs from the current one, add the object
there first and remove it from the old octant afterwards. -/
def processEntry (env : Env) (frame : ℕ) (s : OState) (entry : Option ℕ) : OState :=
  match entry with
  | none => s
  | some n =>
    let s0 := { s with queuedFlags := flagClear s.queuedFlags n,
                       lastFrame := updA n frame s.lastFrame }
    let box := env.boxes n
    let boxSize := sizeB box
    let fast : Bool :=
      match lookupA s.octantOf n with
      | some q =>
        match octantAt s.root q with
        | some o => decide (containsB o.geom.cullingBox box) && fitBoundingBox o.geom box boxSize
        | none => false
      | none => false
    if fast then s0
    else
      let r := descend box (centerB box) boxSize true s.root
      if lookupA s.octantOf n = some r.2 then { s0 with root := r.1 }
      else
        let t2 := addNodeAt n r.1 r.2
        let t3 :=
          match lookupA s.octantOf n with
          | some q => (removeNodeAt n t2 q).1
          | none => t2
        { s0 with root := t3, octantOf := updA n r.2 s.octantOf }

/-- `Octree::Update` (Octree.cpp, lines 91–149): resolve every pending
queue entry in order, clear the queue, then sort the node list of every
octant whose `sortDirty` flag was raised and clear the flags. -/
def update (env : Env) (frame : ℕ) (s : OState) : OState :=
  let s' := s.queue.foldl (processEntry env frame) s
  { s' with queue := [], root := sortPass s'.root }

/-- `Octree::RemoveNode(OctreeNode*)` (Octree.cpp, lines 165–172): remove
the node from its current octant (a null back-reference makes the inner
removal return immediately), cancel any pending update if the queued flag
is set, and clear the back-reference. -/
def removeNodeOp (s : OState) (n : ℕ) : OState :=
  let t :=
    match lookupA s.octantOf n with
    | some q => (removeNodeAt n s.root q).1
    | none => s.root
  let s1 := { s with root := t }
  let s2 :=
    if n ∈ s1.queuedFlags then
      { s1 with queue := tombstoneFirst s1.queue n, queuedFlags := flagClear s1.queuedFlags n }
    else s1
  { s2 with octantOf := eraseKeyA s2.octantOf n }

/-- `Clamp` of the engine's math helpers, as used by `Octree::Resize`. -/
def clampZ (v lo hi : ℤ) : ℤ := if v < lo then lo else if hi < v then hi else v

/-- `Octree::Resize` (Octree.cpp, lines 151–163): collect every node of the
tree into the (first cleared) update queue, delete all child octants —
which nulls the back-reference and the queued flag of every collected node
— reset the allocator, and reinitialize the root with the new bounding box
and the level count clamped to `[1, 256]`.  Entries pending in the queue
before the call are discarded by the initial clear; their queued flags are
not touched.  The root's `sortDirty` flag is untouched by
`DeleteChildOctants`/`Initialize`. -/
def resize (s : OState) (box : BoundingBox) (numLevels : ℤ) : OState :=
  let collected := collectNodes s.root
  { root := .mk (initGeom box (clampZ numLevels 1 256)) [] 0 s.root.sortDirty
      none none none none none none none none
    octantOf := []
    queue := collected.map some
    queuedFlags := s.queuedFlags.filter (· ∉ collected)
    lastFrame := s.lastFrame }

/-- `Octree::SetBoundingBoxAttr` (Octree.cpp, lines 243–246): overwrite the
root octant's `worldBoundingBox` field alone — center, half-size and
culling box are left as they were (deserialization relies on the subsequent
`SetNumLevelsAttr` to trigger a `Resize`). -/
def setBoundingBoxAttr (s : OState) (box : BoundingBox) : OState :=
  { s with root :=
      match s.root with
      | .mk g ns nn sd c0 c1 c2 c3 c4 c5 c6 c7 =>
        .mk { g with worldBoundingBox := box } ns nn sd c0 c1 c2 c3 c4 c5 c6 c7 }

/-- States reachable from a fresh octree by the public mutating operations
`Update`, `Resize`, `RemoveNode`, `QueueUpdate` and `CancelUpdate`. -/
inductive Reachable (env : Env) : OState → Prop where
  | init : Reachable env octreeInit
  | update {s} (f : ℕ) : Reachable env s → Reachable env (update env f s)
  | resize {s} (box : BoundingBox) (lv : ℤ) : Reachable env s →
      Reachable env (resize s box lv)
  | removeNode {s} (n : ℕ) : Reachable env s → Reachable env (removeNodeOp s n)
  | queueUpdate {s} (n : ℕ) : Reachable env s → Reachable env (queueUpdate s n)
  | cancelUpdate {s} (n : ℕ) : Reachable env s → Reachable env (cancelUpdate s n)

/-!
## Association list and flag-set lemmas
-/

section AssocLemmas

variable {α : Type}

@[simp] theorem lookupA_nil (n : ℕ) : lookupA ([] : List (ℕ × α)) n = none := rfl

theorem lookupA_cons (kv : ℕ × α) (l : List (ℕ × α)) (n : ℕ) :
    lookupA (kv :: l) n = if kv.1 = n then some kv.2 else lookupA l n := by
  obtain ⟨k, v⟩ := kv; rfl

@[simp] theorem lookupA_updA_self (n : ℕ) (v : α) (l : List (ℕ × α)) :
    lookupA (updA n v l) n = some v := by
  unfold updA
  rw [lookupA_cons]
  simp

theorem lookupA_eraseKeyA_self (l : List (ℕ × α)) (n : ℕ) :
    lookupA (eraseKeyA l n) n = none := by
  induction l with
  | nil => rfl
  | cons kv l ih =>
    by_cases h : kv.1 = n
    · simpa [eraseKeyA, h] using ih
    · rw [show eraseKeyA (kv :: l) n = kv :: eraseKeyA l n by simp [eraseKeyA, h],
        lookupA_cons, if_neg h]
      exact ih

theorem lookupA_eraseKeyA_ne (l : List (ℕ × α)) {m n : ℕ} (h : m ≠ n) :
    lookupA (eraseKeyA l m) n = lookupA l n := by
  induction l with
  | nil => rfl
  | cons kv l ih =>
    by_cases hk : kv.1 = m
    · have hn : kv.1 ≠ n := by rw [hk]; exact h
      rw [show eraseKeyA (kv :: l) m = eraseKeyA l m by simp [eraseKeyA, hk],
        ih, lookupA_cons, if_neg hn]
    · rw [show eraseKeyA (kv :: l) m = kv :: eraseKeyA l m by simp [eraseKeyA, hk],
        lookupA_cons, lookupA_cons, ih]

theorem lookupA_updA_ne {m n : ℕ} (v : α) (l : List (ℕ × α)) (h : m ≠ n) :
    lookupA (updA m v l) n = lookupA l n := by
  unfold updA
  rw [lookupA_cons, if_neg h, lookupA_eraseKeyA_ne l h]

/-- The keys of the association list are distinct. -/
def KeysNodup (l : List (ℕ × α)) : Prop := (l.map Prod.fst).Nodup

theorem KeysNodup.nil : KeysNodup ([] : List (ℕ × α)) := by
  simp [KeysNodup]

theorem mem_keys_eraseKeyA (l : List (ℕ × α)) (n a : ℕ)
    (h : a ∈ (eraseKeyA l n).map Prod.fst) : a ∈ l.map Prod.fst := by
  induction l with
  | nil => simpa [eraseKeyA] using h
  | cons kv l ih =>
    by_cases hk : kv.1 = n
    · simp only [eraseKeyA, hk, if_true] at h
      simp [ih h]
    · simp only [eraseKeyA, hk, if_false, List.map_cons, List.mem_cons] at h
      rcases h with h | h
      · simp [h]
      · simp [ih h]

theorem keysNodup_eraseKeyA (l : List (ℕ × α)) (n : ℕ) (h : KeysNodup l) :
    KeysNodup (eraseKeyA l n) := by
  induction l with
  | nil => exact h
  | cons kv l ih =>
    unfold KeysNodup at h ⊢
    simp only [List.map_cons, List.nodup_cons] at h
    by_cases hk : kv.1 = n
    · simpa [eraseKeyA, hk] using ih h.2
    · simp only [eraseKeyA, hk, if_false, List.map_cons, List.nodup_cons]
      exact ⟨fun hm => h.1 (mem_keys_eraseKeyA l n kv.1 hm), ih h.2⟩

theorem not_mem_keys_eraseKeyA (l : List (ℕ × α)) (n : ℕ) :
    n ∉ (eraseKeyA l n).map Prod.fst := by
  induction l with
  | nil => simp [eraseKeyA]
  | cons kv l ih =>
    by_cases hk : kv.1 = n
    · simpa [eraseKeyA, hk] using ih
    · simp only [eraseKeyA, hk, if_false, List.map_cons, List.mem_cons]
      rintro (h | h)
      · exact hk h.symm
      · exact ih h

theorem keysNodup_updA (l : List (ℕ × α)) (n : ℕ) (v : α) (h : KeysNodup l) :
    KeysNodup (updA n v l) := by
  unfold KeysNodup updA
  rw [List.map_cons, List.nodup_cons]
  exact ⟨not_mem_keys_eraseKeyA l n, keysNodup_eraseKeyA l n h⟩

theorem lookupA_eq_none_of_not_mem (l : List (ℕ × α)) (n : ℕ)
    (h : n ∉ l.map Prod.fst) : lookupA l n = none := by
  induction l with
  | nil => rfl
  | cons kv l ih =>
    simp only [List.map_cons, List.mem_cons] at h
    push_neg at h
    rw [lookupA_cons, if_neg (fun hh => h.1 hh.symm)]
    exact ih h.2

theorem mem_keys_of_lookupA_some (l : List (ℕ × α)) (n : ℕ) {v : α}
    (h : lookupA l n = some v) : n ∈ l.map Prod.fst := by
  induction l with
  | nil => simp at h
  | cons kv l ih =>
    rw [lookupA_cons] at h
    by_cases hk : kv.1 = n
    · simp [hk]
    · simp only [hk, if_false] at h
      simp [ih h]

theorem not_mem_keys_of_lookupA_none (l : List (ℕ × α)) (n : ℕ)
    (h : lookupA l n = none) : n ∉ l.map Prod.fst := by
  induction l with
  | nil => simp
  | cons kv l ih =>
    rw [lookupA_cons] at h
    by_cases hk : kv.1 = n
    · simp [hk] at h
    · simp only [hk, if_false] at h
      simp only [List.map_cons, List.mem_cons]
      push_neg
      exact ⟨fun he => hk he.symm, ih h⟩

theorem eraseKeyA_of_not_mem (l : List (ℕ × α)) (n : ℕ)
    (h : n ∉ l.map Prod.fst) : eraseKeyA l n = l := by
  induction l with
  | nil => rfl
  | cons kv l ih =>
    simp only [List.map_cons, List.mem_cons] at h
    push_neg at h
    have hk : kv.1 ≠ n := fun hh => h.1 hh.symm
    simp [eraseKeyA, hk, ih h.2]

theorem length_eraseKeyA_of_some (l : List (ℕ × α)) (n : ℕ) {v : α}
    (hnd : KeysNodup l) (h : lookupA l n = some v) :
    (eraseKeyA l n).length + 1 = l.length := by
  induction l with
  | nil => simp at h
  | cons kv l ih =>
    rw [lookupA_cons] at h
    unfold KeysNodup at hnd
    simp only [List.map_cons, List.nodup_cons] at hnd
    by_cases hk : kv.1 = n
    · rw [show eraseKeyA (kv :: l) n = eraseKeyA l n by simp [eraseKeyA, hk]]
      rw [eraseKeyA_of_not_mem l n (hk ▸ hnd.1)]
      simp
    · simp only [hk, if_false] at h
      rw [show eraseKeyA (kv :: l) n = kv :: eraseKeyA l n by simp [eraseKeyA, hk]]
      simpa using ih hnd.2 h

theorem eraseKeyA_of_lookupA_none (l : List (ℕ × α)) (n : ℕ)
    (h : lookupA l n = none) : eraseKeyA l n = l :=
  eraseKeyA_of_not_mem l n (not_mem_keys_of_lookupA_none l n h)

end AssocLemmas

/-!
## Small tree-surgery lemmas
-/

theorem child_some_lt8 (t : OTree) {i : ℕ} {c : OTree} (h : t.child i = some c) :
    i < 8 := by
  by_contra hge
  rw [t.child_ge_eight (by omega)] at h
  exact absurd h (by simp)

theorem setChild_self (t : OTree) {i : ℕ} {c : OTree} (h : t.child i = some c) :
    t.setChild i (some c) = t := by
  have hi := child_some_lt8 t h
  refine OTree.ext_proj (by simp) (by simp) (by simp) (by simp) ?_
  intro j
  rw [OTree.child_setChild t i j _ hi]
  by_cases hj : j = i
  · subst hj; simp [h]
  · simp [hj]

theorem csum_setChild (t : OTree) {i : ℕ} (x : Option OTree) (hi : i < 8) :
    csum (t.setChild i x) + onum (t.child i) = csum t + onum x := by
  unfold csum
  have hcs := fun j => OTree.child_setChild t i j x hi
  interval_cases i <;> simp only [hcs] <;> simp <;> omega

theorem occCount_setChild (m : ℕ) (t : OTree) {i : ℕ} (x : Option OTree) (hi : i < 8) :
    occCount m (t.setChild i x) + oocc m (t.child i) = occCount m t + oocc m x := by
  rw [occCount_eq m (t.setChild i x), occCount_eq m t]
  have hcs := fun j => OTree.child_setChild t i j x hi
  simp only [OTree.nodes_setChild]
  interval_cases i <;> simp only [hcs] <;> simp <;> omega

theorem occCount_le_of_collect (m : ℕ) (t : OTree) :
    (collectNodes t).count m = occCount m t := by
  induction t using OTree.inductChild with
  | h t ih =>
    rw [collectNodes_eq, occCount_eq]
    have hc : ∀ j, (ocollect (t.child j)).count m = oocc m (t.child j) := by
      intro j
      cases hj : t.child j with
      | none => simp
      | some c => simpa using ih j c hj
    simp only [List.count_append]
    rw [hc 0, hc 1, hc 2, hc 3, hc 4, hc 5, hc 6, hc 7]
    omega

theorem numNodes_eq_collect_length (t : OTree) (h : countsOK t) :
    t.numNodes = (collectNodes t).length := by
  induction t using OTree.inductChild with
  | h t ih =>
    rw [countsOK_iff] at h
    rw [collectNodes_eq, h.1]
    have hc : ∀ j, onum (t.child j) = (ocollect (t.child j)).length := by
      intro j
      cases hj : t.child j with
      | none => simp
      | some c => simpa using ih j c hj (h.2 j c hj)
    simp only [List.length_append]
    rw [csum, hc 0, hc 1, hc 2, hc 3, hc 4, hc 5, hc 6, hc 7]
    omega

theorem numNodes_pos_of_occ (t : OTree) (m : ℕ) (hc : countsOK t)
    (h : occCount m t ≠ 0) : t.numNodes ≠ 0 := by
  rw [numNodes_eq_collect_length t hc]
  rw [← occCount_le_of_collect m t] at h
  intro hlen
  rw [List.length_eq_zero] at hlen
  simp [hlen] at h

/-!
## Lemmas about `addNodeAt`
-/

theorem octantAt_cons_some {t : OTree} {i : ℕ} {p : List ℕ} {o : OTree}
    (h : octantAt t (i :: p) = some o) :
    ∃ c, t.child i = some c ∧ octantAt c p = some o := by
  rw [octantAt_cons] at h
  cases hc : t.child i with
  | none => rw [hc] at h; simp at h
  | some c => rw [hc] at h; exact ⟨c, rfl, h⟩

theorem octantAt_child {t : OTree} {i : ℕ} {c : OTree} (p : List ℕ)
    (h : t.child i = some c) : octantAt t (i :: p) = octantAt c p := by
  rw [octantAt_cons, h]

theorem octantAt_child_none {t : OTree} {i : ℕ} (p : List ℕ)
    (h : t.child i = none) : octantAt t (i :: p) = none := by
  rw [octantAt_cons, h]

theorem addNodeAt_nil (n : ℕ) (t : OTree) :
    addNodeAt n t [] =
      match t with
      | .mk g ns nn _ c0 c1 c2 c3 c4 c5 c6 c7 =>
        .mk g (ns ++ [n]) (nn + 1) true c0 c1 c2 c3 c4 c5 c6 c7 := by
  cases t; rfl

theorem addNodeAt_cons (n : ℕ) (t : OTree) (i : ℕ) (p : List ℕ) :
    addNodeAt n t (i :: p) =
      match t.child i with
      | some c => (t.setChild i (some (addNodeAt n c p))).setNum (t.numNodes + 1)
      | none => t := by
  cases t; rfl

@[simp] theorem addNodeAt_nil_geom (n : ℕ) (t : OTree) :
    (addNodeAt n t []).geom = t.geom := by cases t; rfl

@[simp] theorem addNodeAt_nil_nodes (n : ℕ) (t : OTree) :
    (addNodeAt n t []).nodes = t.nodes ++ [n] := by cases t; rfl

@[simp] theorem addNodeAt_nil_numNodes (n : ℕ) (t : OTree) :
    (addNodeAt n t []).numNodes = t.numNodes + 1 := by cases t; rfl

@[simp] theorem addNodeAt_nil_child (n : ℕ) (t : OTree) (j : ℕ) :
    (addNodeAt n t []).child j = t.child j := by cases t; rfl

theorem addNodeAt_geom (n : ℕ) (p : List ℕ) (t : OTree) :
    (addNodeAt n t p).geom = t.geom := by
  cases p with
  | nil => cases t; rfl
  | cons i p =>
    rw [addNodeAt_cons]
    cases t.child i <;> simp

theorem addNodeAt_numNodes (n : ℕ) {p : List ℕ} {t : OTree} {tgt : OTree}
    (h : octantAt t p = some tgt) :
    (addNodeAt n t p).numNodes = t.numNodes + 1 := by
  cases p with
  | nil => cases t; rfl
  | cons i p =>
    obtain ⟨c, hc, _⟩ := octantAt_cons_some h
    rw [addNodeAt_cons, hc]
    simp

@[simp] theorem occCount_setNum (m : ℕ) (t : OTree) (k : ℕ) :
    occCount m (t.setNum k) = occCount m t := by cases t; rfl

@[simp] theorem csum_setNum (t : OTree) (k : ℕ) : csum (t.setNum k) = csum t := by
  unfold csum; simp

theorem occCount_addNodeAt (m n : ℕ) {p : List ℕ} {t : OTree} {tgt : OTree}
    (h : octantAt t p = some tgt) :
    occCount m (addNodeAt n t p) = occCount m t + if m = n then 1 else 0 := by
  induction p generalizing t with
  | nil =>
    cases t with
    | mk g ns nn sd c0 c1 c2 c3 c4 c5 c6 c7 =>
      show occCount m (.mk g (ns ++ [n]) (nn + 1) true c0 c1 c2 c3 c4 c5 c6 c7) = _
      rw [occCount_eq, occCount_eq]
      simp only [OTree.nodes_mk, OTree.child, List.count_append]
      have : List.count m [n] = if m = n then 1 else 0 := by
        by_cases hmn : m = n <;> simp [hmn, List.count_singleton]
      omega
  | cons i p ih =>
    obtain ⟨c, hc, hrest⟩ := octantAt_cons_some h
    rw [addNodeAt_cons, hc]
    have hi := child_some_lt8 t hc
    have hset := occCount_setChild m t (some (addNodeAt n c p)) hi
    rw [hc] at hset
    simp only [oocc_some] at hset
    have := ih hrest
    simp only [occCount_setNum]
    omega

theorem countsOK_addNodeAt (n : ℕ) {p : List ℕ} {t : OTree} {tgt : OTree}
    (h : octantAt t p = some tgt) (hok : countsOK t) :
    countsOK (addNodeAt n t p) := by
  induction p generalizing t with
  | nil =>
    rw [countsOK_iff] at hok ⊢
    constructor
    · have hcs : csum (addNodeAt n t []) = csum t := by
        unfold csum; simp only [addNodeAt_nil_child]
      rw [addNodeAt_nil_numNodes, addNodeAt_nil_nodes, List.length_append, hcs, hok.1]
      simp; omega
    · intro j c hc
      rw [addNodeAt_nil_child] at hc
      exact hok.2 j c hc
  | cons i p ih =>
    obtain ⟨c, hc, hrest⟩ := octantAt_cons_some h
    rw [addNodeAt_cons, hc]
    have hi := child_some_lt8 t hc
    rw [countsOK_iff] at hok ⊢
    constructor
    · have hset := csum_setChild t (some (addNodeAt n c p)) hi
      rw [hc] at hset
      have hnum := addNodeAt_numNodes n hrest
      simp only [onum_some] at hset
      have h1 := hok.1
      simp only [csum_setNum, OTree.numNodes_setNum, OTree.nodes_setNum,
        OTree.nodes_setChild]
      omega
    · intro j c' hc'
      simp only [OTree.child_setNum] at hc'
      rw [OTree.child_setChild t i j _ hi] at hc'
      by_cases hj : j = i
      · subst hj
        rw [if_pos rfl] at hc'
        cases hc'
        exact ih hrest (hok.2 j c hc)
      · rw [if_neg hj] at hc'
        exact hok.2 j c' hc'

theorem noEmpty_addNodeAt (n : ℕ) {p : List ℕ} {t : OTree} {tgt : OTree}
    (h : octantAt t p = some tgt) (hok : noEmptyChildren t) :
    noEmptyChildren (addNodeAt n t p) := by
  induction p generalizing t with
  | nil =>
    rw [noEmptyChildren_iff] at hok ⊢
    intro j c hc
    rw [addNodeAt_nil_child] at hc
    exact hok j c hc
  | cons i p ih =>
    obtain ⟨c, hc, hrest⟩ := octantAt_cons_some h
    rw [addNodeAt_cons, hc]
    have hi := child_some_lt8 t hc
    rw [noEmptyChildren_iff] at hok ⊢
    intro j c' hc'
    simp only [OTree.child_setNum] at hc'
    rw [OTree.child_setChild t i j _ hi] at hc'
    by_cases hj : j = i
    · simp only [hj, if_true] at hc'
      cases hc'
      refine ⟨?_, ih hrest (hok i c hc).2⟩
      rw [addNodeAt_numNodes n hrest]
      omega
    · simp only [hj, if_false] at hc'
      exact hok j c' hc'

theorem treeGeomOK_addNodeAt (n : ℕ) {p : List ℕ} {t : OTree} {tgt : OTree}
    (h : octantAt t p = some tgt) (hok : treeGeomOK t) :
    treeGeomOK (addNodeAt n t p) := by
  induction p generalizing t with
  | nil =>
    rw [treeGeomOK_iff] at hok ⊢
    refine ⟨by rw [addNodeAt_nil_geom]; exact hok.1, ?_⟩
    intro j c hc
    rw [addNodeAt_nil_child] at hc
    rw [addNodeAt_nil_geom]
    exact hok.2 j c hc
  | cons i p ih =>
    obtain ⟨c, hc, hrest⟩ := octantAt_cons_some h
    rw [addNodeAt_cons, hc]
    have hi := child_some_lt8 t hc
    rw [treeGeomOK_iff] at hok ⊢
    constructor
    · simpa using hok.1
    · intro j c' hc'
      simp only [OTree.child_setNum] at hc'
      rw [OTree.child_setChild t i j _ hi] at hc'
      by_cases hj : j = i
      · subst hj
        rw [if_pos rfl] at hc'
        cases hc'
        obtain ⟨hg, htg⟩ := hok.2 j c hc
        refine ⟨?_, ih hrest htg⟩
        rw [addNodeAt_geom]
        simpa using hg
      · rw [if_neg hj] at hc'
        have := hok.2 j c' hc'
        simpa using this

theorem child_setNum_setChild (t : OTree) (k : ℕ) (i j : ℕ) (x : Option OTree)
    (hi : i < 8) :
    ((t.setChild i x).setNum k).child j = if j = i then x else t.child j := by
  rw [OTree.child_setNum, OTree.child_setChild t i j x hi]

theorem octantAt_addNodeAt_self (n : ℕ) {p : List ℕ} {t : OTree} {tgt : OTree}
    (h : octantAt t p = some tgt) :
    ∃ tgt', octantAt (addNodeAt n t p) p = some tgt' ∧ tgt'.geom = tgt.geom ∧
      tgt'.nodes = tgt.nodes ++ [n] := by
  induction p generalizing t with
  | nil =>
    rw [octantAt_nil] at h
    obtain rfl : t = tgt := by injection h
    exact ⟨addNodeAt n t [], rfl, by simp, by simp⟩
  | cons i p ih =>
    obtain ⟨c, hc, hrest⟩ := octantAt_cons_some h
    rw [addNodeAt_cons, hc]
    have hi := child_some_lt8 t hc
    obtain ⟨tgt', h1, h2, h3⟩ := ih hrest
    refine ⟨tgt', ?_, h2, h3⟩
    have hch : ((t.setChild i (some (addNodeAt n c p))).setNum (t.numNodes + 1)).child i =
        some (addNodeAt n c p) := by
      rw [child_setNum_setChild _ _ _ _ _ hi, if_pos rfl]
    rw [octantAt_child p hch]
    exact h1

theorem octantAt_addNodeAt_mono (n : ℕ) {p : List ℕ} {t : OTree} {tgt : OTree}
    (h : octantAt t p = some tgt) :
    ∀ qm om, octantAt t qm = some om →
      ∃ om', octantAt (addNodeAt n t p) qm = some om' ∧ om'.geom = om.geom ∧
        (∀ m, m ∈ om.nodes → m ∈ om'.nodes) := by
  induction p generalizing t with
  | nil =>
    intro qm om hm
    cases qm with
    | nil =>
      rw [octantAt_nil] at hm
      obtain rfl : t = om := by injection hm
      exact ⟨addNodeAt n t [], octantAt_nil _, by simp, by intro m hm; simp [hm]⟩
    | cons j qm' =>
      obtain ⟨cj, hcj, hrestm⟩ := octantAt_cons_some hm
      refine ⟨om, ?_, rfl, fun m hm => hm⟩
      have hch : (addNodeAt n t []).child j = some cj := by
        rw [addNodeAt_nil_child]; exact hcj
      rw [octantAt_child qm' hch]
      exact hrestm
  | cons i p ih =>
    intro qm om hm
    obtain ⟨c, hc, hrest⟩ := octantAt_cons_some h
    rw [addNodeAt_cons, hc]
    have hi := child_some_lt8 t hc
    cases qm with
    | nil =>
      rw [octantAt_nil] at hm
      obtain rfl : t = om := by injection hm
      exact ⟨_, octantAt_nil _, by simp, by intro m hm; simpa using hm⟩
    | cons j qm' =>
      obtain ⟨cj, hcj, hrestm⟩ := octantAt_cons_some hm
      by_cases hj : j = i
      · subst hj
        rw [hcj] at hc
        obtain rfl : cj = c := by injection hc
        obtain ⟨om', h1, h2, h3⟩ := ih hrest qm' om hrestm
        refine ⟨om', ?_, h2, h3⟩
        have hch : ((t.setChild j (some (addNodeAt n cj p))).setNum (t.numNodes + 1)).child j =
            some (addNodeAt n cj p) := by
          rw [child_setNum_setChild _ _ _ _ _ hi, if_pos rfl]
        rw [octantAt_child qm' hch]
        exact h1
      · refine ⟨om, ?_, rfl, fun m hm => hm⟩
        have hch : ((t.setChild i (some (addNodeAt n c p))).setNum (t.numNodes + 1)).child j =
            some cj := by
          rw [child_setNum_setChild _ _ _ _ _ hi, if_neg hj]; exact hcj
        rw [octantAt_child qm' hch]
        exact hrestm

/-!
## Lemmas about `removeNodeAt`
-/

theorem removeNodeAt_cons_eq (n : ℕ) (t : OTree) (i : ℕ) (p : List ℕ) :
    removeNodeAt n t (i :: p) =
      match t.child i with
      | none => (t, false)
      | some c =>
        if (removeNodeAt n c p).2 then
          if (removeNodeAt n c p).1.numNodes = 0 then
            ((t.setChild i none).setNum (t.numNodes - 1), true)
          else
            ((t.setChild i (some (removeNodeAt n c p).1)).setNum (t.numNodes - 1), true)
        else (t, false) := by
  cases t with
  | mk g ns nn sd c0 c1 c2 c3 c4 c5 c6 c7 =>
    rw [removeNodeAt]
    cases hcc : (OTree.mk g ns nn sd c0 c1 c2 c3 c4 c5 c6 c7).child i <;>
      simp only [hcc]

theorem removeNodeAt_nil_found (n : ℕ) (t : OTree) (h : n ∈ t.nodes) :
    removeNodeAt n t [] =
      (match t with
       | .mk g ns nn sd c0 c1 c2 c3 c4 c5 c6 c7 =>
         (.mk g (ns.erase n) (nn - 1) sd c0 c1 c2 c3 c4 c5 c6 c7 : OTree), true) := by
  cases t with
  | mk g ns nn sd c0 c1 c2 c3 c4 c5 c6 c7 =>
    have h' : n ∈ ns := h
    simp [removeNodeAt, h']

theorem removeNodeAt_nil_notfound (n : ℕ) (t : OTree) (h : n ∉ t.nodes) :
    removeNodeAt n t [] = (t, false) := by
  cases t with
  | mk g ns nn sd c0 c1 c2 c3 c4 c5 c6 c7 =>
    have h' : n ∉ ns := h
    simp [removeNodeAt, h']

theorem removeNodeAt_not_found (n : ℕ) (q : List ℕ) (t : OTree)
    (h : (removeNodeAt n t q).2 = false) : (removeNodeAt n t q).1 = t := by
  cases q with
  | nil =>
    by_cases hm : n ∈ t.nodes
    · rw [removeNodeAt_nil_found n t hm] at h
      simp at h
    · rw [removeNodeAt_nil_notfound n t hm]
  | cons i p =>
    rw [removeNodeAt_cons_eq] at h ⊢
    cases hc : t.child i with
    | none => rfl
    | some c =>
      simp only [hc] at h ⊢
      by_cases hf : (removeNodeAt n c p).2
      · by_cases hz : (removeNodeAt n c p).1.numNodes = 0 <;> simp [hf, hz] at h
      · simp [hf]

theorem removeNodeAt_found_iff (n : ℕ) (q : List ℕ) (t : OTree) :
    (removeNodeAt n t q).2 = true ↔
      ∃ o, octantAt t q = some o ∧ n ∈ o.nodes := by
  induction q generalizing t with
  | nil =>
    by_cases hm : n ∈ t.nodes
    · rw [removeNodeAt_nil_found n t hm]
      simp only [octantAt_nil]
      constructor
      · intro _h
        exact ⟨t, rfl, hm⟩
      · intro _h
        simp
    · rw [removeNodeAt_nil_notfound n t hm]
      simp only [octantAt_nil]
      constructor
      · intro h; simp at h
      · rintro ⟨o, ho, hmem⟩
        obtain rfl : t = o := by injection ho
        exact absurd hmem hm
  | cons i p ih =>
    rw [removeNodeAt_cons_eq]
    cases hc : t.child i with
    | none =>
      simp only
      constructor
      · intro h; simp at h
      · rintro ⟨o, ho, _⟩
        rw [octantAt_child_none p hc] at ho
        simp at ho
    | some c =>
      simp only
      rw [octantAt_child p hc]
      by_cases hf : (removeNodeAt n c p).2
      · by_cases hz : (removeNodeAt n c p).1.numNodes = 0 <;>
          simp [hf, hz, ← ih c]
      · simp only [hf, Bool.false_eq_true, if_false]
        simpa using (fun h => hf ((ih c).mpr h))

theorem removeNodeAt_geom (n : ℕ) (q : List ℕ) (t : OTree) :
    (removeNodeAt n t q).1.geom = t.geom := by
  cases q with
  | nil =>
    by_cases hm : n ∈ t.nodes
    · rw [removeNodeAt_nil_found n t hm]; cases t; rfl
    · rw [removeNodeAt_nil_notfound n t hm]
  | cons i p =>
    rw [removeNodeAt_cons_eq]
    cases hc : t.child i with
    | none => rfl
    | some c =>
      simp only
      by_cases hf : (removeNodeAt n c p).2
      · by_cases hz : (removeNodeAt n c p).1.numNodes = 0 <;> simp [hf, hz]
      · simp [hf]

theorem removeNodeAt_numNodes (n : ℕ) (q : List ℕ) (t : OTree)
    (h : (removeNodeAt n t q).2 = true) :
    (removeNodeAt n t q).1.numNodes = t.numNodes - 1 := by
  cases q with
  | nil =>
    by_cases hm : n ∈ t.nodes
    · rw [removeNodeAt_nil_found n t hm]; cases t; rfl
    · rw [removeNodeAt_nil_notfound n t hm] at h ⊢; simp at h
  | cons i p =>
    rw [removeNodeAt_cons_eq] at h ⊢
    cases hc : t.child i with
    | none => simp only [hc] at h; simp at h
    | some c =>
      simp only [hc] at h ⊢
      by_cases hf : (removeNodeAt n c p).2
      · by_cases hz : (removeNodeAt n c p).1.numNodes = 0 <;> simp [hf, hz]
      · simp [hf] at h

theorem occ_pos_of_octantAt_mem {n : ℕ} {q : List ℕ} {t o : OTree}
    (h : octantAt t q = some o) (hm : n ∈ o.nodes) : 1 ≤ occCount n t := by
  induction q generalizing t with
  | nil =>
    rw [octantAt_nil] at h
    obtain rfl : t = o := by injection h
    rw [occCount_eq]
    have := List.count_pos_iff.mpr hm
    omega
  | cons i p ih =>
    obtain ⟨c, hc, hrest⟩ := octantAt_cons_some h
    have h1 := ih hrest
    rw [occCount_eq n t]
    have hi := child_some_lt8 t hc
    have : oocc n (t.child i) = occCount n c := by rw [hc]; rfl
    interval_cases i <;> omega

theorem occ_zero_of_numNodes_zero {m : ℕ} {t : OTree} (hok : countsOK t)
    (h : t.numNodes = 0) : occCount m t = 0 := by
  have hlen := numNodes_eq_collect_length t hok
  rw [h] at hlen
  have hcount := occCount_le_of_collect m t
  have := List.count_le_length m (collectNodes t)
  omega

theorem removeNodeAt_countsOK (n : ℕ) (q : List ℕ) (t : OTree)
    (hok : countsOK t) : countsOK (removeNodeAt n t q).1 := by
  induction q generalizing t with
  | nil =>
    by_cases hm : n ∈ t.nodes
    · rw [removeNodeAt_nil_found n t hm]
      cases t with
      | mk g ns nn sd c0 c1 c2 c3 c4 c5 c6 c7 =>
        rw [countsOK_iff] at hok ⊢
        have hm' : n ∈ ns := hm
        constructor
        · have h1 := hok.1
          have hcs : csum (OTree.mk g (ns.erase n) (nn - 1) sd c0 c1 c2 c3 c4 c5 c6 c7) =
              csum (OTree.mk g ns nn sd c0 c1 c2 c3 c4 c5 c6 c7) := by
            unfold csum; rfl
          have hlen : (ns.erase n).length + 1 = ns.length :=
            List.length_erase_add_one hm'
          simp only [OTree.numNodes_mk, OTree.nodes_mk, hcs] at h1 ⊢
          omega
        · intro j c hc
          exact hok.2 j c hc
    · rw [removeNodeAt_nil_notfound n t hm]
      exact hok
  | cons i p ih =>
    rw [removeNodeAt_cons_eq]
    cases hc : t.child i with
    | none => exact hok
    | some c =>
      simp only
      rw [countsOK_iff] at hok
      have hcok : countsOK c := hok.2 i c hc
      have hi := child_some_lt8 t hc
      by_cases hf : (removeNodeAt n c p).2
      · have hnum : (removeNodeAt n c p).1.numNodes = c.numNodes - 1 :=
          removeNodeAt_numNodes n p c hf
        have hcpos : 1 ≤ c.numNodes := by
          obtain ⟨o, ho, hmem⟩ := (removeNodeAt_found_iff n p c).mp hf
          have hocc := occ_pos_of_octantAt_mem ho hmem
          have := numNodes_pos_of_occ c n hcok (by omega)
          omega
        by_cases hz : (removeNodeAt n c p).1.numNodes = 0
        · simp only [hf, hz, if_true]
          rw [countsOK_iff]
          constructor
          · have hset := csum_setChild t (none : Option OTree) hi
            rw [hc] at hset
            simp only [onum_some, onum_none] at hset
            have h1 := hok.1
            have : c.numNodes = 1 := by omega
            simp only [csum_setNum, OTree.numNodes_setNum, OTree.nodes_setNum,
              OTree.nodes_setChild]
            omega
          · intro j c' hc'
            rw [child_setNum_setChild _ _ _ _ _ hi] at hc'
            by_cases hj : j = i
            · rw [if_pos hj] at hc'; simp at hc'
            · rw [if_neg hj] at hc'
              exact hok.2 j c' hc'
        · simp only [hf, hz, if_true, if_false]
          rw [countsOK_iff]
          constructor
          · have hset := csum_setChild t (some (removeNodeAt n c p).1) hi
            rw [hc] at hset
            simp only [onum_some] at hset
            have h1 := hok.1
            simp only [csum_setNum, OTree.numNodes_setNum, OTree.nodes_setNum,
              OTree.nodes_setChild]
            omega
          · intro j c' hc'
            rw [child_setNum_setChild _ _ _ _ _ hi] at hc'
            by_cases hj : j = i
            · rw [if_pos hj] at hc'
              obtain rfl : (removeNodeAt n c p).1 = c' := by injection hc'
              exact ih c hcok
            · rw [if_neg hj] at hc'
              exact hok.2 j c' hc'
      · simp only [hf, Bool.false_eq_true, if_false]
        rw [countsOK_iff]
        exact ⟨hok.1, hok.2⟩

theorem removeNodeAt_occ_self (n : ℕ) (q : List ℕ) (t : OTree)
    (hok : countsOK t) (h : (removeNodeAt n t q).2 = true) :
    occCount n (removeNodeAt n t q).1 + 1 = occCount n t := by
  induction q generalizing t with
  | nil =>
    by_cases hm : n ∈ t.nodes
    · rw [removeNodeAt_nil_found n t hm]
      cases t with
      | mk g ns nn sd c0 c1 c2 c3 c4 c5 c6 c7 =>
        rw [occCount_eq, occCount_eq]
        have hm' : n ∈ ns := hm
        have hcnt : (ns.erase n).count n + 1 = ns.count n := by
          rw [List.count_erase_self]
          have := List.count_pos_iff.mpr hm'
          omega
        have hch : ∀ j, (OTree.mk g (ns.erase n) (nn - 1) sd c0 c1 c2 c3 c4 c5 c6 c7).child j
            = (OTree.mk g ns nn sd c0 c1 c2 c3 c4 c5 c6 c7).child j := by
          intro j; rcases j with _|_|_|_|_|_|_|_|j <;> rfl
        simp only [OTree.nodes_mk, hch]
        omega
    · rw [removeNodeAt_nil_notfound n t hm] at h; simp at h
  | cons i p ih =>
    rw [removeNodeAt_cons_eq] at h ⊢
    cases hc : t.child i with
    | none => simp only [hc] at h; simp at h
    | some c =>
      simp only [hc] at h ⊢
      rw [countsOK_iff] at hok
      have hcok : countsOK c := hok.2 i c hc
      have hi := child_some_lt8 t hc
      by_cases hf : (removeNodeAt n c p).2
      · have hihc := ih c hcok hf
        by_cases hz : (removeNodeAt n c p).1.numNodes = 0
        · simp only [hf, hz, if_true]
          have hset := occCount_setChild n t (none : Option OTree) hi
          rw [hc] at hset
          simp only [oocc_some, oocc_none] at hset
          have hzero : occCount n (removeNodeAt n c p).1 = 0 :=
            occ_zero_of_numNodes_zero (removeNodeAt_countsOK n p c hcok) hz
          simp only [occCount_setNum]
          omega
        · simp only [hf, hz, if_true, if_false]
          have hset := occCount_setChild n t (some (removeNodeAt n c p).1) hi
          rw [hc] at hset
          simp only [oocc_some] at hset
          simp only [occCount_setNum]
          omega
      · simp [hf] at h
  termination_by q.length

theorem removeNodeAt_occ_other (n m : ℕ) (q : List ℕ) (t : OTree)
    (hok : countsOK t) (hmn : m ≠ n) :
    occCount m (removeNodeAt n t q).1 = occCount m t := by
  induction q generalizing t with
  | nil =>
    by_cases hmem : n ∈ t.nodes
    · rw [removeNodeAt_nil_found n t hmem]
      cases t with
      | mk g ns nn sd c0 c1 c2 c3 c4 c5 c6 c7 =>
        rw [occCount_eq, occCount_eq]
        have hcnt : (ns.erase n).count m = ns.count m :=
          List.count_erase_of_ne hmn ns
        have hch : ∀ j, (OTree.mk g (ns.erase n) (nn - 1) sd c0 c1 c2 c3 c4 c5 c6 c7).child j
            = (OTree.mk g ns nn sd c0 c1 c2 c3 c4 c5 c6 c7).child j := by
          intro j; rcases j with _|_|_|_|_|_|_|_|j <;> rfl
        simp only [OTree.nodes_mk, hch]
        omega
    · rw [removeNodeAt_nil_notfound n t hmem]
  | cons i p ih =>
    rw [removeNodeAt_cons_eq]
    cases hc : t.child i with
    | none => rfl
    | some c =>
      simp only
      rw [countsOK_iff] at hok
      have hcok : countsOK c := hok.2 i c hc
      have hi := child_some_lt8 t hc
      by_cases hf : (removeNodeAt n c p).2
      · have hihc := ih c hcok
        by_cases hz : (removeNodeAt n c p).1.numNodes = 0
        · simp only [hf, hz, if_true]
          have hset := occCount_setChild m t (none : Option OTree) hi
          rw [hc] at hset
          simp only [oocc_some, oocc_none] at hset
          have hzero : occCount m (removeNodeAt n c p).1 = 0 :=
            occ_zero_of_numNodes_zero (removeNodeAt_countsOK n p c hcok) hz
          simp only [occCount_setNum]
          omega
        · simp only [hf, hz, if_true, if_false]
          have hset := occCount_setChild m t (some (removeNodeAt n c p).1) hi
          rw [hc] at hset
          simp only [oocc_some] at hset
          simp only [occCount_setNum]
          omega
      · simp [hf]

theorem removeNodeAt_noEmpty (n : ℕ) (q : List ℕ) (t : OTree)
    (hok : noEmptyChildren t) : noEmptyChildren (removeNodeAt n t q).1 := by
  induction q generalizing t with
  | nil =>
    by_cases hm : n ∈ t.nodes
    · rw [removeNodeAt_nil_found n t hm]
      cases t with
      | mk g ns nn sd c0 c1 c2 c3 c4 c5 c6 c7 =>
        rw [noEmptyChildren_iff] at hok ⊢
        intro j c hc
        have hch : (OTree.mk g (ns.erase n) (nn - 1) sd c0 c1 c2 c3 c4 c5 c6 c7).child j
            = (OTree.mk g ns nn sd c0 c1 c2 c3 c4 c5 c6 c7).child j := by
          rcases j with _|_|_|_|_|_|_|_|j <;> rfl
        rw [hch] at hc
        exact hok j c hc
    · rw [removeNodeAt_nil_notfound n t hm]; exact hok
  | cons i p ih =>
    rw [removeNodeAt_cons_eq]
    cases hc : t.child i with
    | none => exact hok
    | some c =>
      simp only
      rw [noEmptyChildren_iff] at hok
      have hi := child_some_lt8 t hc
      by_cases hf : (removeNodeAt n c p).2
      · by_cases hz : (removeNodeAt n c p).1.numNodes = 0
        · simp only [hf, hz, if_true]
          rw [noEmptyChildren_iff]
          intro j c' hc'
          rw [child_setNum_setChild _ _ _ _ _ hi] at hc'
          by_cases hj : j = i
          · rw [if_pos hj] at hc'; simp at hc'
          · rw [if_neg hj] at hc'
            exact hok j c' hc'
        · simp only [hf, hz, if_true, if_false]
          rw [noEmptyChildren_iff]
          intro j c' hc'
          rw [child_setNum_setChild _ _ _ _ _ hi] at hc'
          by_cases hj : j = i
          · rw [if_pos hj] at hc'
            obtain rfl : (removeNodeAt n c p).1 = c' := by injection hc'
            exact ⟨hz, ih c (hok i c hc).2⟩
          · rw [if_neg hj] at hc'
            exact hok j c' hc'
      · simp [hf]
        exact noEmptyChildren_iff t |>.mpr hok

theorem removeNodeAt_treeGeomOK (n : ℕ) (q : List ℕ) (t : OTree)
    (hok : treeGeomOK t) : treeGeomOK (removeNodeAt n t q).1 := by
  induction q generalizing t with
  | nil =>
    by_cases hm : n ∈ t.nodes
    · rw [removeNodeAt_nil_found n t hm]
      cases t with
      | mk g ns nn sd c0 c1 c2 c3 c4 c5 c6 c7 =>
        rw [treeGeomOK_iff] at hok ⊢
        refine ⟨hok.1, ?_⟩
        intro j c hc
        have hch : (OTree.mk g (ns.erase n) (nn - 1) sd c0 c1 c2 c3 c4 c5 c6 c7).child j
            = (OTree.mk g ns nn sd c0 c1 c2 c3 c4 c5 c6 c7).child j := by
          rcases j with _|_|_|_|_|_|_|_|j <;> rfl
        rw [hch] at hc
        exact hok.2 j c hc
    · rw [removeNodeAt_nil_notfound n t hm]; exact hok
  | cons i p ih =>
    rw [removeNodeAt_cons_eq]
    cases hc : t.child i with
    | none => exact hok
    | some c =>
      simp only
      rw [treeGeomOK_iff] at hok
      have hi := child_some_lt8 t hc
      by_cases hf : (removeNodeAt n c p).2
      · by_cases hz : (removeNodeAt n c p).1.numNodes = 0
        · simp only [hf, hz, if_true]
          rw [treeGeomOK_iff]
          refine ⟨by simpa using hok.1, ?_⟩
          intro j c' hc'
          rw [child_setNum_setChild _ _ _ _ _ hi] at hc'
          by_cases hj : j = i
          · rw [if_pos hj] at hc'; simp at hc'
          · rw [if_neg hj] at hc'
            simpa using hok.2 j c' hc'
        · simp only [hf, hz, if_true, if_false]
          rw [treeGeomOK_iff]
          refine ⟨by simpa using hok.1, ?_⟩
          intro j c' hc'
          rw [child_setNum_setChild _ _ _ _ _ hi] at hc'
          by_cases hj : j = i
          · rw [if_pos hj] at hc'
            obtain rfl : (removeNodeAt n c p).1 = c' := by injection hc'
            obtain ⟨hg, htg⟩ := hok.2 i c hc
            subst hj
            refine ⟨?_, ih c htg⟩
            rw [removeNodeAt_geom]
            simpa using hg
          · rw [if_neg hj] at hc'
            simpa using hok.2 j c' hc'
      · simp only [hf, Bool.false_eq_true, if_false]
        rw [treeGeomOK_iff]
        exact ⟨hok.1, hok.2⟩

theorem removeNodeAt_mono (n : ℕ) (q : List ℕ) (t : OTree) (hok : countsOK t) :
    ∀ qm om m, octantAt t qm = some om → m ∈ om.nodes → (qm = q → m ≠ n) →
      ∃ om', octantAt (removeNodeAt n t q).1 qm = some om' ∧ om'.geom = om.geom ∧
        m ∈ om'.nodes := by
  induction q generalizing t with
  | nil =>
    intro qm om m hm hmem hne
    by_cases hfound : n ∈ t.nodes
    · rw [removeNodeAt_nil_found n t hfound]
      cases t with
      | mk g ns nn sd c0 c1 c2 c3 c4 c5 c6 c7 =>
        cases qm with
        | nil =>
          rw [octantAt_nil] at hm
          obtain rfl : _ = om := by injection hm
          refine ⟨_, octantAt_nil _, rfl, ?_⟩
          have hmn : m ≠ n := hne rfl
          show m ∈ ns.erase n
          have : m ∈ ns := hmem
          exact (List.mem_erase_of_ne hmn).mpr this
        | cons j qm' =>
          obtain ⟨cj, hcj, hrest⟩ := octantAt_cons_some hm
          refine ⟨om, ?_, rfl, hmem⟩
          have hch : (OTree.mk g (ns.erase n) (nn - 1) sd c0 c1 c2 c3 c4 c5 c6 c7).child j
              = some cj := by
            rw [show (OTree.mk g (ns.erase n) (nn - 1) sd c0 c1 c2 c3 c4 c5 c6 c7).child j
                = (OTree.mk g ns nn sd c0 c1 c2 c3 c4 c5 c6 c7).child j by
              rcases j with _|_|_|_|_|_|_|_|j <;> rfl]
            exact hcj
          rw [octantAt_child qm' hch]
          exact hrest
    · rw [removeNodeAt_nil_notfound n t hfound]
      exact ⟨om, hm, rfl, hmem⟩
  | cons i p ih =>
    intro qm om m hm hmem hne
    rw [removeNodeAt_cons_eq]
    cases hc : t.child i with
    | none => exact ⟨om, hm, rfl, hmem⟩
    | some c =>
      simp only
      rw [countsOK_iff] at hok
      have hcok : countsOK c := hok.2 i c hc
      have hi := child_some_lt8 t hc
      by_cases hf : (removeNodeAt n c p).2
      · by_cases hz : (removeNodeAt n c p).1.numNodes = 0
        · simp only [hf, hz, if_true]
          cases qm with
          | nil =>
            rw [octantAt_nil] at hm
            obtain rfl : t = om := by injection hm
            exact ⟨_, octantAt_nil _, by simp, by simpa using hmem⟩
          | cons j qm' =>
            obtain ⟨cj, hcj, hrest⟩ := octantAt_cons_some hm
            by_cases hj : j = i
            · subst hj
              rw [hcj] at hc
              obtain rfl : cj = c := by injection hc
              have hne' : qm' = p → m ≠ n := fun hp => hne (by rw [hp])
              obtain ⟨om', h1, _, h3⟩ := ih cj hcok qm' om m hrest hmem hne'
              have : 1 ≤ occCount m (removeNodeAt n cj p).1 :=
                occ_pos_of_octantAt_mem h1 h3
              have hzero : occCount m (removeNodeAt n cj p).1 = 0 :=
                occ_zero_of_numNodes_zero (removeNodeAt_countsOK n p cj hcok) hz
              omega
            · refine ⟨om, ?_, rfl, hmem⟩
              have hch : ((t.setChild i none).setNum (t.numNodes - 1)).child j = some cj := by
                rw [child_setNum_setChild _ _ _ _ _ hi, if_neg hj]
                exact hcj
              rw [octantAt_child qm' hch]
              exact hrest
        · simp only [hf, hz, if_true, if_false]
          cases qm with
          | nil =>
            rw [octantAt_nil] at hm
            obtain rfl : t = om := by injection hm
            exact ⟨_, octantAt_nil _, by simp, by simpa using hmem⟩
          | cons j qm' =>
            obtain ⟨cj, hcj, hrest⟩ := octantAt_cons_some hm
            by_cases hj : j = i
            · subst hj
              rw [hcj] at hc
              obtain rfl : cj = c := by injection hc
              have hne' : qm' = p → m ≠ n := fun hp => hne (by rw [hp])
              obtain ⟨om', h1, h2, h3⟩ := ih cj hcok qm' om m hrest hmem hne'
              refine ⟨om', ?_, h2, h3⟩
              have hch : ((t.setChild j (some (removeNodeAt n cj p).1)).setNum
                  (t.numNodes - 1)).child j = some (removeNodeAt n cj p).1 := by
                rw [child_setNum_setChild _ _ _ _ _ hi, if_pos rfl]
              rw [octantAt_child qm' hch]
              exact h1
            · refine ⟨om, ?_, rfl, hmem⟩
              have hch : ((t.setChild i (some (removeNodeAt n c p).1)).setNum
                  (t.numNodes - 1)).child j = some cj := by
                rw [child_setNum_setChild _ _ _ _ _ hi, if_neg hj]
                exact hcj
              rw [octantAt_child qm' hch]
              exact hrest
      · simp only [hf, Bool.false_eq_true, if_false]
        exact ⟨om, hm, rfl, hmem⟩

/-!
## Geometry of the descent

The key geometric fact: when the fit test rejects an octant (so the object
is small and does not straddle a seam), the object's box lies fully inside
the culling box of the child octant selected by the object's center.
-/

theorem fit_false_parts {g : OctGeom} {box : BoundingBox} {bs : Vector3}
    (hf : fitBoundingBox g box bs = false) :
    1 < g.level ∧ bs.x < g.halfSize.x ∧ bs.y < g.halfSize.y ∧ bs.z < g.halfSize.z ∧
    g.worldBoundingBox.min.x - (1/2) * g.halfSize.x < box.min.x ∧
    g.worldBoundingBox.min.y - (1/2) * g.halfSize.y < box.min.y ∧
    g.worldBoundingBox.min.z - (1/2) * g.halfSize.z < box.min.z ∧
    box.max.x < g.worldBoundingBox.max.x + (1/2) * g.halfSize.x ∧
    box.max.y < g.worldBoundingBox.max.y + (1/2) * g.halfSize.y ∧
    box.max.z < g.worldBoundingBox.max.z + (1/2) * g.halfSize.z := by
  unfold fitBoundingBox at hf
  split_ifs at hf with h1 h2
  push_neg at h1 h2
  obtain ⟨hl, hx, hy, hz⟩ := h1
  obtain ⟨ax, ay, az, bx, by', bz⟩ := h2
  exact ⟨by omega, hx, hy, hz, ax, ay, az, bx, by', bz⟩

theorem geomOK_initGeom (b : BoundingBox) (lv : ℤ) : geomOK (initGeom b lv) := by
  unfold geomOK initGeom
  refine ⟨rfl, rfl, ?_⟩
  rfl

theorem geomOK_childGeomOf (g : OctGeom) (i : ℕ) : geomOK (childGeomOf g i) :=
  geomOK_initGeom _ _

set_option maxHeartbeats 3200000 in
theorem child_culling_contains {g : OctGeom} {box : BoundingBox}
    (hg : geomOK g) (hf : fitBoundingBox g box (sizeB box) = false) :
    containsB (childGeomOf g (childIndex g (centerB box))).cullingBox box := by
  obtain ⟨hcen, hhs, _⟩ := hg
  obtain ⟨_, hx, hy, hz, ax, ay, az, bx, by', bz⟩ := fit_false_parts hf
  have hcx : g.center.x = (1/2) * (g.worldBoundingBox.min.x + g.worldBoundingBox.max.x) := by
    rw [hcen]; simp [centerB, Vector3.smul]
  have hcy : g.center.y = (1/2) * (g.worldBoundingBox.min.y + g.worldBoundingBox.max.y) := by
    rw [hcen]; simp [centerB, Vector3.smul]
  have hcz : g.center.z = (1/2) * (g.worldBoundingBox.min.z + g.worldBoundingBox.max.z) := by
    rw [hcen]; simp [centerB, Vector3.smul]
  have hhx : g.halfSize.x = (1/2) * (g.worldBoundingBox.max.x - g.worldBoundingBox.min.x) := by
    rw [hhs]; simp [halfSizeB, Vector3.smul]
  have hhy : g.halfSize.y = (1/2) * (g.worldBoundingBox.max.y - g.worldBoundingBox.min.y) := by
    rw [hhs]; simp [halfSizeB, Vector3.smul]
  have hhz : g.halfSize.z = (1/2) * (g.worldBoundingBox.max.z - g.worldBoundingBox.min.z) := by
    rw [hhs]; simp [halfSizeB, Vector3.smul]
  have hsx : sizeB box = box.max - box.min := rfl
  unfold childIndex
  by_cases px : (centerB box).x < g.center.x <;>
    by_cases py : (centerB box).y < g.center.y <;>
      by_cases pz : (centerB box).z < g.center.z <;>
  · simp only [px, py, pz, if_true, if_false]
    simp only [centerB, sizeB, Vector3.smul, Vector3.add_def, Vector3.sub_def] at px py pz hx hy hz ⊢
    unfold childGeomOf childBoxOf initGeom containsB halfSizeB centerB
    norm_num
    simp only [Vector3.smul, Vector3.add_def, Vector3.sub_def]
    refine ⟨?_, ?_, ?_, ?_, ?_, ?_⟩ <;> linarith

/-!
## Specification of `createChain` and `descend`
-/

theorem treeGeomOK_emptyOctant {g : OctGeom} (hg : geomOK g) :
    treeGeomOK (emptyOctant g) := by
  rw [treeGeomOK_iff]
  exact ⟨hg, fun j c hc => by simp at hc⟩

theorem countsOK_emptyOctant (g : OctGeom) : countsOK (emptyOctant g) := by
  rw [countsOK_iff]
  constructor
  · simp [csum]
  · intro j c hc; simp at hc

theorem occCount_emptyOctant (m : ℕ) (g : OctGeom) : occCount m (emptyOctant g) = 0 := by
  rw [occCount_eq]
  simp

theorem createChain_fit (g : OctGeom) (box : BoundingBox) (bc bs : Vector3)
    (h : fitBoundingBox g box bs = true) :
    createChain g box bc bs = (emptyOctant g, []) := by
  rw [createChain]
  simp [h]

theorem createChain_not_fit (g : OctGeom) (box : BoundingBox) (bc bs : Vector3)
    (h : fitBoundingBox g box bs = false) :
    createChain g box bc bs =
      ((emptyOctant g).setChild (childIndex g bc)
        (some (createChain (childGeomOf g (childIndex g bc)) box bc bs).1),
       childIndex g bc :: (createChain (childGeomOf g (childIndex g bc)) box bc bs).2) := by
  rw [createChain]
  simp [h]

theorem createChain_spec (box : BoundingBox) : ∀ N g, geomOK g → g.level.toNat ≤ N →
    treeGeomOK (createChain g box (centerB box) (sizeB box)).1 ∧
    (createChain g box (centerB box) (sizeB box)).1.geom = g ∧
    (∃ tgt, octantAt (createChain g box (centerB box) (sizeB box)).1
        (createChain g box (centerB box) (sizeB box)).2 = some tgt ∧
      fitBoundingBox tgt.geom box (sizeB box) = true ∧
      (containsB g.cullingBox box → containsB tgt.geom.cullingBox box)) ∧
    (∀ m, occCount m (createChain g box (centerB box) (sizeB box)).1 = 0) ∧
    countsOK (createChain g box (centerB box) (sizeB box)).1 ∧
    (∀ n, noEmptyChildren (addNodeAt n (createChain g box (centerB box) (sizeB box)).1
      (createChain g box (centerB box) (sizeB box)).2)) := by
  intro N
  induction N with
  | zero =>
    intro g hg hlev
    have hfit : fitBoundingBox g box (sizeB box) = true := by
      unfold fitBoundingBox
      have : g.level ≤ 1 := by omega
      simp [this]
    rw [createChain_fit g box _ _ hfit]
    refine ⟨treeGeomOK_emptyOctant hg, rfl, ⟨emptyOctant g, by simp, by simpa using hfit,
      fun h => by simpa using h⟩, fun m => occCount_emptyOctant m g,
      countsOK_emptyOctant g, ?_⟩
    intro n
    rw [noEmptyChildren_iff]
    intro j c hc
    rw [addNodeAt_nil_child] at hc
    simp at hc
  | succ N ihN =>
    intro g hg hlev
    by_cases hfit : fitBoundingBox g box (sizeB box) = true
    · rw [createChain_fit g box _ _ hfit]
      refine ⟨treeGeomOK_emptyOctant hg, rfl, ⟨emptyOctant g, by simp, by simpa using hfit,
        fun h => by simpa using h⟩, fun m => occCount_emptyOctant m g,
        countsOK_emptyOctant g, ?_⟩
      intro n
      rw [noEmptyChildren_iff]
      intro j c hc
      rw [addNodeAt_nil_child] at hc
      simp at hc
    · have hfit' : fitBoundingBox g box (sizeB box) = false := by
        simpa using hfit
      rw [createChain_not_fit g box _ _ hfit']
      dsimp only
      set i := childIndex g (centerB box) with hI
      have hi : i < 8 := childIndex_lt8 g (centerB box)
      have hlevel := (fit_false_parts hfit').1
      have hlev' : (childGeomOf g i).level.toNat ≤ N := by
        simp only [childGeomOf, initGeom]
        omega
      obtain ⟨ih1, ih2, ⟨tgt, iht, ihf, ihc⟩, ih4, ih5, ih6⟩ :=
        ihN (childGeomOf g i) (geomOK_childGeomOf g i) hlev'
      set rc := createChain (childGeomOf g i) box (centerB box) (sizeB box) with hRC
      have hchild : ((emptyOctant g).setChild i (some rc.1)).child i = some rc.1 := by
        rw [OTree.child_setChild_self _ _ _ hi]
      refine ⟨?_, by simp, ?_, ?_, ?_, ?_⟩
      · rw [treeGeomOK_iff]
        refine ⟨by simpa using hg, ?_⟩
        intro j c hc
        rw [OTree.child_setChild _ _ _ _ hi] at hc
        by_cases hj : j = i
        · rw [if_pos hj] at hc
          obtain rfl : rc.1 = c := by injection hc
          subst hj
          exact ⟨by simpa using ih2, ih1⟩
        · rw [if_neg hj] at hc
          simp at hc
      · refine ⟨tgt, ?_, ihf, ?_⟩
        · rw [octantAt_child rc.2 hchild]
          exact iht
        · intro _
          exact ihc (child_culling_contains hg hfit')
      · intro m
        have hset := occCount_setChild m (emptyOctant g) (some rc.1) hi
        simp only [OTree.child_emptyOctant, oocc_none, oocc_some] at hset
        have := occCount_emptyOctant m g
        have := ih4 m
        omega
      · have hz : rc.1.numNodes = 0 := by
          rw [numNodes_eq_collect_length rc.1 ih5]
          cases hcl : collectNodes rc.1 with
          | nil => rfl
          | cons a l =>
            have h1 := occCount_le_of_collect a rc.1
            rw [hcl] at h1
            simp [List.count_cons] at h1
            have := ih4 a
            omega
        rw [countsOK_iff]
        constructor
        · have hset := csum_setChild (emptyOctant g) (some rc.1) hi
          simp only [OTree.child_emptyOctant, onum_none, onum_some] at hset
          have hcse : csum (emptyOctant g) = 0 := by simp [csum]
          simp only [OTree.numNodes_setChild, OTree.nodes_setChild,
            OTree.numNodes_emptyOctant, OTree.nodes_emptyOctant]
          simp only [hcse] at hset
          simp
          omega
        · intro j c hc
          rw [OTree.child_setChild _ _ _ _ hi] at hc
          by_cases hj : j = i
          · rw [if_pos hj] at hc
            obtain rfl : rc.1 = c := by injection hc
            exact ih5
          · rw [if_neg hj] at hc
            simp at hc
      · intro n
        have hch2 : ((emptyOctant g).setChild i (some rc.1)).child i = some rc.1 := hchild
        rw [show addNodeAt n ((emptyOctant g).setChild i (some rc.1)) (i :: rc.2) =
            ((((emptyOctant g).setChild i (some rc.1)).setChild i
              (some (addNodeAt n rc.1 rc.2))).setNum
              (((emptyOctant g).setChild i (some rc.1)).numNodes + 1)) by
          rw [addNodeAt_cons, hch2]]
        rw [noEmptyChildren_iff]
        intro j c hc
        rw [child_setNum_setChild _ _ _ _ _ hi] at hc
        by_cases hj : j = i
        · rw [if_pos hj] at hc
          obtain rfl : addNodeAt n rc.1 rc.2 = c := by injection hc
          constructor
          · rw [addNodeAt_numNodes n iht]
            omega
          · exact ih6 n
        · rw [if_neg hj] at hc
          rw [OTree.child_setChild _ _ _ _ hi, if_neg hj] at hc
          simp at hc
  termination_by N

theorem numNodes_zero_of_occ_zero {t : OTree} (hok : countsOK t)
    (h : ∀ m, occCount m t = 0) : t.numNodes = 0 := by
  rw [numNodes_eq_collect_length t hok]
  cases hcl : collectNodes t with
  | nil => rfl
  | cons a l =>
    have h1 := occCount_le_of_collect a t
    rw [hcl] at h1
    simp [List.count_cons] at h1
    have := h a
    omega

theorem insHere_false_fit {box : BoundingBox} {bs : Vector3} {isRoot : Bool} {t : OTree}
    (h : insHere box bs isRoot t = false) :
    fitBoundingBox t.geom box bs = false := by
  unfold insHere at h
  cases isRoot
  · simpa using h
  · simp at h
    exact h.2

theorem insHere_of_not_root {box : BoundingBox} {bs : Vector3} {t : OTree} :
    insHere box bs false t = fitBoundingBox t.geom box bs := rfl

theorem descend_ins (box : BoundingBox) (bc bs : Vector3) (isRoot : Bool) (t : OTree)
    (h : insHere box bs isRoot t = true) :
    descend box bc bs isRoot t = (t, []) := by
  rw [descend]
  simp [h]

theorem descend_step (box : BoundingBox) (bc bs : Vector3) (isRoot : Bool) (t : OTree)
    (h : insHere box bs isRoot t = false) :
    descend box bc bs isRoot t =
      match t.child (childIndex t.geom bc) with
      | some c =>
        (t.setChild (childIndex t.geom bc) (some (descend box bc bs false c).1),
         childIndex t.geom bc :: (descend box bc bs false c).2)
      | none =>
        (t.setChild (childIndex t.geom bc)
           (some (createChain (childGeomOf t.geom (childIndex t.geom bc)) box bc bs).1),
         childIndex t.geom bc ::
           (createChain (childGeomOf t.geom (childIndex t.geom bc)) box bc bs).2) := by
  rw [descend]
  rw [if_neg (by simp [h])]
  cases t.child (childIndex t.geom bc) <;> rfl

/-- The full specification of one reinsertion descent on a
geometry-coherent tree: the result is geometry-coherent, the returned path
names an octant at which the fit test succeeded (with the box inside its
culling box unless it is the root), all pre-existing octants keep their
contents, no occurrence counts change, and — because added children start
empty — the composite `descend` + `AddNode` restores the no-empty-octant
invariant. -/
theorem descend_spec (box : BoundingBox) (t : OTree) : treeGeomOK t → ∀ isRoot,
    treeGeomOK (descend box (centerB box) (sizeB box) isRoot t).1 ∧
    (descend box (centerB box) (sizeB box) isRoot t).1.geom = t.geom ∧
    (∃ tgt, octantAt (descend box (centerB box) (sizeB box) isRoot t).1
        (descend box (centerB box) (sizeB box) isRoot t).2 = some tgt ∧
      ((descend box (centerB box) (sizeB box) isRoot t).2 = [] →
        (descend box (centerB box) (sizeB box) isRoot t).1 = t ∧ tgt = t) ∧
      (isRoot = false → fitBoundingBox tgt.geom box (sizeB box) = true) ∧
      ((descend box (centerB box) (sizeB box) isRoot t).2 ≠ [] →
        fitBoundingBox tgt.geom box (sizeB box) = true ∧
        containsB tgt.geom.cullingBox box)) ∧
    (∀ q o, octantAt t q = some o →
      ∃ o', octantAt (descend box (centerB box) (sizeB box) isRoot t).1 q = some o' ∧
        o'.geom = o.geom ∧ o'.nodes = o.nodes ∧ o'.numNodes = o.numNodes ∧
        o'.sortDirty = o.sortDirty) ∧
    (∀ m, occCount m (descend box (centerB box) (sizeB box) isRoot t).1 = occCount m t) ∧
    (countsOK t → countsOK (descend box (centerB box) (sizeB box) isRoot t).1) ∧
    (octantAt t (descend box (centerB box) (sizeB box) isRoot t).2 ≠ none →
      (descend box (centerB box) (sizeB box) isRoot t).1 = t) ∧
    (noEmptyChildren t → ∀ n, noEmptyChildren
      (addNodeAt n (descend box (centerB box) (sizeB box) isRoot t).1
        (descend box (centerB box) (sizeB box) isRoot t).2)) := by
  induction t using OTree.inductChild with
  | h t ih =>
    intro htg isRoot
    by_cases hins : insHere box (sizeB box) isRoot t = true
    · rw [descend_ins box _ _ isRoot t hins]
      dsimp only
      refine ⟨htg, rfl, ⟨t, by simp, fun _ => ⟨rfl, rfl⟩, ?_, by simp⟩, ?_, ?_, ?_, ?_, ?_⟩
      · intro hr
        rw [hr] at hins
        simpa [insHere_of_not_root] using hins
      · exact fun q o h => ⟨o, h, rfl, rfl, rfl, rfl⟩
      · exact fun m => rfl
      · exact id
      · exact fun _ => rfl
      · intro hne n
        exact noEmpty_addNodeAt n (octantAt_nil t) hne
    · have hins' : insHere box (sizeB box) isRoot t = false := by simpa using hins
      have hfitf : fitBoundingBox t.geom box (sizeB box) = false := insHere_false_fit hins'
      rw [descend_step box _ _ isRoot t hins']
      have hi : childIndex t.geom (centerB box) < 8 := childIndex_lt8 _ _
      have hGEO := child_culling_contains ((treeGeomOK_iff t).mp htg).1 hfitf
      cases hc : t.child (childIndex t.geom (centerB box)) with
      | some c =>
        dsimp only
        obtain ⟨hcg, hctg⟩ := ((treeGeomOK_iff t).mp htg).2 _ c hc
        obtain ⟨ih1, ih2, ⟨tgt, iht, ihnil, ihfit, ihne⟩, ih4, ih5, ih6, ih7, ih8⟩ :=
          ih _ c hc hctg false
        set rc := descend box (centerB box) (sizeB box) false c with hRc
        have hrcnum : rc.1.numNodes = c.numNodes := by
          obtain ⟨o', ho1, _, _, ho4, _⟩ := ih4 [] c (octantAt_nil c)
          rw [octantAt_nil] at ho1
          have he : rc.1 = o' := by injection ho1
          rw [he, ho4]
        have hchild : (t.setChild (childIndex t.geom (centerB box)) (some rc.1)).child
            (childIndex t.geom (centerB box)) = some rc.1 :=
          OTree.child_setChild_self t _ _ hi
        refine ⟨?_, by simp, ?_, ?_, ?_, ?_, ?_, ?_⟩
        · rw [treeGeomOK_iff]
          refine ⟨by simpa using ((treeGeomOK_iff t).mp htg).1, ?_⟩
          intro j c' hc'
          rw [OTree.child_setChild t _ j _ hi] at hc'
          by_cases hj : j = childIndex t.geom (centerB box)
          · rw [if_pos hj] at hc'
            obtain rfl : rc.1 = c' := by injection hc'
            subst hj
            exact ⟨by rw [ih2]; simpa using hcg, ih1⟩
          · rw [if_neg hj] at hc'
            simpa using ((treeGeomOK_iff t).mp htg).2 j c' hc'
        · refine ⟨tgt, ?_, by intro h; simp at h, fun _ => ihfit rfl, ?_⟩
          · rw [octantAt_child _ hchild]
            exact iht
          · intro _
            refine ⟨ihfit rfl, ?_⟩
            by_cases hnil : rc.2 = []
            · obtain ⟨_, he2⟩ := ihnil hnil
              rw [he2, hcg]
              exact hGEO
            · exact (ihne hnil).2
        · intro q o hq
          cases q with
          | nil =>
            rw [octantAt_nil] at hq
            obtain rfl : t = o := by injection hq
            exact ⟨_, octantAt_nil _, by simp, by simp, by simp, by simp⟩
          | cons j q' =>
            obtain ⟨cj, hcj, hrest⟩ := octantAt_cons_some hq
            by_cases hj : j = childIndex t.geom (centerB box)
            · subst hj
              rw [hcj] at hc
              obtain rfl : cj = c := by injection hc
              obtain ⟨o', h1, h2, h3, h4, h5⟩ := ih4 q' o hrest
              refine ⟨o', ?_, h2, h3, h4, h5⟩
              rw [octantAt_child q' hchild]
              exact h1
            · refine ⟨o, ?_, rfl, rfl, rfl, rfl⟩
              have hch2 : (t.setChild (childIndex t.geom (centerB box)) (some rc.1)).child j
                  = some cj := by
                rw [OTree.child_setChild t _ j _ hi, if_neg hj]
                exact hcj
              rw [octantAt_child q' hch2]
              exact hrest
        · intro m
          have hset := occCount_setChild m t (some rc.1) hi
          rw [hc] at hset
          simp only [oocc_some] at hset
          have := ih5 m
          omega
        · intro hok
          rw [countsOK_iff] at hok ⊢
          constructor
          · have hset := csum_setChild t (some rc.1) hi
            rw [hc] at hset
            simp only [onum_some] at hset
            have h1 := hok.1
            simp only [OTree.numNodes_setChild, OTree.nodes_setChild]
            omega
          · intro j c' hc'
            rw [OTree.child_setChild t _ j _ hi] at hc'
            by_cases hj : j = childIndex t.geom (centerB box)
            · rw [if_pos hj] at hc'
              obtain rfl : rc.1 = c' := by injection hc'
              exact ih6 (hok.2 _ c hc)
            · rw [if_neg hj] at hc'
              exact hok.2 j c' hc'
        · intro hne
          rw [octantAt_child rc.2 hc] at hne
          have hrc1 : rc.1 = c := ih7 hne
          rw [hrc1]
          exact setChild_self t hc
        · intro hne n
          have hstep : addNodeAt n (t.setChild (childIndex t.geom (centerB box)) (some rc.1))
              (childIndex t.geom (centerB box) :: rc.2)
              = ((t.setChild (childIndex t.geom (centerB box)) (some rc.1)).setChild
                  (childIndex t.geom (centerB box)) (some (addNodeAt n rc.1 rc.2))).setNum
                ((t.setChild (childIndex t.geom (centerB box)) (some rc.1)).numNodes + 1) := by
            rw [addNodeAt_cons, hchild]
          rw [hstep, noEmptyChildren_iff]
          intro j c' hc'
          rw [child_setNum_setChild _ _ _ _ _ hi] at hc'
          by_cases hj : j = childIndex t.geom (centerB box)
          · rw [if_pos hj] at hc'
            obtain rfl : addNodeAt n rc.1 rc.2 = c' := by injection hc'
            constructor
            · rw [addNodeAt_numNodes n iht]
              omega
            · exact ih8 ((noEmptyChildren_iff t).mp hne _ c hc).2 n
          · rw [if_neg hj] at hc'
            rw [OTree.child_setChild t _ j _ hi, if_neg hj] at hc'
            exact (noEmptyChildren_iff t).mp hne j c' hc'
      | none =>
        dsimp only
        obtain ⟨ch1, ch2, ⟨tgt, cht, chf, chc⟩, ch4, ch5, ch6⟩ :=
          createChain_spec box (childGeomOf t.geom (childIndex t.geom (centerB box))).level.toNat
            (childGeomOf t.geom (childIndex t.geom (centerB box)))
            (geomOK_childGeomOf _ _) le_rfl
        set rc := createChain (childGeomOf t.geom (childIndex t.geom (centerB box))) box
          (centerB box) (sizeB box) with hRc
        have hchild : (t.setChild (childIndex t.geom (centerB box)) (some rc.1)).child
            (childIndex t.geom (centerB box)) = some rc.1 :=
          OTree.child_setChild_self t _ _ hi
        have hz : rc.1.numNodes = 0 := numNodes_zero_of_occ_zero ch5 ch4
        refine ⟨?_, by simp, ?_, ?_, ?_, ?_, ?_, ?_⟩
        · rw [treeGeomOK_iff]
          refine ⟨by simpa using ((treeGeomOK_iff t).mp htg).1, ?_⟩
          intro j c' hc'
          rw [OTree.child_setChild t _ j _ hi] at hc'
          by_cases hj : j = childIndex t.geom (centerB box)
          · rw [if_pos hj] at hc'
            obtain rfl : rc.1 = c' := by injection hc'
            subst hj
            exact ⟨by rw [ch2]; simp, ch1⟩
          · rw [if_neg hj] at hc'
            simpa using ((treeGeomOK_iff t).mp htg).2 j c' hc'
        · refine ⟨tgt, ?_, by intro h; simp at h, fun _ => chf, fun _ => ⟨chf, chc hGEO⟩⟩
          rw [octantAt_child _ hchild]
          exact cht
        · intro q o hq
          cases q with
          | nil =>
            rw [octantAt_nil] at hq
            obtain rfl : t = o := by injection hq
            exact ⟨_, octantAt_nil _, by simp, by simp, by simp, by simp⟩
          | cons j q' =>
            obtain ⟨cj, hcj, hrest⟩ := octantAt_cons_some hq
            by_cases hj : j = childIndex t.geom (centerB box)
            · subst hj
              rw [hcj] at hc
              simp at hc
            · refine ⟨o, ?_, rfl, rfl, rfl, rfl⟩
              have hch2 : (t.setChild (childIndex t.geom (centerB box)) (some rc.1)).child j
                  = some cj := by
                rw [OTree.child_setChild t _ j _ hi, if_neg hj]
                exact hcj
              rw [octantAt_child q' hch2]
              exact hrest
        · intro m
          have hset := occCount_setChild m t (some rc.1) hi
          rw [hc] at hset
          simp only [oocc_some, oocc_none] at hset
          have := ch4 m
          omega
        · intro hok
          rw [countsOK_iff] at hok ⊢
          constructor
          · have hset := csum_setChild t (some rc.1) hi
            rw [hc] at hset
            simp only [onum_some, onum_none] at hset
            have h1 := hok.1
            simp only [OTree.numNodes_setChild, OTree.nodes_setChild]
            omega
          · intro j c' hc'
            rw [OTree.child_setChild t _ j _ hi] at hc'
            by_cases hj : j = childIndex t.geom (centerB box)
            · rw [if_pos hj] at hc'
              obtain rfl : rc.1 = c' := by injection hc'
              exact ch5
            · rw [if_neg hj] at hc'
              exact hok.2 j c' hc'
        · intro hne
          exact absurd (octantAt_child_none rc.2 hc) hne
        · intro hne n
          have hstep : addNodeAt n (t.setChild (childIndex t.geom (centerB box)) (some rc.1))
              (childIndex t.geom (centerB box) :: rc.2)
              = ((t.setChild (childIndex t.geom (centerB box)) (some rc.1)).setChild
                  (childIndex t.geom (centerB box)) (some (addNodeAt n rc.1 rc.2))).setNum
                ((t.setChild (childIndex t.geom (centerB box)) (some rc.1)).numNodes + 1) := by
            rw [addNodeAt_cons, hchild]
          rw [hstep, noEmptyChildren_iff]
          intro j c' hc'
          rw [child_setNum_setChild _ _ _ _ _ hi] at hc'
          by_cases hj : j = childIndex t.geom (centerB box)
          · rw [if_pos hj] at hc'
            obtain rfl : addNodeAt n rc.1 rc.2 = c' := by injection hc'
            constructor
            · rw [addNodeAt_numNodes n cht]
              omega
            · exact ch6 n
          · rw [if_neg hj] at hc'
            rw [OTree.child_setChild t _ j _ hi, if_neg hj] at hc'
            exact (noEmptyChildren_iff t).mp hne j c' hc'

/-!
## Lemmas about the sort pass
-/

theorem sortPass_nodes_perm (t : OTree) : (sortPass t).nodes.Perm t.nodes := by
  rw [sortPass_nodes]
  by_cases h : t.sortDirty <;> simp [h, List.mergeSort_perm]

theorem octantAt_sortPass (t : OTree) (q : List ℕ) :
    octantAt (sortPass t) q = Option.map sortPass (octantAt t q) := by
  induction q generalizing t with
  | nil => simp
  | cons i q' ih =>
    rw [octantAt_cons, octantAt_cons, sortPass_child]
    cases t.child i with
    | none => rfl
    | some c => simpa using ih c

theorem occCount_sortPass (m : ℕ) (t : OTree) : occCount m (sortPass t) = occCount m t := by
  induction t using OTree.inductChild with
  | h t ih =>
    rw [occCount_eq, occCount_eq]
    have hn : (sortPass t).nodes.count m = t.nodes.count m :=
      (sortPass_nodes_perm t).count_eq m
    have hc : ∀ j, oocc m ((sortPass t).child j) = oocc m (t.child j) := by
      intro j
      rw [sortPass_child]
      cases hj : t.child j with
      | none => rfl
      | some c => simpa using ih j c hj
    rw [hn, hc 0, hc 1, hc 2, hc 3, hc 4, hc 5, hc 6, hc 7]

theorem countsOK_sortPass (t : OTree) (h : countsOK t) : countsOK (sortPass t) := by
  induction t using OTree.inductChild with
  | h t ih =>
    rw [countsOK_iff] at h ⊢
    constructor
    · have hn : (sortPass t).nodes.length = t.nodes.length :=
        (sortPass_nodes_perm t).length_eq
      have hc : csum (sortPass t) = csum t := by
        unfold csum
        have hcj : ∀ j, onum ((sortPass t).child j) = onum (t.child j) := by
          intro j
          rw [sortPass_child]
          cases t.child j with
          | none => rfl
          | some c => simp
        rw [hcj 0, hcj 1, hcj 2, hcj 3, hcj 4, hcj 5, hcj 6, hcj 7]
      rw [sortPass_numNodes, hn, hc]
      exact h.1
    · intro j c hc
      rw [sortPass_child] at hc
      cases hj : t.child j with
      | none => rw [hj] at hc; simp at hc
      | some c' =>
        rw [hj] at hc
        obtain rfl : sortPass c' = c := by injection hc
        exact ih j c' hj (h.2 j c' hj)

theorem noEmpty_sortPass (t : OTree) (h : noEmptyChildren t) :
    noEmptyChildren (sortPass t) := by
  induction t using OTree.inductChild with
  | h t ih =>
    rw [noEmptyChildren_iff] at h ⊢
    intro j c hc
    rw [sortPass_child] at hc
    cases hj : t.child j with
    | none => rw [hj] at hc; simp at hc
    | some c' =>
      rw [hj] at hc
      obtain rfl : sortPass c' = c := by injection hc
      obtain ⟨h1, h2⟩ := h j c' hj
      exact ⟨by rw [sortPass_numNodes]; exact h1, ih j c' hj h2⟩

theorem treeGeomOK_sortPass (t : OTree) (h : treeGeomOK t) :
    treeGeomOK (sortPass t) := by
  induction t using OTree.inductChild with
  | h t ih =>
    rw [treeGeomOK_iff] at h ⊢
    refine ⟨by rw [sortPass_geom]; exact h.1, ?_⟩
    intro j c hc
    rw [sortPass_child] at hc
    cases hj : t.child j with
    | none => rw [hj] at hc; simp at hc
    | some c' =>
      rw [hj] at hc
      obtain rfl : sortPass c' = c := by injection hc
      obtain ⟨h1, h2⟩ := h.2 j c' hj
      exact ⟨by rw [sortPass_geom, sortPass_geom]; simpa using h1, ih j c' hj h2⟩

theorem allClean_sortPass (t : OTree) : allClean (sortPass t) := by
  induction t using OTree.inductChild with
  | h t ih =>
    rw [allClean_iff]
    refine ⟨sortPass_sortDirty t, ?_⟩
    intro j c hc
    rw [sortPass_child] at hc
    cases hj : t.child j with
    | none => rw [hj] at hc; simp at hc
    | some c' =>
      rw [hj] at hc
      obtain rfl : sortPass c' = c := by injection hc
      exact ih j c' hj

/-!
## The well-formedness invariant
-/

/-- The structural invariants of the octree state that hold at every point,
including between the individual queue entries inside `Update` (the sort
flags, cleared only by the sort pass at the end of `Update`, are stated
separately in `WF`). -/
structure WFa (env : Env) (s : OState) : Prop where
  counts : countsOK s.root
  noEmpty : noEmptyChildren s.root
  geom : treeGeomOK s.root
  keys : KeysNodup s.octantOf
  backref : ∀ n p, lookupA s.octantOf n = some p →
    ∃ o, octantAt s.root p = some o ∧ n ∈ o.nodes
  occT : ∀ n p, lookupA s.octantOf n = some p → occCount n s.root = 1
  occU : ∀ n, lookupA s.octantOf n = none → occCount n s.root = 0
  contain : ∀ n p, lookupA s.octantOf n = some p → p ≠ [] →
    ∀ o, octantAt s.root p = some o → containsB o.geom.cullingBox (env.boxes n)

/-- The full invariant between public operations: `WFa` plus all sort flags
clear. -/
structure WF (env : Env) (s : OState) extends WFa env s : Prop where
  clean : allClean s.root

theorem processEntry_WFa (env : Env) (f : ℕ) {s : OState} (hWF : WFa env s)
    (e : Option ℕ) :
    WFa env (processEntry env f s e) ∧
    (processEntry env f s e).root.geom = s.root.geom ∧
    (processEntry env f s e).queue = s.queue := by
  cases e with
  | none => exact ⟨hWF, rfl, rfl⟩
  | some n =>
    show WFa env (processEntry env f s (some n)) ∧ _ ∧ _
    rw [processEntry]
    dsimp only
    set box := env.boxes n with hBox
    set bs := sizeB box with hBs
    by_cases hfast : (match lookupA s.octantOf n with
      | some q =>
        match octantAt s.root q with
        | some o => decide (containsB o.geom.cullingBox box) && fitBoundingBox o.geom box bs
        | none => false
      | none => false) = true
    · rw [if_pos hfast]
      exact ⟨{ hWF with }, rfl, rfl⟩
    · rw [if_neg hfast]
      obtain ⟨d1, d2, ⟨tgt, dt, dnil, dfitroot, dne⟩, d4, d5, d6, d7, d8⟩ :=
        descend_spec box s.root hWF.geom true
      set r := descend box (centerB box) (sizeB box) true s.root with hR
      by_cases hskip : lookupA s.octantOf n = some r.2
      · rw [if_pos hskip]
        obtain ⟨o, ho, _⟩ := hWF.backref n r.2 hskip
        have hr1 : r.1 = s.root := d7 (by rw [ho]; simp)
        rw [hr1]
        exact ⟨{ hWF with }, rfl, rfl⟩
      · rw [if_neg hskip]
        dsimp only
        set t2 := addNodeAt n r.1 r.2 with hT2
        have hcounts1 : countsOK r.1 := d6 hWF.counts
        have hcounts2 : countsOK t2 := countsOK_addNodeAt n dt hcounts1
        have hnoEmpty2 : noEmptyChildren t2 := d8 hWF.noEmpty n
        have hgeom2 : treeGeomOK t2 := treeGeomOK_addNodeAt n dt d1
        have hocc2 : ∀ m, occCount m t2 = occCount m s.root + if m = n then 1 else 0 := by
          intro m
          rw [hT2, occCount_addNodeAt m n dt, d5 m]
        -- the octant at the new path after the add
        obtain ⟨tgt', ht', htg', htn'⟩ := octantAt_addNodeAt_self n dt
        have hmem' : n ∈ tgt'.nodes := by rw [htn']; simp
        cases hold : lookupA s.octantOf n with
        | none =>
          dsimp only
          refine ⟨?_, ?_, rfl⟩
          · constructor
            · exact hcounts2
            · exact hnoEmpty2
            · exact hgeom2
            · exact keysNodup_updA _ _ _ hWF.keys
            · intro m p hp
              by_cases hmn : m = n
              · subst hmn
                rw [lookupA_updA_self] at hp
                obtain rfl : r.2 = p := by injection hp
                exact ⟨tgt', ht', hmem'⟩
              · rw [lookupA_updA_ne _ _ (Ne.symm hmn)] at hp
                obtain ⟨om, hom, hmm⟩ := hWF.backref m p hp
                obtain ⟨o1, ho1, hg1, hn1, _, _⟩ := d4 p om hom
                obtain ⟨o2, ho2, hg2, hm2⟩ := octantAt_addNodeAt_mono n dt p o1 ho1
                exact ⟨o2, ho2, hm2 m (by rw [hn1]; exact hmm)⟩
            · intro m p hp
              by_cases hmn : m = n
              · subst hmn
                rw [hocc2 m]
                rw [hWF.occU m hold]
                simp
              · rw [lookupA_updA_ne _ _ (Ne.symm hmn)] at hp
                rw [hocc2 m, if_neg hmn, hWF.occT m p hp]
            · intro m hm
              by_cases hmn : m = n
              · subst hmn
                rw [lookupA_updA_self] at hm
                simp at hm
              · rw [lookupA_updA_ne _ _ (Ne.symm hmn)] at hm
                rw [hocc2 m, if_neg hmn, hWF.occU m hm]
            · intro m p hp hpne o ho
              by_cases hmn : m = n
              · subst hmn
                rw [lookupA_updA_self] at hp
                obtain rfl : r.2 = p := by injection hp
                rw [ht'] at ho
                obtain rfl : tgt' = o := by injection ho
                rw [htg']
                exact (dne hpne).2
              · rw [lookupA_updA_ne _ _ (Ne.symm hmn)] at hp
                obtain ⟨om, hom, hmm⟩ := hWF.backref m p hp
                obtain ⟨o1, ho1, hg1, hn1, _, _⟩ := d4 p om hom
                obtain ⟨o2, ho2, hg2, _⟩ := octantAt_addNodeAt_mono n dt p o1 ho1
                rw [ho2] at ho
                obtain rfl : o2 = o := by injection ho
                rw [hg2, hg1]
                exact hWF.contain m p hp hpne om hom
          · rw [hT2, addNodeAt_geom, d2]
        | some q =>
          dsimp only
          -- the node is still present at its old octant inside `t2`
          obtain ⟨oq, hoq, hnq⟩ := hWF.backref n q hold
          obtain ⟨oq1, hoq1, _, hqn1, _, _⟩ := d4 q oq hoq
          obtain ⟨oq2, hoq2, _, hqm2⟩ := octantAt_addNodeAt_mono n dt q oq1 hoq1
          have hnq2 : n ∈ oq2.nodes := hqm2 n (by rw [hqn1]; exact hnq)
          have hfound : (removeNodeAt n t2 q).2 = true :=
            (removeNodeAt_found_iff n q t2).mpr ⟨oq2, hoq2, hnq2⟩
          have hqne : q ≠ r.2 := fun he => hskip (he ▸ hold)
          refine ⟨?_, ?_, rfl⟩
          · constructor
            · exact removeNodeAt_countsOK n q t2 hcounts2
            · exact removeNodeAt_noEmpty n q t2 hnoEmpty2
            · exact removeNodeAt_treeGeomOK n q t2 hgeom2
            · exact keysNodup_updA _ _ _ hWF.keys
            · intro m p hp
              by_cases hmn : m = n
              · subst hmn
                rw [lookupA_updA_self] at hp
                obtain rfl : r.2 = p := by injection hp
                obtain ⟨o3, ho3, _, hm3⟩ :=
                  removeNodeAt_mono m q t2 hcounts2 r.2 tgt' m ht' hmem'
                    (fun hpq => absurd hpq.symm hqne)
                exact ⟨o3, ho3, hm3⟩
              · rw [lookupA_updA_ne _ _ (Ne.symm hmn)] at hp
                obtain ⟨om, hom, hmm⟩ := hWF.backref m p hp
                obtain ⟨o1, ho1, _, hn1, _, _⟩ := d4 p om hom
                obtain ⟨o2, ho2, _, hm2⟩ := octantAt_addNodeAt_mono n dt p o1 ho1
                obtain ⟨o3, ho3, _, hm3⟩ :=
                  removeNodeAt_mono n q t2 hcounts2 p o2 m ho2
                    (hm2 m (by rw [hn1]; exact hmm)) (fun _ => hmn)
                exact ⟨o3, ho3, hm3⟩
            · intro m p hp
              by_cases hmn : m = n
              · subst hmn
                have hoccs := removeNodeAt_occ_self m q t2 hcounts2 hfound
                rw [hocc2 m, if_pos rfl, hWF.occT m q hold] at hoccs
                show occCount m (removeNodeAt m t2 q).1 = 1
                omega
              · rw [lookupA_updA_ne _ _ (Ne.symm hmn)] at hp
                rw [removeNodeAt_occ_other n m q t2 hcounts2 hmn, hocc2 m, if_neg hmn,
                  hWF.occT m p hp]
            · intro m hm
              by_cases hmn : m = n
              · subst hmn
                rw [lookupA_updA_self] at hm
                simp at hm
              · rw [lookupA_updA_ne _ _ (Ne.symm hmn)] at hm
                rw [removeNodeAt_occ_other n m q t2 hcounts2 hmn, hocc2 m, if_neg hmn,
                  hWF.occU m hm]
            · intro m p hp hpne o ho
              by_cases hmn : m = n
              · subst hmn
                rw [lookupA_updA_self] at hp
                obtain rfl : r.2 = p := by injection hp
                obtain ⟨o3, ho3, hg3, _⟩ :=
                  removeNodeAt_mono m q t2 hcounts2 r.2 tgt' m ht' hmem'
                    (fun hpq => absurd hpq.symm hqne)
                rw [ho3] at ho
                obtain rfl : o3 = o := by injection ho
                rw [hg3, htg']
                exact (dne hpne).2
              · rw [lookupA_updA_ne _ _ (Ne.symm hmn)] at hp
                obtain ⟨om, hom, hmm⟩ := hWF.backref m p hp
                obtain ⟨o1, ho1, hg1, hn1, _, _⟩ := d4 p om hom
                obtain ⟨o2, ho2, hg2, hm2⟩ := octantAt_addNodeAt_mono n dt p o1 ho1
                obtain ⟨o3, ho3, hg3, _⟩ :=
                  removeNodeAt_mono n q t2 hcounts2 p o2 m ho2
                    (hm2 m (by rw [hn1]; exact hmm)) (fun _ => hmn)
                rw [ho3] at ho
                obtain rfl : o3 = o := by injection ho
                rw [hg3, hg2, hg1]
                exact hWF.contain m p hp hpne om hom
          · rw [removeNodeAt_geom, hT2, addNodeAt_geom, d2]

theorem removeNodeAt_allClean (n : ℕ) (q : List ℕ) (t : OTree)
    (hok : allClean t) : allClean (removeNodeAt n t q).1 := by
  induction q generalizing t with
  | nil =>
    by_cases hm : n ∈ t.nodes
    · rw [removeNodeAt_nil_found n t hm]
      cases t with
      | mk g ns nn sd c0 c1 c2 c3 c4 c5 c6 c7 =>
        rw [allClean_iff] at hok ⊢
        refine ⟨hok.1, ?_⟩
        intro j c hc
        have hch : (OTree.mk g (ns.erase n) (nn - 1) sd c0 c1 c2 c3 c4 c5 c6 c7).child j
            = (OTree.mk g ns nn sd c0 c1 c2 c3 c4 c5 c6 c7).child j := by
          rcases j with _|_|_|_|_|_|_|_|j <;> rfl
        rw [hch] at hc
        exact hok.2 j c hc
    · rw [removeNodeAt_nil_notfound n t hm]; exact hok
  | cons i p ih =>
    rw [removeNodeAt_cons_eq]
    cases hc : t.child i with
    | none => exact hok
    | some c =>
      simp only
      rw [allClean_iff] at hok
      have hi := child_some_lt8 t hc
      by_cases hf : (removeNodeAt n c p).2
      · by_cases hz : (removeNodeAt n c p).1.numNodes = 0
        · simp only [hf, hz, if_true]
          rw [allClean_iff]
          refine ⟨by simp [hok.1], ?_⟩
          intro j c' hc'
          rw [child_setNum_setChild _ _ _ _ _ hi] at hc'
          by_cases hj : j = i
          · rw [if_pos hj] at hc'; simp at hc'
          · rw [if_neg hj] at hc'
            exact hok.2 j c' hc'
        · simp only [hf, hz, if_true, if_false]
          rw [allClean_iff]
          refine ⟨by simp [hok.1], ?_⟩
          intro j c' hc'
          rw [child_setNum_setChild _ _ _ _ _ hi] at hc'
          by_cases hj : j = i
          · rw [if_pos hj] at hc'
            obtain rfl : (removeNodeAt n c p).1 = c' := by injection hc'
            exact ih c (hok.2 i c hc)
          · rw [if_neg hj] at hc'
            exact hok.2 j c' hc'
      · simp only [hf, if_false]
        rw [allClean_iff]
        exact hok

theorem allClean_sortDirty {t : OTree} (h : allClean t) : t.sortDirty = false :=
  ((allClean_iff t).mp h).1

/-- A child slot of the freshly reinitialized root is always empty. -/
theorem child_mk_none (g : OctGeom) (ns : List ℕ) (nn : ℕ) (sd : Bool) (j : ℕ) :
    (OTree.mk g ns nn sd none none none none none none none none).child j = none := by
  rcases j with _|_|_|_|_|_|_|_|j <;> rfl

theorem countsOK_mk_empty (g : OctGeom) (sd : Bool) :
    countsOK (OTree.mk g [] 0 sd none none none none none none none none) := by
  rw [countsOK_iff]
  refine ⟨by simp [csum, child_mk_none], ?_⟩
  intro j c hc
  rw [child_mk_none] at hc
  cases hc

theorem noEmpty_mk_empty (g : OctGeom) (sd : Bool) :
    noEmptyChildren (OTree.mk g [] 0 sd none none none none none none none none) := by
  rw [noEmptyChildren_iff]
  intro j c hc
  rw [child_mk_none] at hc
  cases hc

theorem treeGeomOK_mk_empty {g : OctGeom} (hg : geomOK g) (sd : Bool) :
    treeGeomOK (OTree.mk g [] 0 sd none none none none none none none none) := by
  rw [treeGeomOK_iff]
  refine ⟨hg, ?_⟩
  intro j c hc
  rw [child_mk_none] at hc
  cases hc

theorem occCount_mk_empty (m : ℕ) (g : OctGeom) (sd : Bool) :
    occCount m (OTree.mk g [] 0 sd none none none none none none none none) = 0 := by
  rw [occCount_eq]
  simp [child_mk_none]

theorem allClean_mk_empty (g : OctGeom) :
    allClean (OTree.mk g [] 0 false none none none none none none none none) := by
  rw [allClean_iff]
  refine ⟨rfl, ?_⟩
  intro j c hc
  rw [child_mk_none] at hc
  cases hc

/-!
## Per-operation preservation of the invariant
-/

theorem octreeInit_WF (env : Env) : WF env octreeInit := by
  refine ⟨⟨?_, ?_, ?_, ?_, ?_, ?_, ?_, ?_⟩, ?_⟩
  · exact countsOK_mk_empty _ _
  · exact noEmpty_mk_empty _ _
  · exact treeGeomOK_mk_empty (geomOK_initGeom _ _) _
  · exact KeysNodup.nil
  · intro n p hp; cases hp
  · intro n p hp; cases hp
  · intro n _; exact occCount_mk_empty _ _ _
  · intro n p hp; cases hp
  · exact allClean_mk_empty _

theorem queueUpdate_WF (env : Env) {s : OState} (h : WF env s) (n : ℕ) :
    WF env (queueUpdate s n) :=
  ⟨⟨h.counts, h.noEmpty, h.geom, h.keys, h.backref, h.occT, h.occU, h.contain⟩, h.clean⟩

theorem cancelUpdate_WF (env : Env) {s : OState} (h : WF env s) (n : ℕ) :
    WF env (cancelUpdate s n) :=
  ⟨⟨h.counts, h.noEmpty, h.geom, h.keys, h.backref, h.occT, h.occU, h.contain⟩, h.clean⟩

theorem resize_WF (env : Env) {s : OState} (h : WF env s) (box : BoundingBox)
    (lv : ℤ) : WF env (resize s box lv) := by
  have hsd : s.root.sortDirty = false := allClean_sortDirty h.clean
  refine ⟨⟨?_, ?_, ?_, ?_, ?_, ?_, ?_, ?_⟩, ?_⟩
  · exact countsOK_mk_empty _ _
  · exact noEmpty_mk_empty _ _
  · exact treeGeomOK_mk_empty (geomOK_initGeom _ _) _
  · exact KeysNodup.nil
  · intro n p hp; cases hp
  · intro n p hp; cases hp
  · intro n _; exact occCount_mk_empty _ _ _
  · intro n p hp; cases hp
  · show allClean (OTree.mk _ [] 0 s.root.sortDirty none none none none none none none none)
    rw [hsd]
    exact allClean_mk_empty _

theorem removeNodeOp_WF (env : Env) {s : OState} (h : WF env s) (n : ℕ) :
    WF env (removeNodeOp s n) := by
  rw [removeNodeOp]
  cases hold : lookupA s.octantOf n with
  | none =>
    dsimp only
    have hkey : ∀ b : Bool,
        WF env { s with root := s.root,
                        queue := if b then tombstoneFirst s.queue n else s.queue,
                        queuedFlags := if b then flagClear s.queuedFlags n else s.queuedFlags,
                        octantOf := eraseKeyA s.octantOf n } := by
      intro b
      refine ⟨⟨h.counts, h.noEmpty, h.geom, keysNodup_eraseKeyA _ _ h.keys, ?_, ?_, ?_, ?_⟩,
        h.clean⟩
      · intro m p hp
        by_cases hmn : m = n
        · subst hmn; rw [lookupA_eraseKeyA_self] at hp; cases hp
        · rw [lookupA_eraseKeyA_ne _ (Ne.symm hmn)] at hp
          exact h.backref m p hp
      · intro m p hp
        by_cases hmn : m = n
        · subst hmn; rw [lookupA_eraseKeyA_self] at hp; cases hp
        · rw [lookupA_eraseKeyA_ne _ (Ne.symm hmn)] at hp
          exact h.occT m p hp
      · intro m hm
        by_cases hmn : m = n
        · subst hmn; exact h.occU m hold
        · rw [lookupA_eraseKeyA_ne _ (Ne.symm hmn)] at hm
          exact h.occU m hm
      · intro m p hp hpne o ho
        by_cases hmn : m = n
        · subst hmn; rw [lookupA_eraseKeyA_self] at hp; cases hp
        · rw [lookupA_eraseKeyA_ne _ (Ne.symm hmn)] at hp
          exact h.contain m p hp hpne o ho
    by_cases hb : n ∈ s.queuedFlags
    · rw [if_pos hb]
      have := hkey true
      simpa using this
    · rw [if_neg hb]
      have := hkey false
      simpa using this
  | some q =>
    dsimp only
    obtain ⟨oq, hoq, hnq⟩ := h.backref n q hold
    have hfound : (removeNodeAt n s.root q).2 = true :=
      (removeNodeAt_found_iff n q s.root).mpr ⟨oq, hoq, hnq⟩
    have hocc : occCount n (removeNodeAt n s.root q).1 = 0 := by
      have := removeNodeAt_occ_self n q s.root h.counts hfound
      have h1 := h.occT n q hold
      omega
    have hkey : ∀ b : Bool,
        WF env { s with root := (removeNodeAt n s.root q).1,
                        queue := if b then tombstoneFirst s.queue n else s.queue,
                        queuedFlags := if b then flagClear s.queuedFlags n else s.queuedFlags,
                        octantOf := eraseKeyA s.octantOf n } := by
      intro b
      refine ⟨⟨removeNodeAt_countsOK n q s.root h.counts,
        removeNodeAt_noEmpty n q s.root h.noEmpty,
        removeNodeAt_treeGeomOK n q s.root h.geom,
        keysNodup_eraseKeyA _ _ h.keys, ?_, ?_, ?_, ?_⟩,
        removeNodeAt_allClean n q s.root h.clean⟩
      · intro m p hp
        by_cases hmn : m = n
        · subst hmn; rw [lookupA_eraseKeyA_self] at hp; cases hp
        · rw [lookupA_eraseKeyA_ne _ (Ne.symm hmn)] at hp
          obtain ⟨om, hom, hmm⟩ := h.backref m p hp
          obtain ⟨o', ho', _, hm'⟩ :=
            removeNodeAt_mono n q s.root h.counts p om m hom hmm (fun _ => hmn)
          exact ⟨o', ho', hm'⟩
      · intro m p hp
        by_cases hmn : m = n
        · subst hmn; rw [lookupA_eraseKeyA_self] at hp; cases hp
        · rw [lookupA_eraseKeyA_ne _ (Ne.symm hmn)] at hp
          rw [removeNodeAt_occ_other n m q s.root h.counts hmn]
          exact h.occT m p hp
      · intro m hm
        by_cases hmn : m = n
        · subst hmn; exact hocc
        · rw [lookupA_eraseKeyA_ne _ (Ne.symm hmn)] at hm
          rw [removeNodeAt_occ_other n m q s.root h.counts hmn]
          exact h.occU m hm
      · intro m p hp hpne o ho
        by_cases hmn : m = n
        · subst hmn; rw [lookupA_eraseKeyA_self] at hp; cases hp
        · rw [lookupA_eraseKeyA_ne _ (Ne.symm hmn)] at hp
          obtain ⟨om, hom, hmm⟩ := h.backref m p hp
          obtain ⟨o', ho', hg', _⟩ :=
            removeNodeAt_mono n q s.root h.counts p om m hom hmm (fun _ => hmn)
          rw [ho'] at ho
          obtain rfl : o' = o := by injection ho
          rw [hg']
          exact h.contain m p hp hpne om hom
    by_cases hb : n ∈ s.queuedFlags
    · rw [if_pos hb]
      have := hkey true
      simpa using this
    · rw [if_neg hb]
      have := hkey false
      simpa using this

theorem foldl_processEntry_WFa (env : Env) (f : ℕ) (es : List (Option ℕ)) :
    ∀ s : OState, WFa env s →
      WFa env (es.foldl (processEntry env f) s) ∧
      (es.foldl (processEntry env f) s).root.geom = s.root.geom := by
  induction es with
  | nil => intro s h; exact ⟨h, rfl⟩
  | cons e es ih =>
    intro s h
    obtain ⟨h1, hg1, _⟩ := processEntry_WFa env f h e
    obtain ⟨h2, hg2⟩ := ih _ h1
    exact ⟨h2, hg2.trans hg1⟩

theorem update_WF (env : Env) (f : ℕ) {s : OState} (h : WFa env s) :
    WF env (update env f s) := by
  rw [update]
  obtain ⟨h1, _⟩ := foldl_processEntry_WFa env f s.queue s h
  set s' := s.queue.foldl (processEntry env f) s with hS
  refine ⟨⟨?_, ?_, ?_, h1.keys, ?_, ?_, ?_, ?_⟩, ?_⟩
  · exact countsOK_sortPass _ h1.counts
  · exact noEmpty_sortPass _ h1.noEmpty
  · exact treeGeomOK_sortPass _ h1.geom
  · intro n p hp
    obtain ⟨o, ho, hm⟩ := h1.backref n p hp
    refine ⟨sortPass o, ?_, ?_⟩
    · show octantAt (sortPass s'.root) p = some (sortPass o)
      rw [octantAt_sortPass, ho]
      rfl
    · exact (sortPass_nodes_perm o).mem_iff.mpr hm
  · intro n p hp
    show occCount n (sortPass s'.root) = 1
    rw [occCount_sortPass]
    exact h1.occT n p hp
  · intro n hn
    show occCount n (sortPass s'.root) = 0
    rw [occCount_sortPass]
    exact h1.occU n hn
  · intro n p hp hpne o ho
    obtain ⟨o0, ho0, hm0⟩ := h1.backref n p hp
    have ho0' : octantAt (sortPass s'.root) p = some (sortPass o0) := by
      rw [octantAt_sortPass, ho0]; rfl
    rw [ho0'] at ho
    obtain rfl : sortPass o0 = o := by injection ho
    rw [sortPass_geom]
    exact h1.contain n p hp hpne o0 ho0
  · exact allClean_sortPass _

/-- Every reachable octree state satisfies the full invariant. -/
theorem reachable_WF {env : Env} {s : OState} (h : Reachable env s) : WF env s := by
  induction h with
  | init => exact octreeInit_WF env
  | update f _ ih => exact update_WF env f ih.toWFa
  | resize box lv _ ih => exact resize_WF env ih box lv
  | removeNode n _ ih => exact removeNodeOp_WF env ih n
  | queueUpdate n _ ih => exact queueUpdate_WF env ih n
  | cancelUpdate n _ ih => exact cancelUpdate_WF env ih n

/-!
## Helpers for the claim theorems
-/

theorem noEmpty_octantAt {t : OTree} (h : noEmptyChildren t) :
    ∀ (p : List ℕ) (i : ℕ) (o : OTree), octantAt t (i :: p) = some o →
      o.numNodes ≠ 0 ∧ noEmptyChildren o := by
  intro p
  induction p generalizing t with
  | nil =>
    intro i o ho
    obtain ⟨c, hc, hrest⟩ := octantAt_cons_some ho
    rw [octantAt_nil] at hrest
    obtain rfl : c = o := by injection hrest
    exact ⟨((noEmptyChildren_iff t).mp h i c hc).1, ((noEmptyChildren_iff t).mp h i c hc).2⟩
  | cons j p ih =>
    intro i o ho
    obtain ⟨c, hc, hrest⟩ := octantAt_cons_some ho
    exact ih ((noEmptyChildren_iff t).mp h i c hc).2 j o hrest

theorem treeGeomOK_octantAt {t : OTree} (h : treeGeomOK t) :
    ∀ (p : List ℕ) (o : OTree), octantAt t p = some o → treeGeomOK o := by
  intro p
  induction p generalizing t with
  | nil =>
    intro o ho
    rw [octantAt_nil] at ho
    obtain rfl : t = o := by injection ho
    exact h
  | cons i p ih =>
    intro o ho
    obtain ⟨c, hc, hrest⟩ := octantAt_cons_some ho
    exact ih (((treeGeomOK_iff t).mp h).2 i c hc).2 o hrest

theorem tombstoneFirst_of_not_mem (q : List (Option ℕ)) (n : ℕ)
    (h : some n ∉ q) : tombstoneFirst q n = q := by
  induction q with
  | nil => rfl
  | cons e q ih =>
    rw [tombstoneFirst]
    rw [List.mem_cons, not_or] at h
    rw [if_neg (fun he => h.1 he.symm), ih h.2]

/-- A list whose element counts are the indicator function of a
duplicate-free key list has the same length as that key list. -/
theorem length_of_count_indicator :
    ∀ (keys : List ℕ), keys.Nodup → ∀ L : List ℕ,
      (∀ m, L.count m = if m ∈ keys then 1 else 0) → L.length = keys.length := by
  intro keys
  induction keys with
  | nil =>
    intro _ L hL
    have : L = [] := by
      rw [List.eq_nil_iff_forall_not_mem]
      intro a ha
      have := hL a
      rw [if_neg (List.not_mem_nil a)] at this
      rw [← List.count_pos_iff] at ha
      omega
    rw [this]
  | cons k keys ih =>
    intro hnd L hL
    rw [List.nodup_cons] at hnd
    have hkL : k ∈ L := by
      rw [← List.count_pos_iff, hL k, if_pos (List.mem_cons_self k keys)]
      omega
    have hL' : ∀ m, (L.erase k).count m = if m ∈ keys then 1 else 0 := by
      intro m
      by_cases hmk : m = k
      · subst hmk
        rw [List.count_erase_self, hL m, if_pos (List.mem_cons_self m keys),
          if_neg hnd.1]
      · rw [List.count_erase_of_ne hmk, hL m]
        by_cases hmem : m ∈ keys
        · rw [if_pos (List.mem_cons_of_mem k hmem), if_pos hmem]
        · rw [if_neg (by simp [hmk, hmem]), if_neg hmem]
    have hlen := ih hnd.2 (L.erase k) hL'
    have := List.length_erase_add_one hkL
    simp only [List.length_cons]
    omega

theorem mem_keys_iff_lookupA {α : Type} (l : List (ℕ × α)) (n : ℕ) :
    n ∈ l.map Prod.fst ↔ lookupA l n ≠ none := by
  constructor
  · intro h hn
    exact not_mem_keys_of_lookupA_none l n hn h
  · intro h
    cases hl : lookupA l n with
    | none => exact absurd hl h
    | some v => exact mem_keys_of_lookupA_some l n hl

/-!
## Claim C3 — pruned octants
-/

/-- Claim C3: in every reachable state, every non-root octant reachable
through the children arrays (a nonempty path from the root) has a nonzero
`numNodes` count — equivalently, an octant whose count reached zero has been
pruned and is no longer reachable from its parent. -/
theorem claim_C3 (env : Env) (s : OState) (h : Reachable env s) (i : ℕ)
    (p : List ℕ) (o : OTree) (ho : octantAt s.root (i :: p) = some o) :
    o.numNodes ≠ 0 :=
  (noEmpty_octantAt (reachable_WF h).noEmpty p i o ho).1

/-!
## Claim C2 — the root count equals the number of tracked objects
-/

/-- Claim C2: in every reachable state the root octant's stored `numNodes`
equals the number of tracked objects — the number of entries of the
back-reference map `octantOf` (whose keys are exactly the objects whose
back-reference names an octant of the tree). -/
theorem claim_C2 (env : Env) (s : OState) (h : Reachable env s) :
    s.root.numNodes = s.octantOf.length := by
  have hWF := reachable_WF h
  have hlen := numNodes_eq_collect_length s.root hWF.counts
  have hcnt : ∀ m, (collectNodes s.root).count m =
      if m ∈ s.octantOf.map Prod.fst then 1 else 0 := by
    intro m
    rw [occCount_le_of_collect]
    by_cases hm : m ∈ s.octantOf.map Prod.fst
    · rw [if_pos hm]
      cases hl : lookupA s.octantOf m with
      | none => exact absurd hm (by rw [mem_keys_iff_lookupA]; simp [hl])
      | some p => exact hWF.occT m p hl
    · rw [if_neg hm]
      refine hWF.occU m ?_
      cases hl : lookupA s.octantOf m with
      | none => rfl
      | some p => exact absurd (mem_keys_of_lookupA_some _ _ hl) hm
  have := length_of_count_indicator (s.octantOf.map Prod.fst) hWF.keys
    (collectNodes s.root) hcnt
  rw [hlen, this, List.length_map]

/-!
## Claim C10 — removal of an absent object is harmless
-/

/-- Claim C10: `RemoveNode` on an object whose back-reference is null, or
that is not present in the node list of the octant its back-reference names,
leaves the whole octant tree unchanged (no node list, count or child slot is
touched), and only clears the object's back-reference and, when the queued
flag is set, tombstones its pending queue entry and clears the flag. -/
theorem claim_C10 (s : OState) (n : ℕ)
    (h : ∀ q, lookupA s.octantOf n = some q →
      ∀ o, octantAt s.root q = some o → n ∉ o.nodes) :
    (removeNodeOp s n).root = s.root ∧
    (removeNodeOp s n).octantOf = eraseKeyA s.octantOf n ∧
    (removeNodeOp s n).queue =
      (if n ∈ s.queuedFlags then tombstoneFirst s.queue n else s.queue) ∧
    (removeNodeOp s n).queuedFlags =
      (if n ∈ s.queuedFlags then flagClear s.queuedFlags n else s.queuedFlags) ∧
    (removeNodeOp s n).lastFrame = s.lastFrame := by
  have hroot :
      (match lookupA s.octantOf n with
        | some q => (removeNodeAt n s.root q).1
        | none => s.root) = s.root := by
    cases hl : lookupA s.octantOf n with
    | none => rfl
    | some q =>
      have hnf : (removeNodeAt n s.root q).2 = false := by
        cases hf : (removeNodeAt n s.root q).2 with
        | false => rfl
        | true =>
          obtain ⟨o, ho, hm⟩ := (removeNodeAt_found_iff n q s.root).mp hf
          exact absurd hm (h q hl o ho)
      exact removeNodeAt_not_found n q s.root hnf
  rw [removeNodeOp]
  dsimp only
  rw [hroot]
  by_cases hb : n ∈ s.queuedFlags
  · rw [if_pos hb, if_pos hb, if_pos hb]
    exact ⟨rfl, rfl, rfl, rfl, rfl⟩
  · rw [if_neg hb, if_neg hb, if_neg hb]
    exact ⟨rfl, rfl, rfl, rfl, rfl⟩

/-!
## Claim C9 — the culling box derivation (corrected)
-/

/-- Counterexample to C9 as stated: `Octree::SetBoundingBoxAttr` overwrites
the root octant's `worldBoundingBox` alone, leaving `cullingBox` (and
`center`, `halfSize`) stale, so after it runs the culling box no longer
equals the world bounding box expanded by the half size: the claim's "no
operation of the Octree mutates cullingBox or worldBoundingBox independently
of the other" fails for this operation. -/
theorem claim_C9_counterexample :
    (setBoundingBoxAttr octreeInit ⟨⟨0, 0, 0⟩, ⟨1, 1, 1⟩⟩).root.geom.cullingBox.min.x ≠
      (setBoundingBoxAttr octreeInit ⟨⟨0, 0, 0⟩, ⟨1, 1, 1⟩⟩).root.geom.worldBoundingBox.min.x -
        (setBoundingBoxAttr octreeInit ⟨⟨0, 0, 0⟩, ⟨1, 1, 1⟩⟩).root.geom.halfSize.x := by
  have hg : (setBoundingBoxAttr octreeInit ⟨⟨0, 0, 0⟩, ⟨1, 1, 1⟩⟩).root.geom =
      { worldBoundingBox := ⟨⟨0, 0, 0⟩, ⟨1, 1, 1⟩⟩
        center := centerB ⟨⟨-1000, -1000, -1000⟩, ⟨1000, 1000, 1000⟩⟩
        halfSize := halfSizeB ⟨⟨-1000, -1000, -1000⟩, ⟨1000, 1000, 1000⟩⟩
        cullingBox := ⟨(⟨-1000, -1000, -1000⟩ : Vector3) -
            halfSizeB ⟨⟨-1000, -1000, -1000⟩, ⟨1000, 1000, 1000⟩⟩,
          (⟨1000, 1000, 1000⟩ : Vector3) +
            halfSizeB ⟨⟨-1000, -1000, -1000⟩, ⟨1000, 1000, 1000⟩⟩⟩
        level := 8 } := rfl
  rw [hg]
  simp only [halfSizeB, Vector3.smul, Vector3.sub_def, Vector3.add_def]
  norm_num

/-- Claim C9, amended: under the five public mutating operations (`Update`,
`Resize`, `RemoveNode`, `QueueUpdate`, `CancelUpdate`) — that is, excluding
the deserialization helper `SetBoundingBoxAttr` — every octant of every
reachable state has a culling box equal to its world bounding box expanded
outward by its half size on every axis. -/
theorem claim_C9_amended (env : Env) (s : OState) (h : Reachable env s)
    (p : List ℕ) (o : OTree) (ho : octantAt s.root p = some o) :
    o.geom.cullingBox =
      ⟨o.geom.worldBoundingBox.min - o.geom.halfSize,
       o.geom.worldBoundingBox.max + o.geom.halfSize⟩ :=
  (((treeGeomOK_iff o).mp (treeGeomOK_octantAt (reachable_WF h).geom p o ho)).1).2.2

/-!
## Claim C5 — the fit test against its specification
-/

/-- Modelled from the spec (§4.1 (c)): the region a would-be child octant at
index `i` would answer queries for — the child's world box expanded outward
by the child's own half size (half this octant's half size) on every axis. -/
def childExpandedRegion (g : OctGeom) (i : ℕ) : BoundingBox :=
  ⟨(childBoxOf g i).min - Vector3.smul (1/2) g.halfSize,
   (childBoxOf g i).max + Vector3.smul (1/2) g.halfSize⟩

/-- Modelled from the spec: the box reaches or crosses the boundary of the
region on at least one axis (the float code's comparisons are non-strict, so
touching the boundary already counts as falling outside). -/
def outsideRegion (r : BoundingBox) (box : BoundingBox) : Prop :=
  box.min.x ≤ r.min.x ∨ box.max.x ≥ r.max.x ∨
  box.min.y ≤ r.min.y ∨ box.max.y ≥ r.max.y ∨
  box.min.z ≤ r.min.z ∨ box.max.z ≥ r.max.z

instance (r box : BoundingBox) : Decidable (outsideRegion r box) := by
  unfold outsideRegion; infer_instance

/-- The fit test, worded as the specification words it (§4.1): the object
belongs at this level when (a) this is the minimum subdivision level, or
(b) its extent on some axis is at least this octant's half size, or (c) it
straddles a boundary, i.e. no would-be child's expanded region holds it —
it falls outside every child's expanded region on some axis. -/
def specFitsHere (g : OctGeom) (box : BoundingBox) (boxSize : Vector3) : Prop :=
  g.level ≤ 1 ∨
  boxSize.x ≥ g.halfSize.x ∨ boxSize.y ≥ g.halfSize.y ∨ boxSize.z ≥ g.halfSize.z ∨
  ∀ i < 8, outsideRegion (childExpandedRegion g i) box

instance (g : OctGeom) (box : BoundingBox) (boxSize : Vector3) :
    Decidable (specFitsHere g box boxSize) := by
  unfold specFitsHere; infer_instance

set_option maxHeartbeats 3200000 in
/-- Claim C5: for an octant with consistently derived geometry and a proper
(non-inverted) world box, `FitBoundingBox` on an object box and its size
returns true exactly when the specification's three conditions say it fits
here: minimum level, too large on some axis, or straddling — outside every
would-be child's expanded region on some axis. -/
theorem claim_C5 (g : OctGeom) (box : BoundingBox) (boxSize : Vector3)
    (hg : geomOK g)
    (hw : g.worldBoundingBox.min.x ≤ g.worldBoundingBox.max.x ∧
          g.worldBoundingBox.min.y ≤ g.worldBoundingBox.max.y ∧
          g.worldBoundingBox.min.z ≤ g.worldBoundingBox.max.z)
    (hbs : boxSize = sizeB box) :
    fitBoundingBox g box boxSize = true ↔ specFitsHere g box boxSize := by
  obtain ⟨hc, hh, _⟩ := hg
  obtain ⟨hwx, hwy, hwz⟩ := hw
  have hcx : g.center.x = (1/2) * (g.worldBoundingBox.min.x + g.worldBoundingBox.max.x) := by
    rw [hc]; rfl
  have hcy : g.center.y = (1/2) * (g.worldBoundingBox.min.y + g.worldBoundingBox.max.y) := by
    rw [hc]; rfl
  have hcz : g.center.z = (1/2) * (g.worldBoundingBox.min.z + g.worldBoundingBox.max.z) := by
    rw [hc]; rfl
  have hbx : boxSize.x = box.max.x - box.min.x := by rw [hbs]; rfl
  have hby : boxSize.y = box.max.y - box.min.y := by rw [hbs]; rfl
  have hbz : boxSize.z = box.max.z - box.min.z := by rw [hbs]; rfl
  by_cases hA : g.level ≤ 1 ∨ boxSize.x ≥ g.halfSize.x ∨ boxSize.y ≥ g.halfSize.y ∨
      boxSize.z ≥ g.halfSize.z
  · rw [fitBoundingBox, if_pos hA]
    refine iff_of_true rfl ?_
    rcases hA with h | h | h | h
    · exact Or.inl h
    · exact Or.inr (Or.inl h)
    · exact Or.inr (Or.inr (Or.inl h))
    · exact Or.inr (Or.inr (Or.inr (Or.inl h)))
  · rw [fitBoundingBox, if_neg hA]
    push_neg at hA
    obtain ⟨hA1, hA2, hA3, hA4⟩ := hA
    by_cases hS : box.min.x ≤ g.worldBoundingBox.min.x - (1/2) * g.halfSize.x ∨
        box.min.y ≤ g.worldBoundingBox.min.y - (1/2) * g.halfSize.y ∨
        box.min.z ≤ g.worldBoundingBox.min.z - (1/2) * g.halfSize.z ∨
        box.max.x ≥ g.worldBoundingBox.max.x + (1/2) * g.halfSize.x ∨
        box.max.y ≥ g.worldBoundingBox.max.y + (1/2) * g.halfSize.y ∨
        box.max.z ≥ g.worldBoundingBox.max.z + (1/2) * g.halfSize.z
    · rw [if_pos hS]
      refine iff_of_true rfl (Or.inr (Or.inr (Or.inr (Or.inr ?_))))
      intro i _hi
      simp only [outsideRegion, childExpandedRegion, childBoxOf, Vector3.sub_def,
        Vector3.add_def, Vector3.smul]
      rcases hS with h | h | h | h | h | h
      · by_cases hb : i % 2 = 1
        · exact Or.inl (by rw [if_pos hb]; linarith)
        · exact Or.inl (by rw [if_neg hb]; linarith)
      · by_cases hb : i / 2 % 2 = 1
        · exact Or.inr (Or.inr (Or.inl (by rw [if_pos hb]; linarith)))
        · exact Or.inr (Or.inr (Or.inl (by rw [if_neg hb]; linarith)))
      · by_cases hb : i / 4 % 2 = 1
        · exact Or.inr (Or.inr (Or.inr (Or.inr (Or.inl
            (by rw [if_pos hb]; linarith)))))
        · exact Or.inr (Or.inr (Or.inr (Or.inr (Or.inl
            (by rw [if_neg hb]; linarith)))))
      · by_cases hb : i % 2 = 1
        · exact Or.inr (Or.inl (by rw [if_pos hb]; linarith))
        · exact Or.inr (Or.inl (by rw [if_neg hb]; linarith))
      · by_cases hb : i / 2 % 2 = 1
        · exact Or.inr (Or.inr (Or.inr (Or.inl
            (by rw [if_pos hb]; linarith))))
        · exact Or.inr (Or.inr (Or.inr (Or.inl
            (by rw [if_neg hb]; linarith))))
      · by_cases hb : i / 4 % 2 = 1
        · exact Or.inr (Or.inr (Or.inr (Or.inr (Or.inr
            (by rw [if_pos hb]; linarith)))))
        · exact Or.inr (Or.inr (Or.inr (Or.inr (Or.inr
            (by rw [if_neg hb]; linarith)))))
    · rw [if_neg hS]
      push_neg at hS
      obtain ⟨hS1, hS2, hS3, hS4, hS5, hS6⟩ := hS
      refine iff_of_false (by simp) ?_
      intro hspec
      rcases hspec with h | h | h | h | hAll
      · exact absurd h (by omega)
      · exact absurd h (by linarith)
      · exact absurd h (by linarith)
      · exact absurd h (by linarith)
      · by_cases cx : box.max.x < g.center.x + (1/2) * g.halfSize.x <;>
          by_cases cy : box.max.y < g.center.y + (1/2) * g.halfSize.y <;>
            by_cases cz : box.max.z < g.center.z + (1/2) * g.halfSize.z
        · have hout := hAll 0 (by norm_num)
          simp only [outsideRegion, childExpandedRegion, childBoxOf, Vector3.sub_def,
            Vector3.add_def, Vector3.smul] at hout
          norm_num at hout
          rcases hout with h | h | h | h | h | h <;> linarith
        · have hout := hAll 4 (by norm_num)
          simp only [outsideRegion, childExpandedRegion, childBoxOf, Vector3.sub_def,
            Vector3.add_def, Vector3.smul] at hout
          norm_num at hout
          rcases hout with h | h | h | h | h | h <;> linarith
        · have hout := hAll 2 (by norm_num)
          simp only [outsideRegion, childExpandedRegion, childBoxOf, Vector3.sub_def,
            Vector3.add_def, Vector3.smul] at hout
          norm_num at hout
          rcases hout with h | h | h | h | h | h <;> linarith
        · have hout := hAll 6 (by norm_num)
          simp only [outsideRegion, childExpandedRegion, childBoxOf, Vector3.sub_def,
            Vector3.add_def, Vector3.smul] at hout
          norm_num at hout
          rcases hout with h | h | h | h | h | h <;> linarith
        · have hout := hAll 1 (by norm_num)
          simp only [outsideRegion, childExpandedRegion, childBoxOf, Vector3.sub_def,
            Vector3.add_def, Vector3.smul] at hout
          norm_num at hout
          rcases hout with h | h | h | h | h | h <;> linarith
        · have hout := hAll 5 (by norm_num)
          simp only [outsideRegion, childExpandedRegion, childBoxOf, Vector3.sub_def,
            Vector3.add_def, Vector3.smul] at hout
          norm_num at hout
          rcases hout with h | h | h | h | h | h <;> linarith
        · have hout := hAll 3 (by norm_num)
          simp only [outsideRegion, childExpandedRegion, childBoxOf, Vector3.sub_def,
            Vector3.add_def, Vector3.smul] at hout
          norm_num at hout
          rcases hout with h | h | h | h | h | h <;> linarith
        · have hout := hAll 7 (by norm_num)
          simp only [outsideRegion, childExpandedRegion, childBoxOf, Vector3.sub_def,
            Vector3.add_def, Vector3.smul] at hout
          norm_num at hout
          rcases hout with h | h | h | h | h | h <;> linarith

/-!
## Witnesses for the settled claims
-/

/-- A trivial object environment, for instantiating theorems quantified over
the objects' bounding boxes. -/
def envAny : Env := ⟨fun _ => ⟨⟨0, 0, 0⟩, ⟨0, 0, 0⟩⟩⟩

theorem claim_C2_witness : octreeInit.root.numNodes = octreeInit.octantOf.length :=
  claim_C2 envAny octreeInit Reachable.init

theorem claim_C9_amended_witness :
    octantAt octreeInit.root [] = some octreeInit.root ∧
    octreeInit.root.geom.cullingBox =
      ⟨octreeInit.root.geom.worldBoundingBox.min - octreeInit.root.geom.halfSize,
       octreeInit.root.geom.worldBoundingBox.max + octreeInit.root.geom.halfSize⟩ :=
  ⟨rfl, claim_C9_amended envAny octreeInit Reachable.init [] octreeInit.root rfl⟩

theorem claim_C10_witness :
    (removeNodeOp octreeInit 0).root = octreeInit.root ∧
    (removeNodeOp octreeInit 0).octantOf = eraseKeyA octreeInit.octantOf 0 ∧
    (removeNodeOp octreeInit 0).queue =
      (if 0 ∈ octreeInit.queuedFlags then tombstoneFirst octreeInit.queue 0
       else octreeInit.queue) ∧
    (removeNodeOp octreeInit 0).queuedFlags =
      (if 0 ∈ octreeInit.queuedFlags then flagClear octreeInit.queuedFlags 0
       else octreeInit.queuedFlags) ∧
    (removeNodeOp octreeInit 0).lastFrame = octreeInit.lastFrame :=
  claim_C10 octreeInit 0 (fun _q hq => nomatch hq)

/-- The world box of the default root is proper (non-inverted). -/
theorem c5_proper :
    (initGeom ⟨⟨-1000, -1000, -1000⟩, ⟨1000, 1000, 1000⟩⟩ 8).worldBoundingBox.min.x ≤
      (initGeom ⟨⟨-1000, -1000, -1000⟩, ⟨1000, 1000, 1000⟩⟩ 8).worldBoundingBox.max.x ∧
    (initGeom ⟨⟨-1000, -1000, -1000⟩, ⟨1000, 1000, 1000⟩⟩ 8).worldBoundingBox.min.y ≤
      (initGeom ⟨⟨-1000, -1000, -1000⟩, ⟨1000, 1000, 1000⟩⟩ 8).worldBoundingBox.max.y ∧
    (initGeom ⟨⟨-1000, -1000, -1000⟩, ⟨1000, 1000, 1000⟩⟩ 8).worldBoundingBox.min.z ≤
      (initGeom ⟨⟨-1000, -1000, -1000⟩, ⟨1000, 1000, 1000⟩⟩ 8).worldBoundingBox.max.z := by
  refine ⟨?_, ?_, ?_⟩ <;> norm_num [initGeom]

theorem claim_C5_witness :
    geomOK (initGeom ⟨⟨-1000, -1000, -1000⟩, ⟨1000, 1000, 1000⟩⟩ 8) ∧
    (fitBoundingBox (initGeom ⟨⟨-1000, -1000, -1000⟩, ⟨1000, 1000, 1000⟩⟩ 8)
        ⟨⟨0, 0, 0⟩, ⟨1, 1, 1⟩⟩ (sizeB ⟨⟨0, 0, 0⟩, ⟨1, 1, 1⟩⟩) = true ↔
      specFitsHere (initGeom ⟨⟨-1000, -1000, -1000⟩, ⟨1000, 1000, 1000⟩⟩ 8)
        ⟨⟨0, 0, 0⟩, ⟨1, 1, 1⟩⟩ (sizeB ⟨⟨0, 0, 0⟩, ⟨1, 1, 1⟩⟩)) :=
  ⟨geomOK_initGeom _ _,
   claim_C5 _ _ _ (geomOK_initGeom _ _) c5_proper rfl⟩

/-!
## Claims C1 and C6 — containment after `Update`, and root residency
-/

/-- Processing a queue entry of a different object never touches this
object's back-reference. -/
theorem processEntry_octantOf_other (env : Env) (f : ℕ) (s : OState) {m n : ℕ}
    (hmn : m ≠ n) :
    lookupA (processEntry env f s (some m)).octantOf n = lookupA s.octantOf n := by
  rw [processEntry]
  dsimp only
  by_cases hfast : (match lookupA s.octantOf m with
    | some q =>
      match octantAt s.root q with
      | some o => decide (containsB o.geom.cullingBox (env.boxes m)) &&
          fitBoundingBox o.geom (env.boxes m) (sizeB (env.boxes m))
      | none => false
    | none => false) = true
  · rw [if_pos hfast]
  · rw [if_neg hfast]
    by_cases hskip : lookupA s.octantOf m =
        some (descend (env.boxes m) (centerB (env.boxes m)) (sizeB (env.boxes m)) true s.root).2
    · rw [if_pos hskip]
    · rw [if_neg hskip]
      dsimp only
      exact lookupA_updA_ne _ _ hmn

/-- Processing the entry of an untracked object inserts it at the octant the
reinsertion descent selects. -/
theorem processEntry_untracked (env : Env) (f n : ℕ) (s : OState)
    (h : lookupA s.octantOf n = none) :
    processEntry env f s (some n) =
      { s with
        root := addNodeAt n
          (descend (env.boxes n) (centerB (env.boxes n)) (sizeB (env.boxes n)) true s.root).1
          (descend (env.boxes n) (centerB (env.boxes n)) (sizeB (env.boxes n)) true s.root).2,
        octantOf := updA n
          (descend (env.boxes n) (centerB (env.boxes n)) (sizeB (env.boxes n)) true s.root).2
          s.octantOf,
        queuedFlags := flagClear s.queuedFlags n,
        lastFrame := updA n f s.lastFrame } := by
  rw [processEntry]
  dsimp only
  rw [h]
  dsimp only
  rw [if_neg (fun hx : (false = true) => Bool.false_ne_true hx)]
  rw [if_neg (fun hx : (none : Option (List ℕ)) = some _ => Option.noConfusion hx)]

/-- An object whose box is not fully inside the root's culling box is forced
to the root by the descent. -/
theorem descend_out_of_bounds (env : Env) (n : ℕ) {s : OState}
    (hG : ¬ containsB s.root.geom.cullingBox (env.boxes n)) :
    descend (env.boxes n) (centerB (env.boxes n)) (sizeB (env.boxes n)) true s.root =
      (s.root, []) := by
  refine descend_ins _ _ _ _ _ ?_
  rw [insHere, if_pos rfl, decide_eq_false hG]
  rfl

/-- One queue-entry step keeps an out-of-bounds object at the root: a
back-reference naming the root stays, an absent back-reference stays absent
unless this is the object's own entry, and the object's own entry pins it to
the root. -/
theorem processEntry_pin (env : Env) (f : ℕ) {s : OState} {n : ℕ}
    (hG : ¬ containsB s.root.geom.cullingBox (env.boxes n)) (e : Option ℕ)
    (htr : lookupA s.octantOf n = some [] ∨ lookupA s.octantOf n = none) :
    (lookupA (processEntry env f s e).octantOf n = some [] ∨
      lookupA (processEntry env f s e).octantOf n = none) ∧
    (lookupA s.octantOf n = some [] →
      lookupA (processEntry env f s e).octantOf n = some []) ∧
    (e = some n → lookupA (processEntry env f s e).octantOf n = some []) := by
  cases e with
  | none => exact ⟨htr, fun h => h, fun h => nomatch h⟩
  | some m =>
    by_cases hmn : m = n
    · subst hmn
      have hdes := descend_out_of_bounds env m hG
      rcases htr with hl | hl
      · have : processEntry env f s (some m) =
            { s with queuedFlags := flagClear s.queuedFlags m,
                     lastFrame := updA m f s.lastFrame,
                     root := (descend (env.boxes m) (centerB (env.boxes m))
                       (sizeB (env.boxes m)) true s.root).1 } := by
          rw [processEntry]
          dsimp only
          rw [hl]
          dsimp only
          rw [octantAt_nil]
          dsimp only
          rw [decide_eq_false hG, Bool.false_and]
          rw [if_neg (fun hx : (false = true) => Bool.false_ne_true hx)]
          rw [hdes]
          rw [if_pos rfl]
        rw [this]
        exact ⟨Or.inl hl, fun _ => hl, fun _ => hl⟩
      · rw [processEntry_untracked env f m s hl, hdes]
        dsimp only
        rw [lookupA_updA_self]
        exact ⟨Or.inl rfl, fun _ => rfl, fun _ => rfl⟩
    · rw [processEntry_octantOf_other env f s hmn]
      exact ⟨htr, fun h => h, fun h => absurd (by injection h) hmn⟩

/-- Folding the queue keeps an out-of-bounds object at the root. -/
theorem foldl_pin (env : Env) (f n : ℕ) (es : List (Option ℕ)) :
    ∀ s : OState, WFa env s →
      ¬ containsB s.root.geom.cullingBox (env.boxes n) →
      (lookupA s.octantOf n = some [] ∨ lookupA s.octantOf n = none) →
      (lookupA (es.foldl (processEntry env f) s).octantOf n = some [] ∨
        lookupA (es.foldl (processEntry env f) s).octantOf n = none) ∧
      (lookupA s.octantOf n = some [] →
        lookupA (es.foldl (processEntry env f) s).octantOf n = some []) ∧
      (some n ∈ es →
        lookupA (es.foldl (processEntry env f) s).octantOf n = some []) := by
  induction es with
  | nil =>
    intro s _ _ htr
    exact ⟨htr, fun h => h, fun h => absurd h (List.not_mem_nil _)⟩
  | cons e es ih =>
    intro s hWF hG htr
    obtain ⟨hWF1, hg1, _⟩ := processEntry_WFa env f hWF e
    obtain ⟨p1, p2, p3⟩ := processEntry_pin env f hG e htr
    have hG1 : ¬ containsB (processEntry env f s e).root.geom.cullingBox (env.boxes n) := by
      rw [hg1]; exact hG
    obtain ⟨q1, q2, q3⟩ := ih (processEntry env f s e) hWF1 hG1 p1
    refine ⟨q1, fun h => q2 (p2 h), fun hmem => ?_⟩
    rcases List.mem_cons.mp hmem with he | hmem'
    · exact q2 (p3 he.symm)
    · exact q3 hmem'

/-- One `Update` keeps an out-of-bounds object at the root (and places a
queued one there), and never changes the root's geometry. -/
theorem update_pin (env : Env) (f n : ℕ) {s : OState} (hWF : WFa env s)
    (hG : ¬ containsB s.root.geom.cullingBox (env.boxes n))
    (htr : lookupA s.octantOf n = some [] ∨
      (lookupA s.octantOf n = none ∧ some n ∈ s.queue)) :
    lookupA (update env f s).octantOf n = some [] ∧
    (update env f s).root.geom = s.root.geom := by
  obtain ⟨hg0, _⟩ := foldl_processEntry_WFa env f s.queue s hWF
  have hgeom : (update env f s).root.geom = s.root.geom := by
    rw [update]
    dsimp only
    rw [sortPass_geom]
    exact (foldl_processEntry_WFa env f s.queue s hWF).2
  refine ⟨?_, hgeom⟩
  have hq : (update env f s).octantOf = (s.queue.foldl (processEntry env f) s).octantOf := rfl
  rw [hq]
  obtain ⟨_, r2, r3⟩ := foldl_pin env f n s.queue s hWF hG
    (htr.imp (fun h => h) (fun h => h.1))
  rcases htr with h | ⟨_, hmem⟩
  · exact r2 h
  · exact r3 hmem

/-- Claim C6: an object whose world box is not fully inside the root's
culling box is placed at the root octant by `Update` (whether it was already
tracked at the root or only queued for insertion), and it remains at the
root after every further sequence of `Update` calls, the root's geometry
never changing. -/
theorem claim_C6 (env : Env) (s : OState) (h : Reachable env s) (n f : ℕ)
    (hn : ¬ containsB s.root.geom.cullingBox (env.boxes n))
    (htr : lookupA s.octantOf n = some [] ∨
      (lookupA s.octantOf n = none ∧ some n ∈ s.queue)) :
    lookupA (update env f s).octantOf n = some [] ∧
    (update env f s).root.geom = s.root.geom ∧
    ∀ fs : List ℕ,
      lookupA ((fs.foldl (fun s' f' => update env f' s') (update env f s))).octantOf n =
        some [] := by
  obtain ⟨h1, h2⟩ := update_pin env f n (reachable_WF h).toWFa hn htr
  refine ⟨h1, h2, ?_⟩
  have : ∀ fs : List ℕ, ∀ u : OState, Reachable env u →
      u.root.geom = s.root.geom → lookupA u.octantOf n = some [] →
      lookupA (fs.foldl (fun s' f' => update env f' s') u).octantOf n = some [] := by
    intro fs
    induction fs with
    | nil => intro u _ _ hu; exact hu
    | cons f' fs ih =>
      intro u hr hg hu
      have hGu : ¬ containsB u.root.geom.cullingBox (env.boxes n) := by
        rw [hg]; exact hn
      obtain ⟨hu1, hu2⟩ := update_pin env f' n (reachable_WF hr).toWFa hGu (Or.inl hu)
      exact ih (update env f' u) (hr.update f') (hu2.trans hg) hu1
  exact fun fs => this fs (update env f s) (h.update f) h2 h1

/-- Claim C1: after `Update` returns, every tracked object's octant either
is the root (empty path) or has a culling box that fully contains the
object's current world bounding box. -/
theorem claim_C1 (env : Env) (f : ℕ) (s : OState) (h : Reachable env s) (n : ℕ)
    (p : List ℕ) (hp : lookupA (update env f s).octantOf n = some p) (o : OTree)
    (ho : octantAt (update env f s).root p = some o) :
    p = [] ∨ containsB o.geom.cullingBox (env.boxes n) := by
  by_cases hnil : p = []
  · exact Or.inl hnil
  · exact Or.inr ((reachable_WF (h.update f)).contain n p hp hnil o ho)

/-!
## Concrete scenarios for the witnesses of C1, C3 and C6
-/

/-- An environment whose single object is far larger than the default root:
its box is never inside the root's culling box. -/
def env3 : Env := ⟨fun _ => ⟨⟨-3000, -3000, -3000⟩, ⟨3000, 3000, 3000⟩⟩⟩

theorem c6_out : ¬ containsB (queueUpdate octreeInit 0).root.geom.cullingBox
    (env3.boxes 0) := by
  norm_num [containsB, queueUpdate, octreeInit, emptyOctant, initGeom, halfSizeB,
    centerB, Vector3.smul, Vector3.sub_def, Vector3.add_def, env3]

theorem claim_C6_witness :
    lookupA (update env3 0 (queueUpdate octreeInit 0)).octantOf 0 = some [] ∧
    (update env3 0 (queueUpdate octreeInit 0)).root.geom =
      (queueUpdate octreeInit 0).root.geom ∧
    ∀ fs : List ℕ,
      lookupA ((fs.foldl (fun s' f' => update env3 f' s')
        (update env3 0 (queueUpdate octreeInit 0)))).octantOf 0 = some [] :=
  claim_C6 env3 (queueUpdate octreeInit 0) (Reachable.queueUpdate 0 Reachable.init)
    0 0 c6_out (Or.inr ⟨rfl, by decide⟩)

/-- An environment with one small object near the high corner of a small
two-level octree. -/
def env2 : Env := ⟨fun _ => ⟨⟨2, 2, 2⟩, ⟨3, 3, 3⟩⟩⟩

/-- The state after resizing a fresh octree to `[-4,4]³` with two levels and
queueing object `0`. -/
def c1_state : OState :=
  queueUpdate (resize octreeInit ⟨⟨-4, -4, -4⟩, ⟨4, 4, 4⟩⟩ 2) 0

theorem c1_root_eq : c1_state.root =
    OTree.mk (initGeom ⟨⟨-4, -4, -4⟩, ⟨4, 4, 4⟩⟩ 2) [] 0 false
      none none none none none none none none := rfl

theorem c1_ins_false :
    insHere (env2.boxes 0) (sizeB (env2.boxes 0)) true
      (OTree.mk (initGeom ⟨⟨-4, -4, -4⟩, ⟨4, 4, 4⟩⟩ 2) [] 0 false
        none none none none none none none none) = false := by
  norm_num [insHere, fitBoundingBox, containsB, initGeom, halfSizeB, centerB,
    sizeB, Vector3.smul, Vector3.sub_def, Vector3.add_def, env2]

theorem c1_child_index :
    childIndex (initGeom ⟨⟨-4, -4, -4⟩, ⟨4, 4, 4⟩⟩ 2) (centerB (env2.boxes 0)) = 7 := by
  norm_num [childIndex, initGeom, centerB, halfSizeB, Vector3.smul,
    Vector3.add_def, env2]

theorem c1_child_fit :
    fitBoundingBox (childGeomOf (initGeom ⟨⟨-4, -4, -4⟩, ⟨4, 4, 4⟩⟩ 2) 7)
      (env2.boxes 0) (sizeB (env2.boxes 0)) = true := by
  norm_num [fitBoundingBox, childGeomOf, childBoxOf, initGeom]

theorem c1_descend :
    descend (env2.boxes 0) (centerB (env2.boxes 0)) (sizeB (env2.boxes 0)) true
      c1_state.root =
    ((OTree.mk (initGeom ⟨⟨-4, -4, -4⟩, ⟨4, 4, 4⟩⟩ 2) [] 0 false
        none none none none none none none none).setChild 7
      (some (emptyOctant (childGeomOf (initGeom ⟨⟨-4, -4, -4⟩, ⟨4, 4, 4⟩⟩ 2) 7))),
     [7]) := by
  rw [c1_root_eq, descend_step _ _ _ _ _ c1_ins_false]
  simp only [OTree.geom_mk]
  rw [c1_child_index]
  simp only [OTree.child]
  rw [createChain_fit _ _ _ _ c1_child_fit]

theorem c1_lookup : lookupA (update env2 0 c1_state).octantOf 0 = some [7] := by
  have h0 : (update env2 0 c1_state).octantOf =
      (processEntry env2 0 c1_state (some 0)).octantOf := rfl
  rw [h0, processEntry_untracked env2 0 0 c1_state rfl]
  dsimp only
  rw [c1_descend]
  rfl

theorem c1_octant : octantAt (update env2 0 c1_state).root [7] =
    some (sortPass (OTree.mk
      (childGeomOf (initGeom ⟨⟨-4, -4, -4⟩, ⟨4, 4, 4⟩⟩ 2) 7) [0] 1 true
      none none none none none none none none)) := by
  have h0 : (update env2 0 c1_state).root =
      sortPass (processEntry env2 0 c1_state (some 0)).root := rfl
  rw [h0, processEntry_untracked env2 0 0 c1_state rfl]
  dsimp only
  rw [c1_descend]
  rw [octantAt_sortPass]
  rfl

theorem claim_C1_witness :
    lookupA (update env2 0 c1_state).octantOf 0 = some [7] ∧
    octantAt (update env2 0 c1_state).root [7] =
      some (sortPass (OTree.mk
        (childGeomOf (initGeom ⟨⟨-4, -4, -4⟩, ⟨4, 4, 4⟩⟩ 2) 7) [0] 1 true
        none none none none none none none none)) ∧
    ([7] = [] ∨ containsB (sortPass (OTree.mk
        (childGeomOf (initGeom ⟨⟨-4, -4, -4⟩, ⟨4, 4, 4⟩⟩ 2) 7) [0] 1 true
        none none none none none none none none)).geom.cullingBox (env2.boxes 0)) :=
  ⟨c1_lookup, c1_octant,
   claim_C1 env2 0 c1_state
     (Reachable.queueUpdate 0 (Reachable.resize _ _ Reachable.init)) 0 [7]
     c1_lookup _ c1_octant⟩

theorem claim_C3_witness :
    octantAt (update env2 0 c1_state).root [7] =
      some (sortPass (OTree.mk
        (childGeomOf (initGeom ⟨⟨-4, -4, -4⟩, ⟨4, 4, 4⟩⟩ 2) 7) [0] 1 true
        none none none none none none none none)) ∧
    (sortPass (OTree.mk
        (childGeomOf (initGeom ⟨⟨-4, -4, -4⟩, ⟨4, 4, 4⟩⟩ 2) 7) [0] 1 true
        none none none none none none none none)).numNodes ≠ 0 :=
  ⟨c1_octant,
   claim_C3 env2 (update env2 0 c1_state)
     (Reachable.update 0 (Reachable.queueUpdate 0 (Reachable.resize _ _ Reachable.init)))
     7 [] _ c1_octant⟩

/-!
## Claim C8 — cancellation no-op and duplicate queueing

The key fact is that the reinsertion descent's path is a function of the
root octant's geometry alone, so re-processing an object that was just
processed is a no-op apart from the (idempotent) flag and frame updates.
-/

/-- The `insertHere` decision as a function of the octant's geometry. -/
def insHereG (box : BoundingBox) (boxSize : Vector3) (isRoot : Bool)
    (g : OctGeom) : Bool :=
  if isRoot then
    !(decide (containsB g.cullingBox box)) || fitBoundingBox g box boxSize
  else fitBoundingBox g box boxSize

theorem insHere_eq_geom (box : BoundingBox) (bs : Vector3) (isRoot : Bool)
    (t : OTree) : insHere box bs isRoot t = insHereG box bs isRoot t.geom := rfl

theorem insHereG_false_fit {box : BoundingBox} {bs : Vector3} {isRoot : Bool}
    {g : OctGeom} (h : insHereG box bs isRoot g = false) :
    fitBoundingBox g box bs = false := by
  unfold insHereG at h
  cases isRoot with
  | false => simpa using h
  | true => simp at h; exact h.2

/-- The path the reinsertion descent follows, computed from the starting
octant's geometry alone: each step recomputes the would-be child's geometry
exactly as `CreateChildOctant` derives it. -/
def pathFor (box : BoundingBox) (boxCenter boxSize : Vector3) (isRoot : Bool)
    (g : OctGeom) : List ℕ :=
  if insHereG box boxSize isRoot g then []
  else childIndex g boxCenter ::
    pathFor box boxCenter boxSize false (childGeomOf g (childIndex g boxCenter))
termination_by g.level.toNat
decreasing_by
  rename_i h
  have hb : insHereG box boxSize isRoot g = false := by
    cases hI : insHereG box boxSize isRoot g
    · rfl
    · exact absurd hI h
  have hf := insHereG_false_fit hb
  have hlv := fit_false_level g box boxSize hf
  show (childGeomOf g (childIndex g boxCenter)).level.toNat < g.level.toNat
  unfold childGeomOf initGeom
  dsimp only
  omega

theorem pathFor_ins {box : BoundingBox} {bc bs : Vector3} {isRoot : Bool}
    {g : OctGeom} (h : insHereG box bs isRoot g = true) :
    pathFor box bc bs isRoot g = [] := by
  rw [pathFor]
  simp [h]

theorem pathFor_step {box : BoundingBox} {bc bs : Vector3} {isRoot : Bool}
    {g : OctGeom} (h : insHereG box bs isRoot g = false) :
    pathFor box bc bs isRoot g = childIndex g bc ::
      pathFor box bc bs false (childGeomOf g (childIndex g bc)) := by
  rw [pathFor]
  simp [h]

theorem createChain_path (box : BoundingBox) (bc bs : Vector3) :
    ∀ (N : ℕ) (g : OctGeom), g.level.toNat ≤ N →
      (createChain g box bc bs).2 = pathFor box bc bs false g := by
  intro N
  induction N with
  | zero =>
    intro g hN
    cases hf : fitBoundingBox g box bs with
    | true =>
      rw [createChain_fit _ _ _ _ hf,
        pathFor_ins (show insHereG box bs false g = true from hf)]
    | false =>
      have := fit_false_level g box bs hf
      omega
  | succ N ih =>
    intro g hN
    cases hf : fitBoundingBox g box bs with
    | true =>
      rw [createChain_fit _ _ _ _ hf,
        pathFor_ins (show insHereG box bs false g = true from hf)]
    | false =>
      have hlv := fit_false_level g box bs hf
      rw [createChain_not_fit _ _ _ _ hf,
        pathFor_step (show insHereG box bs false g = false from hf)]
      dsimp only
      congr 1
      refine ih (childGeomOf g (childIndex g bc)) ?_
      unfold childGeomOf initGeom
      dsimp only
      omega

theorem descend_path (box : BoundingBox) (bc bs : Vector3) (t : OTree)
    (hgeo : treeGeomOK t) : ∀ isRoot,
    (descend box bc bs isRoot t).2 = pathFor box bc bs isRoot t.geom := by
  induction t using OTree.inductChild with
  | h t ih =>
    intro isRoot
    cases hI : insHere box bs isRoot t with
    | true =>
      rw [descend_ins _ _ _ _ _ hI, pathFor_ins (insHere_eq_geom _ _ _ _ ▸ hI)]
    | false =>
      rw [descend_step _ _ _ _ _ hI, pathFor_step (insHere_eq_geom _ _ _ _ ▸ hI)]
      cases hc : t.child (childIndex t.geom bc) with
      | some c =>
        dsimp only
        congr 1
        have hcg := ((treeGeomOK_iff t).mp hgeo).2 (childIndex t.geom bc) c hc
        rw [ih (childIndex t.geom bc) c hc hcg.2 false, hcg.1]
      | none =>
        dsimp only
        congr 1
        exact createChain_path box bc bs (childGeomOf t.geom (childIndex t.geom bc)).level.toNat
          _ le_rfl

theorem flagClear_idem (l : List ℕ) (n : ℕ) :
    flagClear (flagClear l n) n = flagClear l n := by
  unfold flagClear
  rw [List.filter_filter]
  simp

theorem flagSet_idem (l : List ℕ) (n : ℕ) :
    flagSet (flagSet l n) n = flagSet l n := by
  by_cases h : n ∈ l <;> simp [flagSet, h]

theorem updA_idem {α : Type} (n : ℕ) (v : α) (l : List (ℕ × α)) :
    updA n v (updA n v l) = updA n v l := by
  show (n, v) :: eraseKeyA ((n, v) :: eraseKeyA l n) n = (n, v) :: eraseKeyA l n
  congr 1
  rw [show eraseKeyA ((n, v) :: eraseKeyA l n) n = eraseKeyA (eraseKeyA l n) n by
    simp [eraseKeyA]]
  exact eraseKeyA_of_lookupA_none _ _ (lookupA_eraseKeyA_self l n)

/-- Re-processing an object whose back-reference already names the octant
the descent would choose only re-clears the flag and re-stamps the frame. -/
theorem processEntry_self_stable (env : Env) (f : ℕ) {u : OState}
    (hWF : WFa env u) (n : ℕ)
    (hq : lookupA u.octantOf n = some (pathFor (env.boxes n)
      (centerB (env.boxes n)) (sizeB (env.boxes n)) true u.root.geom)) :
    processEntry env f u (some n) =
      { u with queuedFlags := flagClear u.queuedFlags n,
               lastFrame := updA n f u.lastFrame } := by
  obtain ⟨o, ho, _⟩ := hWF.backref n _ hq
  have hpath : (descend (env.boxes n) (centerB (env.boxes n)) (sizeB (env.boxes n))
      true u.root).2 = pathFor (env.boxes n) (centerB (env.boxes n))
        (sizeB (env.boxes n)) true u.root.geom :=
    descend_path _ _ _ u.root hWF.geom true
  rw [processEntry]
  dsimp only
  rw [hq]
  dsimp only
  rw [ho]
  dsimp only
  by_cases hfast : (decide (containsB o.geom.cullingBox (env.boxes n)) &&
      fitBoundingBox o.geom (env.boxes n) (sizeB (env.boxes n))) = true
  · rw [if_pos hfast]
  · rw [if_neg hfast]
    rw [if_pos (by rw [hpath])]
    have hroot : (descend (env.boxes n) (centerB (env.boxes n)) (sizeB (env.boxes n))
        true u.root).1 = u.root := by
      obtain ⟨_, _, _, _, _, _, d7, _⟩ :=
        descend_spec (env.boxes n) u.root hWF.geom true
      refine d7 ?_
      rw [hpath, ho]
      exact fun hx => Option.noConfusion hx
    rw [hroot]

/-- Processing the same entry twice in a row is the same as processing it
once. -/
theorem processEntry_idem (env : Env) (f : ℕ) {s : OState} (hWF : WFa env s)
    (n : ℕ) :
    processEntry env f (processEntry env f s (some n)) (some n) =
      processEntry env f s (some n) := by
  by_cases hfast1 : (match lookupA s.octantOf n with
    | some q =>
      match octantAt s.root q with
      | some o => decide (containsB o.geom.cullingBox (env.boxes n)) &&
          fitBoundingBox o.geom (env.boxes n) (sizeB (env.boxes n))
      | none => false
    | none => false) = true
  · have hu : processEntry env f s (some n) =
        { s with queuedFlags := flagClear s.queuedFlags n,
                 lastFrame := updA n f s.lastFrame } := by
      rw [processEntry]
      dsimp only
      rw [if_pos hfast1]
    rw [hu]
    rw [processEntry]
    dsimp only
    rw [if_pos hfast1]
    rw [flagClear_idem, updA_idem]
  · have hWFu := (processEntry_WFa env f hWF (some n)).1
    have hgeomu := (processEntry_WFa env f hWF (some n)).2.1
    have hflq : (processEntry env f s (some n)).queuedFlags = flagClear s.queuedFlags n ∧
        (processEntry env f s (some n)).lastFrame = updA n f s.lastFrame ∧
        lookupA (processEntry env f s (some n)).octantOf n =
          some ((descend (env.boxes n) (centerB (env.boxes n)) (sizeB (env.boxes n))
            true s.root).2) := by
      rw [processEntry]
      dsimp only
      rw [if_neg hfast1]
      by_cases hskip : lookupA s.octantOf n =
          some ((descend (env.boxes n) (centerB (env.boxes n)) (sizeB (env.boxes n))
            true s.root).2)
      · rw [if_pos hskip]
        exact ⟨rfl, rfl, hskip⟩
      · rw [if_neg hskip]
        dsimp only
        exact ⟨rfl, rfl, lookupA_updA_self _ _ _⟩
    have hq : lookupA (processEntry env f s (some n)).octantOf n =
        some (pathFor (env.boxes n) (centerB (env.boxes n)) (sizeB (env.boxes n))
          true (processEntry env f s (some n)).root.geom) := by
      rw [hflq.2.2, descend_path _ _ _ s.root hWF.geom true, hgeomu]
    rw [processEntry_self_stable env f hWFu n hq]
    have h1 : flagClear (processEntry env f s (some n)).queuedFlags n =
        (processEntry env f s (some n)).queuedFlags := by
      rw [hflq.1, flagClear_idem]
    have h2 : updA n f (processEntry env f s (some n)).lastFrame =
        (processEntry env f s (some n)).lastFrame := by
      rw [hflq.2.1, updA_idem]
    rw [h1, h2]

/-- Queue entries are carried through a processing step unchanged, and the
step never reads them. -/
theorem processEntry_queue_congr (env : Env) (f : ℕ) (s : OState)
    (Q : List (Option ℕ)) (e : Option ℕ) :
    processEntry env f { s with queue := Q } e =
      { processEntry env f s e with queue := Q } := by
  cases e with
  | none => rfl
  | some n =>
    rw [processEntry, processEntry]
    dsimp only
    by_cases hfast : (match lookupA s.octantOf n with
      | some q =>
        match octantAt s.root q with
        | some o => decide (containsB o.geom.cullingBox (env.boxes n)) &&
            fitBoundingBox o.geom (env.boxes n) (sizeB (env.boxes n))
        | none => false
      | none => false) = true
    · rw [if_pos hfast, if_pos hfast]
    · rw [if_neg hfast, if_neg hfast]
      by_cases hskip : lookupA s.octantOf n =
          some ((descend (env.boxes n) (centerB (env.boxes n)) (sizeB (env.boxes n))
            true s.root).2)
      · rw [if_pos hskip, if_pos hskip]
      · rw [if_neg hskip, if_neg hskip]

theorem foldl_queue_congr (env : Env) (f : ℕ) (es : List (Option ℕ)) :
    ∀ (s : OState) (Q : List (Option ℕ)),
      es.foldl (processEntry env f) { s with queue := Q } =
        { es.foldl (processEntry env f) s with queue := Q } := by
  induction es with
  | nil => intro s Q; rfl
  | cons e es ih =>
    intro s Q
    show es.foldl (processEntry env f) (processEntry env f { s with queue := Q } e) =
      { es.foldl (processEntry env f) (processEntry env f s e) with queue := Q }
    rw [processEntry_queue_congr, ih]

/-- Appending a duplicate of the queue's last entry does not change what
`Update` computes. -/
theorem update_dup_last (env : Env) (f n : ℕ) {v : OState} (hWF : WFa env v) :
    update env f { v with queue := (v.queue ++ [some n]) ++ [some n] } =
      update env f { v with queue := v.queue ++ [some n] } := by
  rw [update, update]
  dsimp only
  rw [foldl_queue_congr env f ((v.queue ++ [some n]) ++ [some n]) v
    ((v.queue ++ [some n]) ++ [some n])]
  rw [foldl_queue_congr env f (v.queue ++ [some n]) v (v.queue ++ [some n])]
  have hW0 : WFa env (v.queue.foldl (processEntry env f) v) :=
    (foldl_processEntry_WFa env f v.queue v hWF).1
  dsimp only
  rw [List.foldl_append, List.foldl_append]
  simp only [List.foldl_cons, List.foldl_nil]
  rw [processEntry_idem env f hW0 n]

set_option maxHeartbeats 1600000 in
/-- Claim C8: `CancelUpdate` on an object with no pending queue entry leaves
the queue, the tree and the back-references untouched (only the queued flag
is cleared, as the code always does), and queueing the same object twice
before an `Update` yields after that `Update` exactly the state that
queueing it once yields: the object is resolved once, from the box read at
update time. -/
theorem claim_C8 (env : Env) (f : ℕ) (s : OState) (h : Reachable env s) (n : ℕ) :
    (some n ∉ s.queue →
      cancelUpdate s n = { s with queuedFlags := flagClear s.queuedFlags n }) ∧
    update env f (queueUpdate (queueUpdate s n) n) =
      update env f (queueUpdate s n) := by
  constructor
  · intro hnm
    rw [cancelUpdate, tombstoneFirst_of_not_mem _ _ hnm]
  · have hWFv : WFa env { s with queuedFlags := flagSet s.queuedFlags n } := by
      have hw := (reachable_WF h).toWFa
      exact ⟨hw.counts, hw.noEmpty, hw.geom, hw.keys, hw.backref, hw.occT,
        hw.occU, hw.contain⟩
    have h2 : queueUpdate (queueUpdate s n) n =
        { { s with queuedFlags := flagSet s.queuedFlags n } with
          queue := (s.queue ++ [some n]) ++ [some n] } := by
      rw [queueUpdate, queueUpdate]
      dsimp only
      rw [flagSet_idem]
    have h1 : queueUpdate s n =
        { { s with queuedFlags := flagSet s.queuedFlags n } with
          queue := s.queue ++ [some n] } := rfl
    rw [h2, h1]
    exact update_dup_last env f n hWFv

theorem claim_C8_witness :
    (cancelUpdate octreeInit 0 =
      { octreeInit with queuedFlags := flagClear octreeInit.queuedFlags 0 }) ∧
    update envAny 0 (queueUpdate (queueUpdate octreeInit 0) 0) =
      update envAny 0 (queueUpdate octreeInit 0) :=
  ⟨(claim_C8 envAny 0 octreeInit Reachable.init 0).1 (by decide),
   (claim_C8 envAny 0 octreeInit Reachable.init 0).2⟩

/-!
## Claim C7 — resize followed by update (corrected)

`Update`'s effect on the tree and the back-references depends only on the
input's tree, back-references and queue, so the resize route and the
fresh-build route agree exactly on the tracked objects.  Pending queue
entries, however, are discarded by `Resize`'s initial queue clear, which
refutes the claim's "no pending object is lost".
-/

theorem processEntry_ro_congr (env : Env) (f : ℕ) (s s' : OState) (e : Option ℕ)
    (hr : s.root = s'.root) (ho : s.octantOf = s'.octantOf) :
    (processEntry env f s e).root = (processEntry env f s' e).root ∧
    (processEntry env f s e).octantOf = (processEntry env f s' e).octantOf := by
  cases e with
  | none => exact ⟨hr, ho⟩
  | some n =>
    rw [processEntry, processEntry]
    dsimp only
    rw [← hr, ← ho]
    by_cases hfast : (match lookupA s.octantOf n with
      | some q =>
        match octantAt s.root q with
        | some o => decide (containsB o.geom.cullingBox (env.boxes n)) &&
            fitBoundingBox o.geom (env.boxes n) (sizeB (env.boxes n))
        | none => false
      | none => false) = true
    · rw [if_pos hfast, if_pos hfast]
      exact ⟨rfl, rfl⟩
    · rw [if_neg hfast, if_neg hfast]
      by_cases hskip : lookupA s.octantOf n =
          some ((descend (env.boxes n) (centerB (env.boxes n)) (sizeB (env.boxes n))
            true s.root).2)
      · rw [if_pos hskip, if_pos hskip]
        exact ⟨rfl, rfl⟩
      · rw [if_neg hskip, if_neg hskip]
        exact ⟨rfl, rfl⟩

theorem foldl_ro_congr (env : Env) (f : ℕ) (es : List (Option ℕ)) :
    ∀ s s' : OState, s.root = s'.root → s.octantOf = s'.octantOf →
      (es.foldl (processEntry env f) s).root =
        (es.foldl (processEntry env f) s').root ∧
      (es.foldl (processEntry env f) s).octantOf =
        (es.foldl (processEntry env f) s').octantOf := by
  induction es with
  | nil => intro s s' hr ho; exact ⟨hr, ho⟩
  | cons e es ih =>
    intro s s' hr ho
    obtain ⟨hr1, ho1⟩ := processEntry_ro_congr env f s s' e hr ho
    exact ih _ _ hr1 ho1

theorem update_ro_congr (env : Env) (f : ℕ) (s s' : OState) (hr : s.root = s'.root)
    (ho : s.octantOf = s'.octantOf) (hq : s.queue = s'.queue) :
    (update env f s).root = (update env f s').root ∧
    (update env f s).octantOf = (update env f s').octantOf := by
  rw [update, update]
  dsimp only
  rw [← hq]
  obtain ⟨h1, h2⟩ := foldl_ro_congr env f s.queue s s' hr ho
  exact ⟨by rw [h1], h2⟩

theorem foldl_queueUpdate_fields (ns : List ℕ) :
    ∀ s : OState, (ns.foldl queueUpdate s).root = s.root ∧
      (ns.foldl queueUpdate s).octantOf = s.octantOf ∧
      (ns.foldl queueUpdate s).queue = s.queue ++ ns.map some := by
  induction ns with
  | nil => intro s; exact ⟨rfl, rfl, by simp⟩
  | cons n ns ih =>
    intro s
    obtain ⟨h1, h2, h3⟩ := ih (queueUpdate s n)
    refine ⟨h1, h2, ?_⟩
    rw [List.foldl_cons, h3]
    show (s.queue ++ [some n]) ++ ns.map some = s.queue ++ (some n :: ns.map some)
    rw [List.append_assoc]
    rfl

/-- Counterexample to C7 as stated: object `0` is queued for insertion but
not yet tracked; `Resize` clears the queue before collecting the (empty)
tree, so the following `Update` never inserts it — while the fresh-build
route (resize first, then queue the object) does insert it.  The pending
object is lost by `Resize`. -/
theorem claim_C7_counterexample :
    lookupA (update envAny 0
      (resize (queueUpdate octreeInit 0) ⟨⟨-1, -1, -1⟩, ⟨1, 1, 1⟩⟩ 1)).octantOf 0 = none ∧
    lookupA (update envAny 0
      (queueUpdate (resize octreeInit ⟨⟨-1, -1, -1⟩, ⟨1, 1, 1⟩⟩ 1) 0)).octantOf 0 =
      some [] := by
  constructor
  · rfl
  · have hfit : fitBoundingBox
        (resize octreeInit ⟨⟨-1, -1, -1⟩, ⟨1, 1, 1⟩⟩ 1).root.geom
        (envAny.boxes 0) (sizeB (envAny.boxes 0)) = true := by
      rw [fitBoundingBox, if_pos]
      exact Or.inl (by norm_num [resize, initGeom, clampZ])
    have hins : insHere (envAny.boxes 0) (sizeB (envAny.boxes 0)) true
        (resize octreeInit ⟨⟨-1, -1, -1⟩, ⟨1, 1, 1⟩⟩ 1).root = true := by
      rw [insHere, if_pos rfl, hfit]
      exact Bool.or_true _
    have hdes := descend_ins (envAny.boxes 0) (centerB (envAny.boxes 0))
      (sizeB (envAny.boxes 0)) true
      (queueUpdate (resize octreeInit ⟨⟨-1, -1, -1⟩, ⟨1, 1, 1⟩⟩ 1) 0).root hins
    have h0 : (update envAny 0
        (queueUpdate (resize octreeInit ⟨⟨-1, -1, -1⟩, ⟨1, 1, 1⟩⟩ 1) 0)).octantOf =
        (processEntry envAny 0
          (queueUpdate (resize octreeInit ⟨⟨-1, -1, -1⟩, ⟨1, 1, 1⟩⟩ 1) 0)
          (some 0)).octantOf := rfl
    rw [h0, processEntry_untracked envAny 0 0
      (queueUpdate (resize octreeInit ⟨⟨-1, -1, -1⟩, ⟨1, 1, 1⟩⟩ 1) 0) rfl]
    dsimp only
    rw [hdes]
    rfl

set_option maxHeartbeats 800000 in
/-- Claim C7, amended: for the objects actually tracked in the tree the
claim holds — `Resize(box, lv)` followed by `Update` produces exactly the
tree and object-to-octant mapping that building a fresh octree with that box
and level count, queueing the collected objects and running `Update`
produces.  (Entries that were only pending in the queue are dropped by
`Resize` and are not reinserted, which is why the original claim fails.) -/
theorem claim_C7_amended (env : Env) (f : ℕ) (s : OState) (h : Reachable env s)
    (box : BoundingBox) (lv : ℤ) :
    (update env f (resize s box lv)).root =
      (update env f ((collectNodes s.root).foldl queueUpdate
        (resize octreeInit box lv))).root ∧
    (update env f (resize s box lv)).octantOf =
      (update env f ((collectNodes s.root).foldl queueUpdate
        (resize octreeInit box lv))).octantOf := by
  have hsd : s.root.sortDirty = false := allClean_sortDirty (reachable_WF h).clean
  obtain ⟨hr, ho, hq⟩ := foldl_queueUpdate_fields (collectNodes s.root)
    (resize octreeInit box lv)
  refine update_ro_congr env f _ _ ?_ ?_ ?_
  · rw [hr]
    show OTree.mk (initGeom box (clampZ lv 1 256)) [] 0 s.root.sortDirty
        none none none none none none none none =
      (resize octreeInit box lv).root
    rw [hsd]
    rfl
  · rw [ho]
    rfl
  · rw [hq]
    show (collectNodes s.root).map some =
      (resize octreeInit box lv).queue ++ (collectNodes s.root).map some
    rfl

theorem claim_C7_amended_witness :
    (update envAny 0 (resize octreeInit ⟨⟨-1, -1, -1⟩, ⟨1, 1, 1⟩⟩ 1)).root =
      (update envAny 0 ((collectNodes octreeInit.root).foldl queueUpdate
        (resize octreeInit ⟨⟨-1, -1, -1⟩, ⟨1, 1, 1⟩⟩ 1))).root ∧
    (update envAny 0 (resize octreeInit ⟨⟨-1, -1, -1⟩, ⟨1, 1, 1⟩⟩ 1)).octantOf =
      (update envAny 0 ((collectNodes octreeInit.root).foldl queueUpdate
        (resize octreeInit ⟨⟨-1, -1, -1⟩, ⟨1, 1, 1⟩⟩ 1))).octantOf :=
  claim_C7_amended envAny 0 octreeInit Reachable.init ⟨⟨-1, -1, -1⟩, ⟨1, 1, 1⟩⟩ 1

/-!
## Claim C4 — `RaycastSingle` against `Raycast`

The raycast queries are read-only walks of the same tree; a query is
determined by the ray (fixed throughout, and folded into the environment
below), the flag and layer masks, and the maximum distance.  Distances are
`WithTop ℚ`, with `⊤` standing for the float code's `M_INFINITY`.
-/

/-- One raycast hit (`RaycastResult` of `Renderer/OctreeNode.h`, not among
the sources; fields as the spec lists them: position, normal, distance,
owning node, sub-object index).  The sentinel no-hit value has distance
`M_INFINITY` (`⊤`) and a null node. -/
structure RaycastResult where
  position : Vector3
  normal : Vector3
  distance : WithTop ℚ
  node : Option ℕ
  subObject : ℕ

/-- Modelled from the spec: what a raycast query consumes per tracked
object — its flag mask, layer mask and world bounding box, the ray's
hit-distance against an arbitrary box (`Ray::HitDistance`, `⊤` on a miss),
and the object's fine `OnRaycast` callback results for this ray. -/
structure REnv where
  flags : ℕ → ℕ
  layer : ℕ → ℕ
  nodeBox : ℕ → BoundingBox
  hitDist : BoundingBox → WithTop ℚ
  onRaycast : ℕ → List RaycastResult

/-- The node filter of the raycast `CollectNodes` overloads (Octree.cpp,
lines 409/435): all required flags present and a nonzero layer-mask
intersection. -/
def nodeMatch (renv : REnv) (nodeFlags layerMask : ℕ) (n : ℕ) : Bool :=
  (Nat.land (renv.flags n) nodeFlags == nodeFlags) &&
  (Nat.land (renv.layer n) layerMask != 0)

mutual

/-- `Octree::CollectNodes` (`RaycastResult` overload, Octree.cpp, lines
399–425): prune the octant when the ray's distance to its culling box is not
below the budget, call `OnRaycast` of every matching node in list order, and
recurse into the children in index order. -/
def collectHits (renv : REnv) (nf lm : ℕ) (maxD : WithTop ℚ) :
    OTree → List RaycastResult
  | .mk g ns _ _ c0 c1 c2 c3 c4 c5 c6 c7 =>
    if maxD ≤ renv.hitDist g.cullingBox then []
    else
      (ns.flatMap fun n => if nodeMatch renv nf lm n then renv.onRaycast n else []) ++
      (ocollectHits renv nf lm maxD c0 ++ (ocollectHits renv nf lm maxD c1 ++
        (ocollectHits renv nf lm maxD c2 ++ (ocollectHits renv nf lm maxD c3 ++
          (ocollectHits renv nf lm maxD c4 ++ (ocollectHits renv nf lm maxD c5 ++
            (ocollectHits renv nf lm maxD c6 ++ ocollectHits renv nf lm maxD c7)))))))

def ocollectHits (renv : REnv) (nf lm : ℕ) (maxD : WithTop ℚ) :
    Option OTree → List RaycastResult
  | none => []
  | some c => collectHits renv nf lm maxD c

end

mutual

/-- `Octree::CollectNodes` (candidate overload, Octree.cpp, lines 427–448):
the same pruning walk, collecting each matching node paired with the ray's
hit distance to the node's world bounding box when that distance is below
the budget. -/
def collectCands (renv : REnv) (nf lm : ℕ) (maxD : WithTop ℚ) :
    OTree → List (ℕ × WithTop ℚ)
  | .mk g ns _ _ c0 c1 c2 c3 c4 c5 c6 c7 =>
    if maxD ≤ renv.hitDist g.cullingBox then []
    else
      (ns.flatMap fun n =>
        if nodeMatch renv nf lm n then
          if renv.hitDist (renv.nodeBox n) < maxD then
            [(n, renv.hitDist (renv.nodeBox n))]
          else []
        else []) ++
      (ocollectCands renv nf lm maxD c0 ++ (ocollectCands renv nf lm maxD c1 ++
        (ocollectCands renv nf lm maxD c2 ++ (ocollectCands renv nf lm maxD c3 ++
          (ocollectCands renv nf lm maxD c4 ++ (ocollectCands renv nf lm maxD c5 ++
            (ocollectCands renv nf lm maxD c6 ++ ocollectCands renv nf lm maxD c7)))))))

def ocollectCands (renv : REnv) (nf lm : ℕ) (maxD : WithTop ℚ) :
    Option OTree → List (ℕ × WithTop ℚ)
  | none => []
  | some c => collectCands renv nf lm maxD c

end

/-- `Octree::Raycast` (Octree.cpp, lines 197–202): collect all exact hits,
then sort ascending by distance (`CompareRaycastResults`). -/
def raycastAll (renv : REnv) (nf lm : ℕ) (maxD : WithTop ℚ) (t : OTree) :
    List RaycastResult :=
  (collectHits renv nf lm maxD t).mergeSort fun a b => decide (a.distance ≤ b.distance)

/-- The early-out loop of `Octree::RaycastSingle` (Octree.cpp, lines
211–225): process candidates while the bounding-box bound is below
`Min(closestHit, maxDistance)`; after a callback that appended results,
lower `closestHit` to the last appended result's distance. -/
def phase2 (renv : REnv) (maxD : WithTop ℚ) :
    List (ℕ × WithTop ℚ) → WithTop ℚ → List RaycastResult → List RaycastResult
  | [], _, acc => acc
  | (n, d) :: rest, closest, acc =>
    if d < min closest maxD then
      match (renv.onRaycast n).getLast? with
      | some r => phase2 renv maxD rest (min closest r.distance) (acc ++ renv.onRaycast n)
      | none => phase2 renv maxD rest closest (acc ++ renv.onRaycast n)
    else acc

/-- The no-hit sentinel of `Octree::RaycastSingle` (Octree.cpp, lines
233–239). -/
def noHit : RaycastResult := ⟨⟨0, 0, 0⟩, ⟨0, 0, 0⟩, ⊤, none, 0⟩

/-- The candidate list of `Octree::RaycastSingle` sorted ascending by the
bounding-box distance bound (`CompareNodeDistances`, Octree.cpp, line 209). -/
def candidatesSorted (renv : REnv) (nf lm : ℕ) (maxD : WithTop ℚ) (t : OTree) :
    List (ℕ × WithTop ℚ) :=
  (collectCands renv nf lm maxD t).mergeSort fun a b => decide (a.2 ≤ b.2)

/-- The exact hits `RaycastSingle`'s early-out loop accumulates
(`finalRes`). -/
def finalHits (renv : REnv) (nf lm : ℕ) (maxD : WithTop ℚ) (t : OTree) :
    List RaycastResult :=
  phase2 renv maxD (candidatesSorted renv nf lm maxD t) ⊤ []

/-- `Octree::RaycastSingle` (Octree.cpp, lines 204–241): sort the
bounding-box candidates by their distance bound, run the early-out loop,
then return the closest exact hit, or the sentinel when there is none. -/
def raycastSingle (renv : REnv) (nf lm : ℕ) (maxD : WithTop ℚ) (t : OTree) :
    RaycastResult :=
  match (finalHits renv nf lm maxD t).mergeSort
      (fun a b => decide (a.distance ≤ b.distance)) with
  | r :: _ => r
  | [] => noHit

@[simp] theorem ocollectHits_none (renv : REnv) (nf lm : ℕ) (maxD : WithTop ℚ) :
    ocollectHits renv nf lm maxD none = [] := rfl

@[simp] theorem ocollectHits_some (renv : REnv) (nf lm : ℕ) (maxD : WithTop ℚ)
    (c : OTree) : ocollectHits renv nf lm maxD (some c) = collectHits renv nf lm maxD c :=
  rfl

@[simp] theorem ocollectCands_none (renv : REnv) (nf lm : ℕ) (maxD : WithTop ℚ) :
    ocollectCands renv nf lm maxD none = [] := rfl

@[simp] theorem ocollectCands_some (renv : REnv) (nf lm : ℕ) (maxD : WithTop ℚ)
    (c : OTree) : ocollectCands renv nf lm maxD (some c) = collectCands renv nf lm maxD c :=
  rfl

theorem collectHits_eq (renv : REnv) (nf lm : ℕ) (maxD : WithTop ℚ) (t : OTree) :
    collectHits renv nf lm maxD t =
      if maxD ≤ renv.hitDist t.geom.cullingBox then []
      else
        (t.nodes.flatMap fun n =>
          if nodeMatch renv nf lm n then renv.onRaycast n else []) ++
        (ocollectHits renv nf lm maxD (t.child 0) ++ (ocollectHits renv nf lm maxD (t.child 1) ++
          (ocollectHits renv nf lm maxD (t.child 2) ++ (ocollectHits renv nf lm maxD (t.child 3) ++
            (ocollectHits renv nf lm maxD (t.child 4) ++ (ocollectHits renv nf lm maxD (t.child 5) ++
              (ocollectHits renv nf lm maxD (t.child 6) ++
                ocollectHits renv nf lm maxD (t.child 7)))))))) := by
  cases t
  rfl

theorem collectCands_eq (renv : REnv) (nf lm : ℕ) (maxD : WithTop ℚ) (t : OTree) :
    collectCands renv nf lm maxD t =
      if maxD ≤ renv.hitDist t.geom.cullingBox then []
      else
        (t.nodes.flatMap fun n =>
          if nodeMatch renv nf lm n then
            if renv.hitDist (renv.nodeBox n) < maxD then
              [(n, renv.hitDist (renv.nodeBox n))]
            else []
          else []) ++
        (ocollectCands renv nf lm maxD (t.child 0) ++ (ocollectCands renv nf lm maxD (t.child 1) ++
          (ocollectCands renv nf lm maxD (t.child 2) ++ (ocollectCands renv nf lm maxD (t.child 3) ++
            (ocollectCands renv nf lm maxD (t.child 4) ++ (ocollectCands renv nf lm maxD (t.child 5) ++
              (ocollectCands renv nf lm maxD (t.child 6) ++
                ocollectCands renv nf lm maxD (t.child 7)))))))) := by
  cases t
  rfl

theorem flatMap_ext {α β : Type} (l : List α) {f g : α → List β}
    (h : ∀ a ∈ l, f a = g a) : l.flatMap f = l.flatMap g := by
  induction l with
  | nil => rfl
  | cons a l ih =>
    rw [List.flatMap_cons, List.flatMap_cons, h a (List.mem_cons_self a l),
      ih (fun b hb => h b (List.mem_cons_of_mem a hb))]

/-- Under the callback contract — bounding-box distance lower-bounds every
reported hit, and every reported hit is within the distance budget — the
exact-hit collection is exactly the concatenation of the callbacks of the
collected candidates: a candidate filtered out by its bound can report no
hit at all. -/
theorem collectHits_eq_cands (renv : REnv) (nf lm : ℕ) (maxD : WithTop ℚ)
    (H1 : ∀ n r, r ∈ renv.onRaycast n → renv.hitDist (renv.nodeBox n) ≤ r.distance)
    (H2 : ∀ n r, r ∈ renv.onRaycast n → r.distance < maxD) (t : OTree) :
    collectHits renv nf lm maxD t =
      (collectCands renv nf lm maxD t).flatMap fun p => renv.onRaycast p.1 := by
  induction t using OTree.inductChild with
  | h t ih =>
    rw [collectHits_eq, collectCands_eq]
    by_cases hp : maxD ≤ renv.hitDist t.geom.cullingBox
    · rw [if_pos hp, if_pos hp]
      rfl
    · rw [if_neg hp, if_neg hp]
      rw [List.flatMap_append, List.flatMap_assoc]
      have hc : ∀ j, ocollectHits renv nf lm maxD (t.child j) =
          (ocollectCands renv nf lm maxD (t.child j)).flatMap
            fun p => renv.onRaycast p.1 := by
        intro j
        cases hcj : t.child j with
        | none => rfl
        | some c =>
          rw [ocollectHits_some, ocollectCands_some]
          exact ih j c hcj
      congr 1
      · refine flatMap_ext t.nodes ?_
        intro n _
        by_cases hm : nodeMatch renv nf lm n
        · rw [if_pos hm, if_pos hm]
          by_cases hd : renv.hitDist (renv.nodeBox n) < maxD
          · rw [if_pos hd]
            simp
          · rw [if_neg hd]
            rw [List.flatMap_nil]
            rw [List.eq_nil_iff_forall_not_mem]
            intro r hr
            exact hd (lt_of_le_of_lt (H1 n r hr) (H2 n r hr))
        · rw [if_neg hm, if_neg hm]
          rfl
      · simp only [List.flatMap_append]
        rw [hc 0, hc 1, hc 2, hc 3, hc 4, hc 5, hc 6, hc 7]

/-- Every collected candidate pair carries the ray's distance to that
node's bounding box as its second component. -/
theorem collectCands_snd (renv : REnv) (nf lm : ℕ) (maxD : WithTop ℚ) (t : OTree) :
    ∀ p ∈ collectCands renv nf lm maxD t,
      p.2 = renv.hitDist (renv.nodeBox p.1) := by
  induction t using OTree.inductChild with
  | h t ih =>
    intro p hp
    rw [collectCands_eq] at hp
    by_cases hpr : maxD ≤ renv.hitDist t.geom.cullingBox
    · rw [if_pos hpr] at hp
      exact absurd hp (List.not_mem_nil p)
    · rw [if_neg hpr] at hp
      have hchild : ∀ j, p ∈ ocollectCands renv nf lm maxD (t.child j) →
          p.2 = renv.hitDist (renv.nodeBox p.1) := by
        intro j hj
        cases hcj : t.child j with
        | none => rw [hcj] at hj; exact absurd hj (List.not_mem_nil p)
        | some c =>
          rw [hcj, ocollectCands_some] at hj
          exact ih j c hcj p hj
      rcases List.mem_append.mp hp with hp | hp
      · rw [List.mem_flatMap] at hp
        obtain ⟨n, _, hpn⟩ := hp
        by_cases hm : nodeMatch renv nf lm n
        · rw [if_pos hm] at hpn
          by_cases hd : renv.hitDist (renv.nodeBox n) < maxD
          · rw [if_pos hd] at hpn
            rcases List.mem_singleton.mp hpn with rfl
            rfl
          · rw [if_neg hd] at hpn
            exact absurd hpn (List.not_mem_nil p)
        · rw [if_neg hm] at hpn
          exact absurd hpn (List.not_mem_nil p)
      · rcases List.mem_append.mp hp with hp | hp
        · exact hchild 0 hp
        rcases List.mem_append.mp hp with hp | hp
        · exact hchild 1 hp
        rcases List.mem_append.mp hp with hp | hp
        · exact hchild 2 hp
        rcases List.mem_append.mp hp with hp | hp
        · exact hchild 3 hp
        rcases List.mem_append.mp hp with hp | hp
        · exact hchild 4 hp
        rcases List.mem_append.mp hp with hp | hp
        · exact hchild 5 hp
        rcases List.mem_append.mp hp with hp | hp
        · exact hchild 6 hp
        exact hchild 7 hp

theorem phase2_nil (renv : REnv) (maxD closest : WithTop ℚ)
    (acc : List RaycastResult) : phase2 renv maxD [] closest acc = acc := rfl

theorem phase2_cons (renv : REnv) (maxD : WithTop ℚ) (n : ℕ) (d : WithTop ℚ)
    (rest : List (ℕ × WithTop ℚ)) (closest : WithTop ℚ) (acc : List RaycastResult) :
    phase2 renv maxD ((n, d) :: rest) closest acc =
      if d < min closest maxD then
        match (renv.onRaycast n).getLast? with
        | some r => phase2 renv maxD rest (min closest r.distance) (acc ++ renv.onRaycast n)
        | none => phase2 renv maxD rest closest (acc ++ renv.onRaycast n)
      else acc := rfl

/-- Specification of the early-out loop: it processes a prefix `P` of the
sorted candidate list (appending exactly the callbacks of `P` to the
accumulator) and stops at a suffix `D` none of whose candidates can report a
hit strictly closer than something already in the final list. -/
theorem phase2_spec (renv : REnv) (maxD : WithTop ℚ)
    (H1 : ∀ n r, r ∈ renv.onRaycast n → renv.hitDist (renv.nodeBox n) ≤ r.distance)
    (H2 : ∀ n r, r ∈ renv.onRaycast n → r.distance < maxD) :
    ∀ (S : List (ℕ × WithTop ℚ)) (closest : WithTop ℚ) (acc : List RaycastResult),
      (∀ p ∈ S, p.2 = renv.hitDist (renv.nodeBox p.1)) →
      S.Sorted (fun a b => a.2 ≤ b.2) →
      (closest = ⊤ ∨ ∃ r ∈ acc, r.distance ≤ closest) →
      ∃ P D, S = P ++ D ∧
        phase2 renv maxD S closest acc =
          acc ++ P.flatMap (fun p => renv.onRaycast p.1) ∧
        ∀ p ∈ D, ∀ r ∈ renv.onRaycast p.1,
          ∃ r0 ∈ phase2 renv maxD S closest acc, r0.distance ≤ r.distance := by
  intro S
  induction S with
  | nil =>
    intro closest acc _ _ _
    refine ⟨[], [], rfl, by simp [phase2_nil], ?_⟩
    intro p hp
    exact absurd hp (List.not_mem_nil p)
  | cons pd rest ih =>
    obtain ⟨n, d⟩ := pd
    intro closest acc hsnd hsort hclo
    rw [List.sorted_cons] at hsort
    by_cases hlt : d < min closest maxD
    · rw [phase2_cons, if_pos hlt]
      cases hL : (renv.onRaycast n).getLast? with
      | some rl =>
        dsimp only
        have hclo' : min closest rl.distance = ⊤ ∨
            ∃ r ∈ acc ++ renv.onRaycast n, r.distance ≤ min closest rl.distance := by
          rcases le_total closest rl.distance with hc | hc
          · rcases hclo with hT | ⟨r0, hr0, hle⟩
            · subst hT
              rw [min_eq_left hc]
              exact Or.inl rfl
            · exact Or.inr ⟨r0, List.mem_append_left _ hr0, by
                rw [min_eq_left hc]; exact hle⟩
          · refine Or.inr ⟨rl, List.mem_append_right _ (List.mem_of_mem_getLast? hL), ?_⟩
            rw [min_eq_right hc]
        obtain ⟨P', D', hPD, heq, hD⟩ := ih (min closest rl.distance)
          (acc ++ renv.onRaycast n)
          (fun p hp => hsnd p (List.mem_cons_of_mem _ hp)) hsort.2 hclo'
        refine ⟨(n, d) :: P', D', by rw [hPD]; rfl, ?_, ?_⟩
        · rw [heq, List.flatMap_cons, List.append_assoc]
        · intro p hp r hr
          exact hD p hp r hr
      | none =>
        dsimp only
        obtain ⟨P', D', hPD, heq, hD⟩ := ih closest (acc ++ renv.onRaycast n)
          (fun p hp => hsnd p (List.mem_cons_of_mem _ hp)) hsort.2
          (by
            rcases hclo with hT | ⟨r0, hr0, hle⟩
            · exact Or.inl hT
            · exact Or.inr ⟨r0, List.mem_append_left _ hr0, hle⟩)
        refine ⟨(n, d) :: P', D', by rw [hPD]; rfl, ?_, ?_⟩
        · rw [heq, List.flatMap_cons, List.append_assoc]
        · intro p hp r hr
          exact hD p hp r hr
    · rw [phase2_cons, if_neg hlt]
      refine ⟨[], (n, d) :: rest, rfl, by simp, ?_⟩
      intro p hp r hr
      have hdp : d ≤ p.2 := by
        rcases List.mem_cons.mp hp with rfl | hp'
        · exact le_refl _
        · exact hsort.1 p hp'
      have hp2 : p.2 ≤ r.distance := by
        rw [hsnd p hp]
        exact H1 p.1 r hr
      have hmind : min closest maxD ≤ d := le_of_not_lt hlt
      rcases le_total closest maxD with hcm | hcm
      · rw [min_eq_left hcm] at hmind
        rcases hclo with hT | ⟨r0, hr0, hle⟩
        · subst hT
          have hmt : maxD = ⊤ := top_le_iff.mp hcm
          rw [hmt] at H2
          have h1 := H2 p.1 r hr
          have h2 : (⊤ : WithTop ℚ) ≤ r.distance := le_trans (le_trans hmind hdp) hp2
          exact absurd h1 (not_lt_of_le h2)
        · exact ⟨r0, hr0, le_trans hle (le_trans (le_trans hmind hdp) hp2)⟩
      · rw [min_eq_right hcm] at hmind
        have h1 := H2 p.1 r hr
        have h2 : maxD ≤ r.distance := le_trans (le_trans hmind hdp) hp2
        exact absurd h1 (not_lt_of_le h2)

theorem candidatesSorted_perm (renv : REnv) (nf lm : ℕ) (maxD : WithTop ℚ)
    (t : OTree) :
    (candidatesSorted renv nf lm maxD t).Perm (collectCands renv nf lm maxD t) :=
  List.mergeSort_perm _ _

theorem candidatesSorted_sorted (renv : REnv) (nf lm : ℕ) (maxD : WithTop ℚ)
    (t : OTree) :
    (candidatesSorted renv nf lm maxD t).Sorted fun a b => a.2 ≤ b.2 := by
  have h := @List.sorted_mergeSort (ℕ × WithTop ℚ) (fun a b => decide (a.2 ≤ b.2))
    (fun a b c hab hbc => by
      simp only [decide_eq_true_eq] at hab hbc ⊢
      exact le_trans hab hbc)
    (fun a b => by
      simp only [Bool.or_eq_true, decide_eq_true_eq]
      exact le_total a.2 b.2)
    (collectCands renv nf lm maxD t)
  exact h.imp fun hab => of_decide_eq_true hab

theorem raycastAll_perm (renv : REnv) (nf lm : ℕ) (maxD : WithTop ℚ) (t : OTree) :
    (raycastAll renv nf lm maxD t).Perm (collectHits renv nf lm maxD t) :=
  List.mergeSort_perm _ _

theorem raycastAll_sorted (renv : REnv) (nf lm : ℕ) (maxD : WithTop ℚ) (t : OTree) :
    (raycastAll renv nf lm maxD t).Sorted fun a b => a.distance ≤ b.distance := by
  have h := @List.sorted_mergeSort RaycastResult
    (fun a b => decide (a.distance ≤ b.distance))
    (fun a b c hab hbc => by
      simp only [decide_eq_true_eq] at hab hbc ⊢
      exact le_trans hab hbc)
    (fun a b => by
      simp only [Bool.or_eq_true, decide_eq_true_eq]
      exact le_total a.distance b.distance)
    (collectHits renv nf lm maxD t)
  exact h.imp fun hab => of_decide_eq_true hab

/-- Every member of the final list is a genuine collected hit, and every
collected hit is matched or beaten by some member of the final list. -/
theorem finalHits_spec (renv : REnv) (nf lm : ℕ) (maxD : WithTop ℚ) (t : OTree)
    (H1 : ∀ n r, r ∈ renv.onRaycast n → renv.hitDist (renv.nodeBox n) ≤ r.distance)
    (H2 : ∀ n r, r ∈ renv.onRaycast n → r.distance < maxD) :
    (∀ x ∈ finalHits renv nf lm maxD t, x ∈ collectHits renv nf lm maxD t) ∧
    (∀ y ∈ collectHits renv nf lm maxD t,
      ∃ r0 ∈ finalHits renv nf lm maxD t, r0.distance ≤ y.distance) := by
  have hperm := candidatesSorted_perm renv nf lm maxD t
  have hsnd : ∀ p ∈ candidatesSorted renv nf lm maxD t,
      p.2 = renv.hitDist (renv.nodeBox p.1) :=
    fun p hp => collectCands_snd renv nf lm maxD t p (hperm.mem_iff.mp hp)
  obtain ⟨P, D, hPD, hF, hD⟩ := phase2_spec renv maxD H1 H2
    (candidatesSorted renv nf lm maxD t) ⊤ [] hsnd
    (candidatesSorted_sorted renv nf lm maxD t) (Or.inl rfl)
  have hFP : finalHits renv nf lm maxD t =
      P.flatMap fun p => renv.onRaycast p.1 := by
    rw [finalHits, hF]
    rfl
  have hHits := collectHits_eq_cands renv nf lm maxD H1 H2 t
  constructor
  · intro x hx
    rw [hFP, List.mem_flatMap] at hx
    obtain ⟨p, hpP, hxg⟩ := hx
    rw [hHits, List.mem_flatMap]
    refine ⟨p, hperm.mem_iff.mp ?_, hxg⟩
    rw [hPD]
    exact List.mem_append_left D hpP
  · intro y hy
    rw [hHits, List.mem_flatMap] at hy
    obtain ⟨p, hpC, hyg⟩ := hy
    have hpS : p ∈ candidatesSorted renv nf lm maxD t := hperm.mem_iff.mpr hpC
    rw [hPD] at hpS
    rcases List.mem_append.mp hpS with hpP | hpD
    · exact ⟨y, by rw [hFP]; exact List.mem_flatMap.mpr ⟨p, hpP, hyg⟩, le_refl _⟩
    · exact hD p hpD y hyg

set_option maxHeartbeats 800000 in
/-- Claim C4: under the callback contract — the bounding-box distance is a
lower bound on every reported hit distance, and reported hits respect the
distance budget — `RaycastSingle` agrees with `Raycast`: when `Raycast`'s
sorted result list is empty `RaycastSingle` returns the no-hit sentinel, and
otherwise it returns an element of that list whose distance equals the
minimum distance (the distance of the sorted list's head). -/
theorem claim_C4 (renv : REnv) (nf lm : ℕ) (maxD : WithTop ℚ) (t : OTree)
    (H1 : ∀ n r, r ∈ renv.onRaycast n → renv.hitDist (renv.nodeBox n) ≤ r.distance)
    (H2 : ∀ n r, r ∈ renv.onRaycast n → r.distance < maxD) :
    (raycastAll renv nf lm maxD t = [] → raycastSingle renv nf lm maxD t = noHit) ∧
    ∀ r rest, raycastAll renv nf lm maxD t = r :: rest →
      raycastSingle renv nf lm maxD t ∈ raycastAll renv nf lm maxD t ∧
      (raycastSingle renv nf lm maxD t).distance = r.distance := by
  obtain ⟨hsub, hmin⟩ := finalHits_spec renv nf lm maxD t H1 H2
  have hallperm := raycastAll_perm renv nf lm maxD t
  have hFperm : ((finalHits renv nf lm maxD t).mergeSort
      (fun a b => decide (a.distance ≤ b.distance))).Perm
        (finalHits renv nf lm maxD t) := List.mergeSort_perm _ _
  have hFsorted : ((finalHits renv nf lm maxD t).mergeSort
      (fun a b => decide (a.distance ≤ b.distance))).Sorted
        (fun a b => a.distance ≤ b.distance) := by
    have h := @List.sorted_mergeSort RaycastResult
      (fun a b => decide (a.distance ≤ b.distance))
      (fun a b c hab hbc => by
        simp only [decide_eq_true_eq] at hab hbc ⊢
        exact le_trans hab hbc)
      (fun a b => by
        simp only [Bool.or_eq_true, decide_eq_true_eq]
        exact le_total a.distance b.distance)
      (finalHits renv nf lm maxD t)
    exact h.imp fun hab => of_decide_eq_true hab
  constructor
  · intro hA
    have hhits : collectHits renv nf lm maxD t = [] := by
      rw [hA] at hallperm
      exact hallperm.symm.eq_nil
    have hFnil : finalHits renv nf lm maxD t = [] := by
      rw [List.eq_nil_iff_forall_not_mem]
      intro x hx
      have := hsub x hx
      rw [hhits] at this
      exact List.not_mem_nil x this
    rw [raycastSingle, hFnil, List.mergeSort_nil]
  · intro r rest hA
    have hrAll : r ∈ raycastAll renv nf lm maxD t := by
      rw [hA]
      exact List.mem_cons_self r rest
    have hrmin : ∀ y ∈ raycastAll renv nf lm maxD t, r.distance ≤ y.distance := by
      have hs := raycastAll_sorted renv nf lm maxD t
      rw [hA] at hs
      intro y hy
      rw [hA] at hy
      rcases List.mem_cons.mp hy with rfl | hy'
      · exact le_refl _
      · exact List.rel_of_sorted_cons hs y hy'
    have hrhits : r ∈ collectHits renv nf lm maxD t := hallperm.mem_iff.mp hrAll
    obtain ⟨r0, hr0F, hr0le⟩ := hmin r hrhits
    cases hFs : (finalHits renv nf lm maxD t).mergeSort
        (fun a b => decide (a.distance ≤ b.distance)) with
    | nil =>
      rw [hFs] at hFperm
      have := hFperm.symm.eq_nil
      rw [this] at hr0F
      exact absurd hr0F (List.not_mem_nil r0)
    | cons r1 rest1 =>
      have hsingle : raycastSingle renv nf lm maxD t = r1 := by
        rw [raycastSingle, hFs]
      have hr1F : r1 ∈ finalHits renv nf lm maxD t := by
        refine hFperm.mem_iff.mp ?_
        rw [hFs]
        exact List.mem_cons_self r1 rest1
      have hr1min : ∀ x ∈ finalHits renv nf lm maxD t, r1.distance ≤ x.distance := by
        intro x hx
        have hx' : x ∈ r1 :: rest1 := by
          rw [← hFs]
          exact hFperm.mem_iff.mpr hx
        rcases List.mem_cons.mp hx' with rfl | hx''
        · exact le_refl _
        · have hs := hFsorted
          rw [hFs] at hs
          exact List.rel_of_sorted_cons hs x hx''
      have hsingle_mem : raycastSingle renv nf lm maxD t ∈ raycastAll renv nf lm maxD t := by
        rw [hsingle]
        exact hallperm.mem_iff.mpr (hsub r1 hr1F)
      refine ⟨hsingle_mem, ?_⟩
      have hs2 : r.distance ≤ r1.distance := by
        rw [← hsingle]
        exact hrmin _ hsingle_mem
      rw [hsingle]
      exact le_antisymm (le_trans (hr1min r0 hr0F) hr0le) hs2

/-- A concrete hit for exercising the raycast theorems. -/
def hit1 : RaycastResult := ⟨⟨0, 0, 0⟩, ⟨0, 0, 0⟩, ((5 : ℚ) : WithTop ℚ), some 0, 0⟩

/-- A raycast environment with a single object whose callback reports one
hit at distance `5`, with a bounding-box bound of `1`. -/
def renv1 : REnv :=
  ⟨fun _ => 1, fun _ => 1, fun _ => ⟨⟨0, 0, 0⟩, ⟨1, 1, 1⟩⟩,
   fun _ => ((1 : ℚ) : WithTop ℚ), fun _ => [hit1]⟩

/-- A one-octant tree holding the single object. -/
def tray : OTree :=
  OTree.mk (initGeom ⟨⟨-4, -4, -4⟩, ⟨4, 4, 4⟩⟩ 1) [0] 1 false
    none none none none none none none none

theorem c4_all : raycastAll renv1 1 1 10 tray = [hit1] := by
  rw [raycastAll]
  rw [show collectHits renv1 1 1 10 tray = [hit1] from by
    rw [collectHits_eq, if_neg (by decide)]
    rfl]
  exact List.mergeSort_singleton hit1

theorem c4_H1 : ∀ n r, r ∈ renv1.onRaycast n →
    renv1.hitDist (renv1.nodeBox n) ≤ r.distance := by
  intro n r hr
  rcases List.mem_singleton.mp hr with rfl
  show ((1 : ℚ) : WithTop ℚ) ≤ hit1.distance
  decide

theorem c4_H2 : ∀ n r, r ∈ renv1.onRaycast n → r.distance < (10 : WithTop ℚ) := by
  intro n r hr
  rcases List.mem_singleton.mp hr with rfl
  decide

theorem claim_C4_witness :
    raycastAll renv1 1 1 10 tray = hit1 :: [] ∧
    (raycastSingle renv1 1 1 10 tray ∈ raycastAll renv1 1 1 10 tray ∧
     (raycastSingle renv1 1 1 10 tray).distance = hit1.distance) :=
  ⟨c4_all, (claim_C4 renv1 1 1 10 tray c4_H1 c4_H2).2 hit1 [] c4_all⟩

end Turso3D
